import Mathlib

/-!
Shallow embedding of the seam-carving engine of SeamCarver.cpp / SeamCarver.h
(content-aware image resizing), together with proofs of the specified
properties of its energy model, its three seam-search strategies, its
seam-removal operation and its resize orchestration.

Modelling conventions:
* cv::Mat grids become rectangular `List (List _)` values, row major;
  `CV_64F` doubles become `ℚ` (the algorithms only add and compare energies).
* The member functions of the `SeamCarver` class become pure functions; the
  two mutable members (`image`, `originalImage`) become an explicit `Carver`
  state threaded through the operations, and a C++ `throw` becomes an
  `Except.error` result.
* The `while` loop of the Dijkstra search becomes an iterated step function
  with an explicit fuel; the fuel is proved below to exceed the number of
  iterations the loop can perform, so the run always reaches the state in
  which the C++ loop exits.
-/

namespace SeamCarver

/-- A pixel: a fixed tuple of colour channel intensities (B, G, R as in OpenCV). -/
abbrev Pixel : Type := ℕ × ℕ × ℕ

/-- An image: a dense row-major 2-D grid of pixels. -/
abbrev Image : Type := List (List Pixel)

/-- An energy grid: a dense 2-D grid of rational scores (CV_64F in the source). -/
abbrev Grid : Type := List (List ℚ)

/-- Row count of a grid, as cv::Mat::rows. -/
def gridRows (g : List (List α)) : ℕ := g.length

/-- Column count of a grid, as cv::Mat::cols (length of the first row). -/
def gridCols (g : List (List α)) : ℕ := (g.headD []).length

/-- Rectangularity invariant of cv::Mat: every row has the common length. -/
abbrev Rect (g : List (List α)) : Prop := ∀ r ∈ g, r.length = gridCols g

/-- Entry (i, j) of an energy grid, 0 outside the grid. -/
def ent (g : Grid) (i j : ℕ) : ℚ := (g.getD i []).getD j 0

/-- First index attaining the minimum of a row, scanning left to right with a
strict comparison, exactly as cv::minMaxLoc reports minLoc on a single row.
Arguments: remaining entries, best index so far, best value so far, index of
the next entry. -/
def argminAux : List ℚ → ℕ → ℚ → ℕ → ℕ
  | [], bi, _, _ => bi
  | x :: xs, bi, bv, i => if x < bv then argminAux xs i x (i + 1) else argminAux xs bi bv (i + 1)

/-- Index of the first minimum of a row (cv::minMaxLoc). -/
def argminIdx : List ℚ → ℕ
  | [] => 0
  | x :: xs => argminAux xs 0 x 1

/-- Choice of the next column among the up-to-three horizontally adjacent
candidates of a row: start at the current column, prefer diagonal-left on a
strict improvement, then diagonal-right on a strict improvement over the
running best. This is the common logic of the DP backtracking step
(SeamCarver.cpp lines 86-105, on a cumulative-cost row) and of the greedy step
(lines 129-148, on a raw energy row). -/
def pickNeighbor (cols : ℕ) (row : List ℚ) (j : ℕ) : ℕ :=
  let best0 : ℚ × ℕ := (row.getD j 0, j)
  let best1 : ℚ × ℕ :=
    if 0 < j ∧ row.getD (j - 1) 0 < best0.1 then (row.getD (j - 1) 0, j - 1) else best0
  if j < cols - 1 ∧ row.getD (j + 1) 0 < best1.1 then j + 1 else best1.2

/-- Minimum cumulative cost among the up-to-three upper neighbours
(SeamCarver.cpp lines 53-64): start from directly above, then fold in the
diagonal-left and diagonal-right neighbours where they exist. -/
def minPrev3 (cols : ℕ) (prev : List ℚ) (j : ℕ) : ℚ :=
  let m0 := prev.getD j 0
  let m1 := if 0 < j then min m0 (prev.getD (j - 1) 0) else m0
  if j < cols - 1 then min m1 (prev.getD (j + 1) 0) else m1

/-- One row of the cumulative-cost table from the previous row
(SeamCarver.cpp lines 49-68). -/
def dpNextRow (cols : ℕ) (prev cur : List ℚ) : List ℚ :=
  (List.range cols).map fun j => cur.getD j 0 + minPrev3 cols prev j

/-- Cumulative-cost rows, starting from a given first row. -/
def dpRowsAux (cols : ℕ) : List ℚ → List (List ℚ) → List (List ℚ)
  | prev, [] => [prev]
  | prev, cur :: rest => prev :: dpRowsAux cols (dpNextRow cols prev cur) rest

/-- The cumulative-cost (DP) table (SeamCarver.cpp lines 41-68): the first row
is copied from the energy grid, each later row is built from its predecessor. -/
def dpTable (E : Grid) : List (List ℚ) :=
  match E with
  | [] => []
  | r0 :: rest => dpRowsAux (gridCols E) r0 rest

/-- Backtracking (SeamCarver.cpp lines 81-109): walk from the last row up,
choosing each parent column with pickNeighbor on the cumulative-cost row above.
The rows are supplied from row rows-2 down to row 0 and the seam comes out
bottom-up (it is reversed by the caller). -/
def backtrackAux (cols : ℕ) : List (List ℚ) → ℕ → List ℕ
  | [], j => [j]
  | row :: rest, j => j :: backtrackAux cols rest (pickNeighbor cols row j)

/-- Vertical seam by dynamic programming (SeamCarver.cpp lines 36-112). -/
def findVerticalSeamDP (E : Grid) : List ℕ :=
  match E with
  | [] => []
  | _ :: _ =>
    let dp := dpTable E
    let jend := argminIdx (dp.getD (dp.length - 1) [])
    (backtrackAux (gridCols E) dp.dropLast.reverse jend).reverse

/-- The greedy walk below the first row (SeamCarver.cpp lines 128-152). -/
def greedyAux (cols : ℕ) : List (List ℚ) → ℕ → List ℕ
  | [], _ => []
  | row :: rest, j =>
    let j2 := pickNeighbor cols row j
    j2 :: greedyAux cols rest j2

/-- Vertical seam by the greedy walk (SeamCarver.cpp lines 114-155): start at
the minimum-energy column of the first row, then step locally. -/
def findVerticalSeamGreedy (E : Grid) : List ℕ :=
  match E with
  | [] => []
  | r0 :: rest => argminIdx r0 :: greedyAux (gridCols E) rest (argminIdx r0)

/-- Transpose of a rectangular grid (cv::transpose): entry (i, j) of the result
is entry (j, i) of the argument. -/
def transposeE (g : Grid) : Grid :=
  match g with
  | [] => []
  | r0 :: _ => (List.range r0.length).map fun j => g.map fun row => row.getD j 0

/-- Horizontal seam by DP (SeamCarver.cpp lines 157-162): transpose and reuse. -/
def findHorizontalSeamDP (E : Grid) : List ℕ := findVerticalSeamDP (transposeE E)

/-- Horizontal seam by the greedy walk (SeamCarver.cpp lines 164-169). -/
def findHorizontalSeamGreedy (E : Grid) : List ℕ := findVerticalSeamGreedy (transposeE E)

/-- Adjacency of the layered pixel graph (SeamCarver.cpp lines 182-214):
node r*cols+c is pixel (r, c), node rows*cols the synthetic source, node
rows*cols+1 the synthetic sink. The source feeds every first-row pixel at that
pixel's energy, every pixel of a non-final row feeds its up-to-three
8-connected successors at the successor's energy, and the last row feeds the
sink at zero cost. -/
def nodeAdj (rows cols : ℕ) (E : Grid) (u : ℕ) : List (ℕ × ℚ) :=
  if u = rows * cols then
    (List.range cols).map fun c => (c, ent E 0 c)
  else if u < rows * cols then
    let r := u / cols
    let c := u % cols
    if r = rows - 1 then [(rows * cols + 1, 0)]
    else
      ([-1, 0, 1] : List ℤ).filterMap fun dc =>
        let nc : ℤ := (c : ℤ) + dc
        if 0 ≤ nc ∧ nc < (cols : ℤ) then
          some ((r + 1) * cols + nc.toNat, ent E (r + 1) nc.toNat)
        else none
  else []

/-- State of the Dijkstra loop (SeamCarver.cpp lines 216-249): the dist and
parent arrays, the priority queue and the loop exit flag. The C++
std::priority_queue pops a minimal-distance entry; its order among entries of
equal distance is implementation defined, and this model pops the
earliest-pushed minimal entry. -/
structure DijkstraState where
  dist : ℕ → WithTop ℚ
  parent : ℕ → Option ℕ
  pq : List (ℕ × ℚ)
  finished : Bool

/-- Pop a minimal-distance entry, earliest pushed on ties, returning it and the
remaining queue. -/
def popMin : List (ℕ × ℚ) → Option ((ℕ × ℚ) × List (ℕ × ℚ))
  | [] => none
  | e :: es =>
    match popMin es with
    | none => some (e, [])
    | some (m, rest) => if e.2 ≤ m.2 then some (e, es) else some (m, e :: rest)

/-- Relaxation of one outgoing edge (SeamCarver.cpp lines 240-248). -/
def relaxEdge (u : ℕ) (du : ℚ) (st : DijkstraState) (e : ℕ × ℚ) : DijkstraState :=
  let nd := du + e.2
  if (nd : WithTop ℚ) < st.dist e.1 then
    { st with
      dist := fun x => if x = e.1 then (nd : WithTop ℚ) else st.dist x
      parent := fun x => if x = e.1 then some u else st.parent x
      pq := st.pq ++ [(e.1, nd)] }
  else st

/-- One iteration of the Dijkstra while loop (SeamCarver.cpp lines 231-249):
pop, skip stale entries, stop at the sink, otherwise relax the popped node's
outgoing edges. -/
def dijkstraStep (rows cols : ℕ) (E : Grid) (st : DijkstraState) : DijkstraState :=
  if st.finished then st
  else
    match popMin st.pq with
    | none => { st with finished := true }
    | some ((u, du), rest) =>
      let st1 := { st with pq := rest }
      if st.dist u < (du : WithTop ℚ) then st1
      else if u = rows * cols + 1 then { st1 with finished := true }
      else (nodeAdj rows cols E u).foldl (relaxEdge u du) st1

/-- Iterate the Dijkstra step a given number of times. -/
def dijkstraRun (rows cols : ℕ) (E : Grid) : ℕ → DijkstraState → DijkstraState
  | 0, st => st
  | fuel + 1, st => dijkstraRun rows cols E fuel (dijkstraStep rows cols E st)

/-- Initial Dijkstra state (SeamCarver.cpp lines 218-229). -/
def dijkstraInit (rows cols : ℕ) : DijkstraState :=
  { dist := fun v => if v = rows * cols then ((0 : ℚ) : WithTop ℚ) else ⊤
    parent := fun _ => none
    pq := [(rows * cols, 0)]
    finished := false }

/-- Fuel for the Dijkstra loop: one unit per pop; the pop count is bounded by
the initial queue entry plus the number of graph edges (proved below), so this
fuel always lets the loop reach the state in which the C++ loop exits. -/
def dijkstraFuel (rows cols : ℕ) : ℕ := 3 * rows * cols + 2 * cols + 2

/-- Follow the parent chain from a node (SeamCarver.cpp lines 260-264),
collecting nodes until the source (or a missing parent) is reached. The fuel
strictly exceeds any chain length reachable by the loop invariants. -/
def chaseParents (parent : ℕ → Option ℕ) (src : ℕ) : ℕ → Option ℕ → List ℕ
  | _, none => []
  | 0, some _ => []
  | fuel + 1, some cur =>
    if cur = src then [] else cur :: chaseParents parent src fuel (parent cur)

/-- Vertical seam via Dijkstra on the layered pixel graph (SeamCarver.cpp lines
172-278): run the search, reconstruct the sink-to-source chain, and fall back
to the DP seam when the sink has no parent or the path length is not the row
count. -/
def findVerticalSeamGraphCut (E : Grid) : List ℕ :=
  let rows := gridRows E
  let cols := gridCols E
  let stF := dijkstraRun rows cols E (dijkstraFuel rows cols) (dijkstraInit rows cols)
  match stF.parent (rows * cols + 1) with
  | none => findVerticalSeamDP E
  | some c0 =>
    let pathPixels := (chaseParents stF.parent (rows * cols) (rows * cols + 2) (some c0)).reverse
    if pathPixels.length = rows then pathPixels.map fun id => id % cols
    else findVerticalSeamDP E

/-- Horizontal seam via the graph search (SeamCarver.cpp lines 281-287). -/
def findHorizontalSeamGraphCut (E : Grid) : List ℕ := findVerticalSeamGraphCut (transposeE E)

/-- Remove a vertical seam (SeamCarver.cpp lines 321-344): row i keeps the
pixels left of seam[i] and the pixels right of it shifted one position left. -/
def removeVerticalSeam (img : List (List α)) (seam : List ℕ) : List (List α) :=
  (img.zip seam).map fun p => p.1.take p.2 ++ p.1.drop (p.2 + 1)

/-- One output row of removeHorizontalSeam: entry j comes from the upper input
row while i is above the seam in column j and from the lower input row at or
below it. -/
def hRow (i : ℕ) (r r2 : List α) (seam : List ℕ) : List α :=
  ((r.zip r2).zip seam).map fun p => if i < p.2 then p.1.1 else p.1.2

/-- Worker for removeHorizontalSeam, walking consecutive row pairs. -/
def removeHorizontalSeamAux (seam : List ℕ) : ℕ → List (List α) → List (List α)
  | _, [] => []
  | _, [_] => []
  | i, r :: r2 :: rest => hRow i r r2 seam :: removeHorizontalSeamAux seam (i + 1) (r2 :: rest)

/-- Remove a horizontal seam (SeamCarver.cpp lines 346-369): column j keeps the
pixels above seam[j] and the pixels below it shifted one position up, which
row-wise means output row i reads from input row i strictly above the cut and
from input row i+1 at or below it. -/
def removeHorizontalSeam (img : List (List α)) (seam : List ℕ) : List (List α) :=
  removeHorizontalSeamAux seam 0 img

/-- OpenCV BGR to gray conversion with cvtColor's fixed-point coefficients
(R 4899, G 9617, B 1868, descale shift 14). -/
def bgr2gray (p : Pixel) : ℕ := (p.1 * 1868 + p.2.1 * 9617 + p.2.2 * 4899 + 8192) / 16384

/-- Border reflection BORDER_REFLECT_101, the default border of cv::Sobel
(gfedcb|abcdefgh|gfedcba); a single-cell extent collapses to index 0. -/
def reflect101 (n : ℕ) (i : ℤ) : ℕ :=
  if n ≤ 1 then 0
  else if i < 0 then (-i).toNat
  else if (n : ℤ) ≤ i then (2 * (n - 1) - i).toNat
  else i.toNat

/-- Sobel 3×3 x-kernel coefficient at offset (di, dj): smoothing (1, 2, 1)
across rows times difference (-1, 0, 1) across columns. -/
def sobelXCoef (di dj : ℤ) : ℚ :=
  (if di = 0 then 2 else 1) * (if dj = -1 then -1 else if dj = 1 then 1 else 0)

/-- Sobel 3×3 y-kernel coefficient: the transpose of the x kernel. -/
def sobelYCoef (di dj : ℤ) : ℚ := sobelXCoef dj di

/-- Correlation of a 3×3 kernel with the gray plane at (i, j), with
BORDER_REFLECT_101 edge extension. -/
def conv3 (k : ℤ → ℤ → ℚ) (g : Grid) (rows cols i j : ℕ) : ℚ :=
  (([-1, 0, 1] : List ℤ).map fun di =>
    (([-1, 0, 1] : List ℤ).map fun dj =>
      k di dj * (g.getD (reflect101 rows ((i : ℤ) + di)) []).getD
        (reflect101 cols ((j : ℤ) + dj)) 0).sum).sum

/-- Squared-gradient-magnitude energy of calculateEnergy (SeamCarver.cpp lines
16-34). The source's per-pixel energy is sqrt(sx^2 + sy^2); a rational has no
rational square root in general, so the model keeps the squared magnitude
sx^2 + sy^2, which is zero exactly when the source's energy is zero and has
the same grid dimensions. -/
def calculateEnergySq (img : Image) : Grid :=
  let g : Grid := img.map fun row => row.map fun p => (bgr2gray p : ℚ)
  let rows := img.length
  let cols := gridCols img
  (List.range rows).map fun i =>
    (List.range cols).map fun j =>
      conv3 sobelXCoef g rows cols i j ^ 2 + conv3 sobelYCoef g rows cols i j ^ 2

/-- The SeamCarver object state (SeamCarver.h lines 118-121): the current
working image and the preserved original. -/
structure Carver where
  image : Image
  originalImage : Image

/-- Constructor (SeamCarver.cpp lines 7-14): the loaded image is cloned into
originalImage. -/
def mkCarver (img : Image) : Carver := { image := img, originalImage := img }

/-- Accessor getImage (SeamCarver.h line 113). -/
def getImage (c : Carver) : Image := c.image

/-- Accessor getOriginalImage (SeamCarver.h line 116). -/
def getOriginalImage (c : Carver) : Image := c.originalImage

/-- Vertical-phase loop of resizeImage (SeamCarver.cpp lines 384-400), k
iterations: recompute the energy, find one vertical seam with the selected
strategy, remove it. The energy function is a parameter because the source's
gradient magnitude takes a real square root that ℚ cannot represent; every
theorem below holds for an arbitrary energy function, in particular the
source's. -/
def resizeLoopV (calcE : Image → Grid) (useDP : Bool) : ℕ → Image → Image
  | 0, img => img
  | k + 1, img =>
    let energy := calcE img
    let seam := if useDP then findVerticalSeamDP energy else findVerticalSeamGreedy energy
    resizeLoopV calcE useDP k (removeVerticalSeam img seam)

/-- Horizontal-phase loop of resizeImage (SeamCarver.cpp lines 404-424). -/
def resizeLoopH (calcE : Image → Grid) (useDP : Bool) : ℕ → Image → Image
  | 0, img => img
  | k + 1, img =>
    let energy := calcE img
    let seam := if useDP then findHorizontalSeamDP energy else findHorizontalSeamGreedy energy
    resizeLoopH calcE useDP k (removeHorizontalSeam img seam)

/-- resizeImage (SeamCarver.cpp lines 371-429). The source performs no request
validation: a non-positive seam count only skips the corresponding loop, and
the working image member is replaced by the result at the end. The energy
parameter is total, so this model is only appealed to on requests whose loops
never empty the image (in the source, a request that shrinks past zero size
makes a later calculateEnergy call fail inside OpenCV; theorems below that
concern the no-processing or valid-shrink cases never reach that path). -/
def resizeImage (calcE : Image → Grid) (c : Carver) (newWidth newHeight : ℤ) (useDP : Bool) :
    Except String (Image × Carver) :=
  let cur := c.image
  let currentHeight : ℤ := cur.length
  let currentWidth : ℤ := gridCols cur
  let numV : ℤ := currentWidth - newWidth
  let afterV := if 0 < numV then resizeLoopV calcE useDP numV.toNat cur else cur
  let numH : ℤ := currentHeight - newHeight
  let afterH := if 0 < numH then resizeLoopH calcE useDP numH.toNat afterV else afterV
  Except.ok (afterH, { c with image := afterH })

/-- Vertical-phase loop of resizeImageGraphCut (SeamCarver.cpp lines 304-308). -/
def graphLoopV (calcE : Image → Grid) : ℕ → Image → Image
  | 0, img => img
  | k + 1, img =>
    graphLoopV calcE k (removeVerticalSeam img (findVerticalSeamGraphCut (calcE img)))

/-- Horizontal-phase loop of resizeImageGraphCut (SeamCarver.cpp lines 311-315). -/
def graphLoopH (calcE : Image → Grid) : ℕ → Image → Image
  | 0, img => img
  | k + 1, img =>
    graphLoopH calcE k (removeHorizontalSeam img (findHorizontalSeamGraphCut (calcE img)))

/-- resizeImageGraphCut (SeamCarver.cpp lines 290-318): reject enlargement up
front with a runtime error, then shrink a local clone; the working image member
is never reassigned. -/
def resizeImageGraphCut (calcE : Image → Grid) (c : Carver) (newWidth newHeight : ℤ) :
    Except String (Image × Carver) :=
  let cur := c.image
  let currentHeight : ℤ := cur.length
  let currentWidth : ℤ := gridCols cur
  let removeV : ℤ := currentWidth - newWidth
  let removeH : ℤ := currentHeight - newHeight
  if removeV < 0 ∨ removeH < 0 then
    Except.error "Graph-cut version only supports shrinking (no expansion)."
  else
    let afterV := graphLoopV calcE removeV.toNat cur
    let afterH := graphLoopH calcE removeH.toNat afterV
    Except.ok (afterH, c)

/-- One caller-visible state-changing operation on a SeamCarver object. -/
inductive CarverOp where
  | resize (calcE : Image → Grid) (newWidth newHeight : ℤ) (useDP : Bool)
  | resizeGraphCut (calcE : Image → Grid) (newWidth newHeight : ℤ)

/-- Effect of one operation on the object state; a thrown error leaves the
state as it was. -/
def applyOp (c : Carver) (op : CarverOp) : Carver :=
  match op with
  | .resize calcE w h useDP =>
    match resizeImage calcE c w h useDP with
    | Except.ok (_, c2) => c2
    | Except.error _ => c
  | .resizeGraphCut calcE w h =>
    match resizeImageGraphCut calcE c w h with
    | Except.ok (_, c2) => c2
    | Except.error _ => c

/-- Seam range invariant: every coordinate lies in the carried dimension. -/
abbrev SeamInRange (cols : ℕ) (s : List ℕ) : Prop := ∀ x ∈ s, x < cols

/-- Seam 8-connectivity invariant: consecutive coordinates differ by at most 1. -/
def SeamConnected (s : List ℕ) : Prop :=
  ∀ i, i + 1 < s.length → ((s.getD (i + 1) 0 : ℤ) - (s.getD i 0 : ℤ)).natAbs ≤ 1

/-- Total energy of a vertical seam: the sum over rows of the energy at the
seam's column in that row. -/
def seamCost (E : Grid) (s : List ℕ) : ℚ := ((E.zip s).map fun p => p.1.getD p.2 0).sum

/-- The one-step 8-connectivity relation between consecutive seam coordinates. -/
def AdjStep (a b : ℕ) : Prop := ((b : ℤ) - (a : ℤ)).natAbs ≤ 1

/-- Row i of the DP table, [] outside. -/
def dpRow (E : Grid) (i : ℕ) : List ℚ := (dpTable E).getD i []

/-- Entry (i, j) of the DP table, 0 outside. -/
def dpVal (E : Grid) (i j : ℕ) : ℚ := (dpRow E i).getD j 0

/-- The spec's candidate list for the DP recurrence: the up-to-three upper
neighbours of column j, out-of-range neighbours excluded. This definition
follows the specification's words; a lemma below identifies the code's
minPrev3 with its minimum. -/
def neighborCandidates (cols : ℕ) (prev : List ℚ) (j : ℕ) : List ℚ :=
  (if 0 < j then [prev.getD (j - 1) 0] else []) ++ [prev.getD j 0] ++
    (if j + 1 < cols then [prev.getD (j + 1) 0] else [])

/-- Paths in an adjacency-list graph from a fixed source, together with their
total edge cost: the empty path at the source costs 0, and a path may be
extended along any listed edge, paying that edge's weight. -/
inductive HasPath (adjf : ℕ → List (ℕ × ℚ)) (source : ℕ) : ℕ → ℚ → Prop where
  | refl : HasPath adjf source source 0
  | step {u v : ℕ} {c w : ℚ} :
      HasPath adjf source u c → (v, w) ∈ adjf u → HasPath adjf source v (c + w)

/-- Structural facts about the Dijkstra state that hold whatever the edge
weights are: the source's distance stays 0, every parent pointer follows an
actual edge whose endpoints both have finite distance, and every non-source
node of finite distance has a parent. -/
structure DijkStruct (rows cols : ℕ) (E : Grid) (st : DijkstraState) : Prop where
  src_dist : st.dist (rows * cols) = ((0 : ℚ) : WithTop ℚ)
  parent_edge : ∀ v u, st.parent v = some u → ∃ w, (v, w) ∈ nodeAdj rows cols E u
  parent_finite : ∀ v u, st.parent v = some u → st.dist v ≠ ⊤ ∧ st.dist u ≠ ⊤
  parent_none : ∀ v, v ≠ rows * cols → st.dist v ≠ ⊤ → st.parent v ≠ none

/-- The full Dijkstra invariant, relative to a ghost set S of settled nodes.
Settled nodes carry optimal distances (they lower-bound every path cost) and
have all their edges relaxed; unsettled finite nodes keep a fresh entry in the
queue while the loop runs; queue entries never undercut the distance array;
finite distances are realised by actual paths; and parent pointers record the
relaxation that produced the current distance, from a settled node. -/
structure DijkInv (rows cols : ℕ) (E : Grid) (S : Finset ℕ) (st : DijkstraState) : Prop where
  struct : DijkStruct rows cols E st
  settled_opt : ∀ u ∈ S, ∀ c : ℚ,
    HasPath (nodeAdj rows cols E) (rows * cols) u c → st.dist u ≤ (c : WithTop ℚ)
  settled_relax : ∀ u ∈ S, ∀ vw ∈ nodeAdj rows cols E u,
    st.dist vw.1 ≤ st.dist u + (vw.2 : WithTop ℚ)
  settled_lt : ∀ u ∈ S, u < rows * cols + 2
  frontier : st.finished = false → ∀ v, v ∉ S → st.dist v ≠ ⊤ →
    ∃ d : ℚ, (v, d) ∈ st.pq ∧ st.dist v = (d : WithTop ℚ)
  pq_ge : ∀ e ∈ st.pq, st.dist e.1 ≤ (e.2 : WithTop ℚ)
  pq_nodes : ∀ e ∈ st.pq, e.1 < rows * cols + 2
  dist_pathcost : ∀ v (c : ℚ), st.dist v = (c : WithTop ℚ) →
    HasPath (nodeAdj rows cols E) (rows * cols) v c
  parent_relax : ∀ v u, st.parent v = some u → u ∈ S ∧
    ∃ w, (v, w) ∈ nodeAdj rows cols E u ∧ st.dist v = st.dist u + (w : WithTop ℚ)
  final_opt : st.finished = true → ∀ c : ℚ,
    HasPath (nodeAdj rows cols E) (rows * cols) (rows * cols + 1) c →
      st.dist (rows * cols + 1) ≤ (c : WithTop ℚ)

/-- Termination measure of the Dijkstra loop: queue length plus the out-degree
sum of the not-yet-settled nodes. -/
def dijkMeasure (rows cols : ℕ) (E : Grid) (S : Finset ℕ) (st : DijkstraState) : ℕ :=
  st.pq.length + ∑ u ∈ Finset.range (rows * cols + 2) \ S, (nodeAdj rows cols E u).length

/-- The invariant carried through the relaxation of one popped node's edge
list: like the full invariant with optimality ghost set T, except that the
relaxedness of edges is only known for the smaller set R (the previously
settled nodes) while the popped node's edges are being worked through. -/
structure MidInv (rows cols : ℕ) (E : Grid) (T R : Finset ℕ) (st : DijkstraState) : Prop where
  fin : st.finished = false
  struct : DijkStruct rows cols E st
  settled_opt : ∀ z ∈ T, ∀ c : ℚ,
    HasPath (nodeAdj rows cols E) (rows * cols) z c → st.dist z ≤ (c : WithTop ℚ)
  settled_relax : ∀ z ∈ R, ∀ vw ∈ nodeAdj rows cols E z,
    st.dist vw.1 ≤ st.dist z + (vw.2 : WithTop ℚ)
  settled_lt : ∀ z ∈ T, z < rows * cols + 2
  frontier : ∀ v, v ∉ T → st.dist v ≠ ⊤ →
    ∃ d : ℚ, (v, d) ∈ st.pq ∧ st.dist v = (d : WithTop ℚ)
  pq_ge : ∀ e ∈ st.pq, st.dist e.1 ≤ (e.2 : WithTop ℚ)
  pq_nodes : ∀ e ∈ st.pq, e.1 < rows * cols + 2
  dist_pathcost : ∀ v (c : ℚ), st.dist v = (c : WithTop ℚ) →
    HasPath (nodeAdj rows cols E) (rows * cols) v c
  parent_relax : ∀ v z, st.parent v = some z → z ∈ T ∧
    ∃ w, (v, w) ∈ nodeAdj rows cols E z ∧ st.dist v = st.dist z + (w : WithTop ℚ)

/-- The weight-sign-free part of the loop invariant: the structural facts plus
the guarantee that queue keys never undercut the distance array. It holds for
arbitrary (possibly negative) edge weights. -/
structure StructInv (rows cols : ℕ) (E : Grid) (st : DijkstraState) : Prop where
  struct : DijkStruct rows cols E st
  pq_ge : ∀ e ∈ st.pq, st.dist e.1 ≤ (e.2 : WithTop ℚ)

section BasicLemmas

lemma getD_range_map {α : Type} (f : ℕ → α) (n j : ℕ) (d : α) (h : j < n) :
    ((List.range n).map f).getD j d = f j := by
  simp [List.getD_eq_getElem?_getD, List.getElem?_range, h]

lemma seamCost_nil_left (s : List ℕ) : seamCost [] s = 0 := by
  simp [seamCost]

lemma seamCost_cons (r : List ℚ) (E : Grid) (c : ℕ) (s : List ℕ) :
    seamCost (r :: E) (c :: s) = r.getD c 0 + seamCost E s := by
  simp [seamCost]

lemma ent_cons_succ (r : List ℚ) (E : Grid) (i j : ℕ) :
    ent (r :: E) (i + 1) j = ent E i j := rfl

lemma ent_cons_zero (r : List ℚ) (E : Grid) (j : ℕ) :
    ent (r :: E) 0 j = r.getD j 0 := rfl

/-- SeamConnected is the chain of AdjStep along the list. -/
lemma seamConnected_iff_chain (s : List ℕ) : SeamConnected s ↔ s.Chain' AdjStep := by
  rw [List.chain'_iff_get]
  unfold SeamConnected AdjStep
  constructor
  · intro h i hi
    have hi1 : i + 1 < s.length := by omega
    have hi0 : i < s.length := by omega
    have := h i hi1
    rw [List.getD_eq_getElem?_getD, List.getD_eq_getElem?_getD,
      List.getElem?_eq_getElem hi1, List.getElem?_eq_getElem hi0] at this
    simpa using this
  · intro h i hi
    have hi' : i < s.length - 1 := by omega
    have hi0 : i < s.length := by omega
    have := h i hi'
    rw [List.getD_eq_getElem?_getD, List.getD_eq_getElem?_getD,
      List.getElem?_eq_getElem hi, List.getElem?_eq_getElem hi0]
    simpa using this

lemma adjStep_comm {a b : ℕ} (h : AdjStep a b) : AdjStep b a := by
  unfold AdjStep at h ⊢
  omega

end BasicLemmas

section ArgminLemmas

/-- Full behaviour of the scanning minimum of argminAux: either the running
best wins and bounds every remaining entry, or the result indexes the first
minimum of the remaining entries, which strictly beats the running best and
every entry before it. -/
lemma argminAux_spec (xs : List ℚ) : ∀ (bi i : ℕ) (bv : ℚ),
    (argminAux xs bi bv i = bi ∧ ∀ k < xs.length, bv ≤ xs.getD k 0) ∨
    (∃ k < xs.length, argminAux xs bi bv i = i + k ∧ xs.getD k 0 < bv ∧
      (∀ m < xs.length, xs.getD k 0 ≤ xs.getD m 0) ∧
      ∀ m < k, xs.getD k 0 < xs.getD m 0) := by
  induction xs with
  | nil =>
    intro bi i bv
    left
    refine ⟨rfl, ?_⟩
    intro k hk
    exact absurd hk (by simp)
  | cons x xs ih =>
    intro bi i bv
    by_cases hx : x < bv
    · rcases ih i (i + 1) x with ⟨heq, hle⟩ | ⟨k, hk, heq, hlt, hmin, hfirst⟩
      · right
        refine ⟨0, by simp, ?_, ?_, ?_, ?_⟩
        · simpa [argminAux, hx] using heq
        · simpa using hx
        · intro m hm
          match m with
          | 0 => simp
          | m + 1 =>
            simpa using hle m (by simpa using hm)
        · intro m hm; exact absurd hm (Nat.not_lt_zero m)
      · right
        refine ⟨k + 1, by simpa using hk, ?_, ?_, ?_, ?_⟩
        · simp only [argminAux, if_pos hx]
          rw [heq]; ring_nf
        · simpa using lt_trans hlt hx
        · intro m hm
          match m with
          | 0 => simpa using le_of_lt hlt
          | m + 1 => simpa using hmin m (by simpa using hm)
        · intro m hm
          match m with
          | 0 => simpa using hlt
          | m + 1 => simpa using hfirst m (by omega)
    · rcases ih bi (i + 1) bv with ⟨heq, hle⟩ | ⟨k, hk, heq, hlt, hmin, hfirst⟩
      · left
        constructor
        · simpa [argminAux, hx] using heq
        · intro m hm
          match m with
          | 0 => simpa using le_of_not_lt hx
          | m + 1 => simpa using hle m (by simpa using hm)
      · right
        refine ⟨k + 1, by simpa using hk, ?_, ?_, ?_, ?_⟩
        · simp only [argminAux, if_neg hx]
          rw [heq]; ring_nf
        · simpa using hlt
        · intro m hm
          match m with
          | 0 => simpa using le_of_lt (lt_of_lt_of_le hlt (le_of_not_lt hx))
          | m + 1 => simpa using hmin m (by simpa using hm)
        · intro m hm
          match m with
          | 0 => simpa using lt_of_lt_of_le hlt (le_of_not_lt hx)
          | m + 1 => simpa using hfirst m (by omega)

lemma argminIdx_lt_length {l : List ℚ} (h : l ≠ []) : argminIdx l < l.length := by
  match l, h with
  | x :: xs, _ =>
    rcases argminAux_spec xs 0 1 x with ⟨heq, _⟩ | ⟨k, hk, heq, _⟩
    · simp [argminIdx, heq]
    · simp only [argminIdx, heq, List.length_cons]
      omega

lemma argminIdx_le {l : List ℚ} (h : l ≠ []) :
    ∀ k < l.length, l.getD (argminIdx l) 0 ≤ l.getD k 0 := by
  match l, h with
  | x :: xs, _ =>
    rcases argminAux_spec xs 0 1 x with ⟨heq, hle⟩ | ⟨k, hk, heq, hlt, hmin, _⟩
    · intro m hm
      simp only [argminIdx, heq]
      match m with
      | 0 => simp
      | m + 1 => simpa using hle m (by simpa using hm)
    · intro m hm
      simp only [argminIdx, heq]
      have hx : (x :: xs).getD (1 + k) 0 = xs.getD k 0 := by
        rw [Nat.add_comm]; simp
      rw [hx]
      match m with
      | 0 => simpa using le_of_lt hlt
      | m + 1 => simpa using hmin m (by simpa using hm)

lemma argminIdx_first {l : List ℚ} (h : l ≠ []) :
    ∀ k < argminIdx l, l.getD (argminIdx l) 0 < l.getD k 0 := by
  match l, h with
  | x :: xs, _ =>
    rcases argminAux_spec xs 0 1 x with ⟨heq, _⟩ | ⟨k, hk, heq, hlt, hmin, hfirst⟩
    · intro m hm
      rw [argminIdx, heq] at hm
      exact absurd hm (Nat.not_lt_zero m)
    · intro m hm
      simp only [argminIdx, heq] at hm ⊢
      have hx : (x :: xs).getD (1 + k) 0 = xs.getD k 0 := by
        rw [Nat.add_comm]; simp
      rw [hx]
      match m with
      | 0 => simpa using hlt
      | m + 1 =>
        have : m < k := by omega
        simpa using hfirst m this

end ArgminLemmas

section PickNeighborLemmas

lemma pickNeighbor_cases (cols : ℕ) (row : List ℚ) (j : ℕ) :
    pickNeighbor cols row j = j ∨
    (pickNeighbor cols row j = j - 1 ∧ 0 < j) ∨
    (pickNeighbor cols row j = j + 1 ∧ j < cols - 1) := by
  unfold pickNeighbor
  by_cases h1 : 0 < j ∧ row.getD (j - 1) 0 < row.getD j 0 <;>
    simp only [h1, if_pos, if_neg, ite_true, ite_false] <;>
    split <;> simp_all <;> tauto

lemma pickNeighbor_lt (cols : ℕ) (row : List ℚ) {j : ℕ} (hj : j < cols) :
    pickNeighbor cols row j < cols := by
  rcases pickNeighbor_cases cols row j with h | ⟨h, _⟩ | ⟨h, hlt⟩ <;> rw [h] <;> omega

lemma pickNeighbor_adj (cols : ℕ) (row : List ℚ) (j : ℕ) :
    AdjStep j (pickNeighbor cols row j) := by
  rcases pickNeighbor_cases cols row j with h | ⟨h, h0⟩ | ⟨h, _⟩ <;> rw [h] <;>
    unfold AdjStep <;> omega

/-- The chosen neighbour attains the minimum cumulative cost of the candidate
set, which is exactly minPrev3. -/
lemma pickNeighbor_val (cols : ℕ) (row : List ℚ) (j : ℕ) :
    row.getD (pickNeighbor cols row j) 0 = minPrev3 cols row j := by
  unfold pickNeighbor minPrev3
  by_cases h1 : 0 < j ∧ row.getD (j - 1) 0 < row.getD j 0
  · simp only [h1, and_true, if_pos, h1.1, ite_true]
    rw [min_eq_right (le_of_lt h1.2)]
    by_cases h2 : j < cols - 1 ∧ row.getD (j + 1) 0 < row.getD (j - 1) 0
    · simp only [h2, and_self, ite_true, if_pos h2.1]
      rw [min_eq_right (le_of_lt h2.2)]
    · rcases Decidable.not_and_iff_or_not.mp h2 with h3 | h3
      · simp [h3]
      · have : ¬ (j < cols - 1 ∧ row.getD (j + 1) 0 < row.getD (j - 1) 0) := h2
        simp only [this, ite_false]
        by_cases h4 : j < cols - 1
        · simp only [h4, ite_true]
          rw [min_eq_left (le_of_not_lt h3)]
        · simp [h4]
  · have hsplit : ¬ 0 < j ∨ ¬ row.getD (j - 1) 0 < row.getD j 0 :=
      Decidable.not_and_iff_or_not.mp h1
    simp only [h1, ite_false]
    have hm1 : (if 0 < j then min (row.getD j 0) (row.getD (j - 1) 0) else row.getD j 0)
        = row.getD j 0 := by
      rcases hsplit with h3 | h3
      · simp [h3]
      · by_cases h4 : 0 < j
        · simp only [h4, ite_true]
          rw [min_eq_left (le_of_not_lt h3)]
        · simp [h4]
    rw [hm1]
    by_cases h2 : j < cols - 1 ∧ row.getD (j + 1) 0 < row.getD j 0
    · simp only [h2, and_self, ite_true, if_pos h2.1]
      rw [min_eq_right (le_of_lt h2.2)]
    · simp only [h2, ite_false]
      by_cases h4 : j < cols - 1
      · have h3 : ¬ row.getD (j + 1) 0 < row.getD j 0 := by tauto
        simp only [h4, ite_true]
        rw [min_eq_left (le_of_not_lt h3)]
      · simp [h4]

/-- minPrev3 bounds each of the candidates it ranges over. -/
lemma minPrev3_le_mid (cols : ℕ) (row : List ℚ) (j : ℕ) :
    minPrev3 cols row j ≤ row.getD j 0 := by
  simp only [minPrev3]
  split_ifs <;>
    first
      | exact le_trans (min_le_left _ _) (min_le_left _ _)
      | exact min_le_left _ _
      | exact le_refl _

lemma minPrev3_le_left (cols : ℕ) (row : List ℚ) {j : ℕ} (h : 0 < j) :
    minPrev3 cols row j ≤ row.getD (j - 1) 0 := by
  unfold minPrev3
  simp only [h, ite_true]
  split
  · exact le_trans (min_le_left _ _) (min_le_right _ _)
  · exact min_le_right _ _

lemma minPrev3_le_right (cols : ℕ) (row : List ℚ) {j : ℕ} (h : j < cols - 1) :
    minPrev3 cols row j ≤ row.getD (j + 1) 0 := by
  unfold minPrev3
  simp only [h, ite_true]
  split <;> exact min_le_right _ _

/-- On ties among the candidates, the straight-above column is kept. -/
lemma pickNeighbor_tie (cols : ℕ) (row : List ℚ) (j : ℕ)
    (hL : 0 < j → row.getD (j - 1) 0 = row.getD j 0)
    (hR : j < cols - 1 → row.getD (j + 1) 0 = row.getD j 0) :
    pickNeighbor cols row j = j := by
  have hfalse1 : ¬ (0 < j ∧ row.getD (j - 1) 0 < row.getD j 0) := by
    rintro ⟨hj, hlt⟩
    rw [hL hj] at hlt
    exact lt_irrefl _ hlt
  have hfalse2 : ¬ (j < cols - 1 ∧ row.getD (j + 1) 0 < row.getD j 0) := by
    rintro ⟨hj, hlt⟩
    rw [hR hj] at hlt
    exact lt_irrefl _ hlt
  simp only [pickNeighbor]
  split_ifs
  rfl

end PickNeighborLemmas

section DpLemmas

lemma dpNextRow_length (cols : ℕ) (prev cur : List ℚ) :
    (dpNextRow cols prev cur).length = cols := by
  simp [dpNextRow]

lemma dpNextRow_getD (cols : ℕ) (prev cur : List ℚ) {j : ℕ} (hj : j < cols) :
    (dpNextRow cols prev cur).getD j 0 = cur.getD j 0 + minPrev3 cols prev j :=
  getD_range_map _ cols j 0 hj

lemma dpRowsAux_length (cols : ℕ) (rows : List (List ℚ)) :
    ∀ prev, (dpRowsAux cols prev rows).length = rows.length + 1 := by
  induction rows with
  | nil => intro prev; rfl
  | cons cur rest ih => intro prev; simp [dpRowsAux, ih]

lemma dpRowsAux_head (cols : ℕ) (prev : List ℚ) (rows : List (List ℚ)) :
    (dpRowsAux cols prev rows).getD 0 [] = prev := by
  cases rows <;> rfl

lemma dpRowsAux_succ (cols : ℕ) (rows : List (List ℚ)) :
    ∀ (prev : List ℚ) (i : ℕ), i < rows.length →
      (dpRowsAux cols prev rows).getD (i + 1) [] =
        dpNextRow cols ((dpRowsAux cols prev rows).getD i []) (rows.getD i []) := by
  induction rows with
  | nil =>
    intro prev i hi
    exact absurd hi (by simp)
  | cons cur rest ih =>
    intro prev i hi
    match i with
    | 0 =>
      simp only [dpRowsAux, List.getD_cons_succ, List.getD_cons_zero]
      rw [dpRowsAux_head]
    | i + 1 =>
      have hi' : i < rest.length := by simpa using hi
      simp only [dpRowsAux, List.getD_cons_succ]
      exact ih (dpNextRow cols prev cur) i hi'

lemma dpRowsAux_mem_length (cols : ℕ) (rows : List (List ℚ)) :
    ∀ prev, prev.length = cols → ∀ r ∈ dpRowsAux cols prev rows, r.length = cols := by
  induction rows with
  | nil =>
    intro prev hprev r hr
    simp only [dpRowsAux, List.mem_singleton] at hr
    rw [hr]; exact hprev
  | cons cur rest ih =>
    intro prev hprev r hr
    simp only [dpRowsAux, List.mem_cons] at hr
    rcases hr with rfl | hr
    · exact hprev
    · exact ih (dpNextRow cols prev cur) (dpNextRow_length cols prev cur) r hr

lemma dpTable_length (E : Grid) : (dpTable E).length = E.length := by
  cases E with
  | nil => rfl
  | cons r0 rest => simp [dpTable, dpRowsAux_length]

lemma dpRow_length (E : Grid) {i : ℕ} (hi : i < E.length) :
    (dpRow E i).length = gridCols E := by
  match E with
  | r0 :: rest =>
    have hlen : i < (dpTable (r0 :: rest)).length := by rw [dpTable_length]; exact hi
    have hmem : dpRow (r0 :: rest) i ∈ dpTable (r0 :: rest) := by
      rw [dpRow, List.getD_eq_getElem _ _ hlen]
      exact List.getElem_mem hlen
    exact dpRowsAux_mem_length _ rest r0 rfl _ hmem

lemma dpRow_zero (r0 : List ℚ) (rest : List (List ℚ)) : dpRow (r0 :: rest) 0 = r0 := by
  rw [dpRow]
  show (dpRowsAux (gridCols (r0 :: rest)) r0 rest).getD 0 [] = r0
  exact dpRowsAux_head _ _ _

lemma dpRow_succ (r0 : List ℚ) (rest : List (List ℚ)) {i : ℕ} (hi : i < rest.length) :
    dpRow (r0 :: rest) (i + 1) =
      dpNextRow (gridCols (r0 :: rest)) (dpRow (r0 :: rest) i) (rest.getD i []) := by
  simp only [dpRow, dpTable]
  exact dpRowsAux_succ _ rest r0 i hi

/-- The DP recurrence at entry level: first row copied, later rows add the
minimum of the existing upper neighbours. -/
lemma dpVal_zero (r0 : List ℚ) (rest : List (List ℚ)) (j : ℕ) :
    dpVal (r0 :: rest) 0 j = r0.getD j 0 := by
  simp [dpVal, dpRow_zero]

lemma dpVal_succ (r0 : List ℚ) (rest : List (List ℚ)) {i j : ℕ} (hi : i < rest.length)
    (hj : j < gridCols (r0 :: rest)) :
    dpVal (r0 :: rest) (i + 1) j =
      ent (r0 :: rest) (i + 1) j +
        minPrev3 (gridCols (r0 :: rest)) (dpRow (r0 :: rest) i) j := by
  simp only [dpVal, dpRow_succ r0 rest hi, dpNextRow_getD _ _ _ hj]
  rfl

end DpLemmas

section BacktrackLemmas

lemma backtrackAux_length (cols : ℕ) (rows : List (List ℚ)) :
    ∀ j, (backtrackAux cols rows j).length = rows.length + 1 := by
  induction rows with
  | nil => intro j; rfl
  | cons row rest ih => intro j; simp [backtrackAux, ih]

lemma backtrackAux_head (cols : ℕ) (rows : List (List ℚ)) (j : ℕ) :
    (backtrackAux cols rows j).head? = some j := by
  cases rows <;> rfl

lemma backtrackAux_mem_lt (cols : ℕ) (rows : List (List ℚ)) :
    ∀ j, j < cols → ∀ x ∈ backtrackAux cols rows j, x < cols := by
  induction rows with
  | nil =>
    intro j hj x hx
    simp only [backtrackAux, List.mem_singleton] at hx
    rw [hx]; exact hj
  | cons row rest ih =>
    intro j hj x hx
    simp only [backtrackAux, List.mem_cons] at hx
    rcases hx with rfl | hx
    · exact hj
    · exact ih _ (pickNeighbor_lt cols row hj) x hx

lemma backtrackAux_chain (cols : ℕ) (rows : List (List ℚ)) :
    ∀ j, (backtrackAux cols rows j).Chain' AdjStep := by
  induction rows with
  | nil => intro j; simp [backtrackAux]
  | cons row rest ih =>
    intro j
    simp only [backtrackAux]
    rw [List.chain'_cons']
    refine ⟨?_, ih _⟩
    intro b hb
    rw [backtrackAux_head] at hb
    cases hb
    exact pickNeighbor_adj cols row j

end BacktrackLemmas

section DpSeamLemmas

lemma findVerticalSeamDP_eq (r0 : List ℚ) (rest : List (List ℚ)) :
    findVerticalSeamDP (r0 :: rest) =
      (backtrackAux (gridCols (r0 :: rest)) (dpTable (r0 :: rest)).dropLast.reverse
        (argminIdx (dpRow (r0 :: rest) ((dpTable (r0 :: rest)).length - 1)))).reverse := rfl

lemma findVerticalSeamDP_length {E : Grid} (h : E ≠ []) :
    (findVerticalSeamDP E).length = E.length := by
  match E, h with
  | r0 :: rest, _ =>
    rw [findVerticalSeamDP_eq, List.length_reverse, backtrackAux_length,
      List.length_reverse, List.length_dropLast, dpTable_length]
    simp

lemma findVerticalSeamDP_last (r0 : List ℚ) (rest : List (List ℚ)) :
    (findVerticalSeamDP (r0 :: rest)).getLast? =
      some (argminIdx (dpRow (r0 :: rest) ((dpTable (r0 :: rest)).length - 1))) := by
  rw [findVerticalSeamDP_eq, List.getLast?_reverse, backtrackAux_head]

lemma findVerticalSeamDP_range {E : Grid} (h : E ≠ []) (hc : 0 < gridCols E) :
    SeamInRange (gridCols E) (findVerticalSeamDP E) := by
  match E, h with
  | r0 :: rest, _ =>
    intro x hx
    rw [findVerticalSeamDP_eq, List.mem_reverse] at hx
    refine backtrackAux_mem_lt _ _ _ ?_ x hx
    have hlast : (dpRow (r0 :: rest) ((dpTable (r0 :: rest)).length - 1)).length
        = gridCols (r0 :: rest) := by
      apply dpRow_length
      rw [dpTable_length]
      simp
    have hne : dpRow (r0 :: rest) ((dpTable (r0 :: rest)).length - 1) ≠ [] := by
      intro hnil
      rw [hnil] at hlast
      simp at hlast
      omega
    have := argminIdx_lt_length hne
    rw [hlast] at this
    exact this

lemma findVerticalSeamDP_connected (E : Grid) :
    SeamConnected (findVerticalSeamDP E) := by
  cases E with
  | nil =>
    rw [seamConnected_iff_chain]
    exact List.chain'_nil
  | cons r0 rest =>
    rw [seamConnected_iff_chain, findVerticalSeamDP_eq, List.chain'_reverse]
    exact List.Chain'.imp (fun a b h => adjStep_comm h) (backtrackAux_chain _ _ _)

end DpSeamLemmas

section GreedyLemmas

lemma greedyAux_length (cols : ℕ) (rows : List (List ℚ)) :
    ∀ j, (greedyAux cols rows j).length = rows.length := by
  induction rows with
  | nil => intro j; rfl
  | cons row rest ih => intro j; simp [greedyAux, ih]

lemma greedyAux_mem_lt (cols : ℕ) (rows : List (List ℚ)) :
    ∀ j, j < cols → ∀ x ∈ greedyAux cols rows j, x < cols := by
  induction rows with
  | nil =>
    intro j _ x hx
    simp [greedyAux] at hx
  | cons row rest ih =>
    intro j hj x hx
    simp only [greedyAux, List.mem_cons] at hx
    rcases hx with rfl | hx
    · exact pickNeighbor_lt cols row hj
    · exact ih _ (pickNeighbor_lt cols row hj) x hx

lemma greedyAux_chain (cols : ℕ) (rows : List (List ℚ)) :
    ∀ j, (j :: greedyAux cols rows j).Chain' AdjStep := by
  induction rows with
  | nil => intro j; simp [greedyAux]
  | cons row rest ih =>
    intro j
    simp only [greedyAux]
    rw [List.chain'_cons]
    exact ⟨pickNeighbor_adj cols row j, ih _⟩

lemma findVerticalSeamGreedy_length {E : Grid} (h : E ≠ []) :
    (findVerticalSeamGreedy E).length = E.length := by
  match E, h with
  | r0 :: rest, _ =>
    simp [findVerticalSeamGreedy, greedyAux_length]

lemma findVerticalSeamGreedy_range {E : Grid} (h : E ≠ []) (hc : 0 < gridCols E) :
    SeamInRange (gridCols E) (findVerticalSeamGreedy E) := by
  match E, h with
  | r0 :: rest, _ =>
    have hr0 : r0 ≠ [] := by
      intro hnil
      rw [gridCols, List.headD_cons, hnil] at hc
      simp at hc
    have hj0 : argminIdx r0 < gridCols (r0 :: rest) := argminIdx_lt_length hr0
    intro x hx
    simp only [findVerticalSeamGreedy, List.mem_cons] at hx
    rcases hx with rfl | hx
    · exact hj0
    · exact greedyAux_mem_lt _ rest _ hj0 x hx

lemma findVerticalSeamGreedy_connected (E : Grid) :
    SeamConnected (findVerticalSeamGreedy E) := by
  cases E with
  | nil =>
    rw [seamConnected_iff_chain]
    exact List.chain'_nil
  | cons r0 rest =>
    rw [seamConnected_iff_chain]
    exact greedyAux_chain _ rest _

end GreedyLemmas

section CostLemmas

/-- seamCost as an indexed sum over the seam's rows. -/
lemma seamCost_eq_sum (s : List ℕ) :
    ∀ E : Grid, s.length ≤ E.length →
      seamCost E s = ((List.range s.length).map fun i => ent E i (s.getD i 0)).sum := by
  induction s with
  | nil => intro E _; simp [seamCost]
  | cons c s ih =>
    intro E h
    match E, h with
    | r :: E, h =>
      have h' : s.length ≤ E.length := by simpa using h
      rw [seamCost_cons, ih E h', List.length_cons, List.range_succ_eq_map,
        List.map_cons, List.sum_cons, List.map_map]
      rfl

/-- Removing a final coordinate splits the seam cost. -/
lemma seamCost_snoc (E : Grid) (u : List ℕ) (c : ℕ) (h : u.length + 1 ≤ E.length) :
    seamCost E (u ++ [c]) = seamCost E u + ent E u.length c := by
  rw [seamCost_eq_sum (u ++ [c]) E (by simpa using h),
    seamCost_eq_sum u E (by omega), List.length_append, List.length_singleton,
    List.range_succ, List.map_append, List.sum_append, List.map_singleton, List.sum_singleton]
  congr 1
  · congr 1
    apply List.map_congr_left
    intro i hi
    rw [List.mem_range] at hi
    congr 1
    rw [List.getD_append _ _ _ _ hi]
  · congr 1
    rw [List.getD_eq_getElem?_getD, List.getElem?_concat_length]
    rfl

/-- Grid rows beyond the seam's length do not contribute to the cost. -/
lemma seamCost_front (s : List ℕ) :
    ∀ (A B : Grid), s.length ≤ A.length → seamCost (A ++ B) s = seamCost A s := by
  induction s with
  | nil => intro A B _; simp [seamCost]
  | cons c s ih =>
    intro A B h
    match A, h with
    | a :: A, h =>
      rw [List.cons_append, seamCost_cons, seamCost_cons, ih A B (by simpa using h)]

end CostLemmas

section DpOptimality

lemma dpRowsAux_snoc (cols : ℕ) (rows : List (List ℚ)) :
    ∀ prev cur,
      dpRowsAux cols prev (rows ++ [cur]) =
        dpRowsAux cols prev rows ++
          [dpNextRow cols
            ((dpRowsAux cols prev rows).getD ((dpRowsAux cols prev rows).length - 1) []) cur] := by
  induction rows with
  | nil => intro prev cur; rfl
  | cons r rest ih =>
    intro prev cur
    have hlen := dpRowsAux_length cols rest (dpNextRow cols prev r)
    have hcons : dpRowsAux cols prev ((r :: rest) ++ [cur])
        = prev :: dpRowsAux cols (dpNextRow cols prev r) (rest ++ [cur]) := rfl
    have hcons2 : dpRowsAux cols prev (r :: rest)
        = prev :: dpRowsAux cols (dpNextRow cols prev r) rest := rfl
    rw [hcons, ih, hcons2, List.cons_append]
    congr 3
    rw [List.length_cons, Nat.add_sub_cancel, hlen, List.getD_cons_succ]
    norm_num

/-- Cost of the backtracked seam: it telescopes to the cumulative cost at the
chosen endpoint of the last row. -/
lemma dp_backtrack_cost (cols : ℕ) (rest : List (List ℚ)) :
    ∀ (r0 : List ℚ) (j : ℕ), j < cols → r0.length = cols →
      seamCost (r0 :: rest)
          ((backtrackAux cols (dpRowsAux cols r0 rest).dropLast.reverse j).reverse)
        = ((dpRowsAux cols r0 rest).getD rest.length []).getD j 0 := by
  induction rest using List.reverseRecOn with
  | nil =>
    intro r0 j hj hr0
    simp [dpRowsAux, backtrackAux, seamCost]
  | append_singleton rest cur ih =>
    intro r0 j hj hr0
    have hlenD := dpRowsAux_length cols rest r0
    have hne : dpRowsAux cols r0 rest ≠ [] := by
      intro hnil
      rw [hnil] at hlenD
      simp at hlenD
    set D := dpRowsAux cols r0 rest with hD
    set lastD := D.getD (D.length - 1) [] with hlastD
    have hsnoc : dpRowsAux cols r0 (rest ++ [cur]) = D ++ [dpNextRow cols lastD cur] :=
      dpRowsAux_snoc cols rest r0 cur
    have hdrop : (dpRowsAux cols r0 (rest ++ [cur])).dropLast = D := by
      rw [hsnoc, List.dropLast_concat]
    have hrev : D.reverse = lastD :: D.dropLast.reverse := by
      conv_lhs => rw [← List.dropLast_append_getLast hne]
      rw [List.reverse_append, List.reverse_singleton, List.singleton_append]
      congr 1
      rw [hlastD, List.getLast_eq_getElem, List.getD_eq_getElem]
    have hbt : (backtrackAux cols (dpRowsAux cols r0 (rest ++ [cur])).dropLast.reverse j).reverse
        = (backtrackAux cols D.dropLast.reverse (pickNeighbor cols lastD j)).reverse ++ [j] := by
      rw [hdrop, hrev]
      simp only [backtrackAux, List.reverse_cons]
    have hj2 : pickNeighbor cols lastD j < cols := pickNeighbor_lt cols lastD hj
    have hslen : ((backtrackAux cols D.dropLast.reverse (pickNeighbor cols lastD j)).reverse).length
        = rest.length + 1 := by
      rw [List.length_reverse, backtrackAux_length, List.length_reverse, List.length_dropLast,
        hlenD]
      omega
    rw [hbt, seamCost_snoc _ _ _ (by rw [hslen]; simp), hslen]
    have hcost := ih r0 (pickNeighbor cols lastD j) hj2 hr0
    have hpre : seamCost (r0 :: (rest ++ [cur]))
          ((backtrackAux cols D.dropLast.reverse (pickNeighbor cols lastD j)).reverse)
        = seamCost (r0 :: rest)
          ((backtrackAux cols D.dropLast.reverse (pickNeighbor cols lastD j)).reverse) := by
      rw [show r0 :: (rest ++ [cur]) = (r0 :: rest) ++ [cur] from rfl]
      apply seamCost_front
      rw [hslen]
      simp
    rw [hpre, hcost]
    have hlastrow : D.getD rest.length [] = lastD := by
      rw [hlastD, hlenD]
      simp
    rw [hlastrow, pickNeighbor_val]
    have hR : ((dpRowsAux cols r0 (rest ++ [cur])).getD (rest ++ [cur]).length []).getD j 0
        = cur.getD j 0 + minPrev3 cols lastD j := by
      rw [hsnoc]
      have hidx : (rest ++ [cur]).length = D.length := by
        rw [hlenD]
        simp
      rw [hidx]
      have hgetD : (D ++ [dpNextRow cols lastD cur]).getD D.length [] = dpNextRow cols lastD cur := by
        rw [List.getD_eq_getElem?_getD, List.getElem?_concat_length]
        rfl
      rw [hgetD, dpNextRow_getD _ _ _ hj]
    rw [hR]
    have hent : ent (r0 :: (rest ++ [cur])) (rest.length + 1) j = cur.getD j 0 := by
      rw [ent, List.getD_cons_succ]
      congr 1
      rw [List.getD_eq_getElem?_getD, List.getElem?_concat_length]
      rfl
    rw [hent]
    ring

/-- The cumulative cost lower-bounds the cost of every connected in-range
partial seam ending at the same cell. -/
lemma dp_lower_bound (cols : ℕ) (E : Grid) (hcols : gridCols E = cols) :
    ∀ (s' : List ℕ) (c : ℕ), (s' ++ [c]).length ≤ E.length →
      SeamInRange cols (s' ++ [c]) → SeamConnected (s' ++ [c]) →
      dpVal E s'.length c ≤ seamCost E (s' ++ [c]) := by
  intro s'
  induction s' using List.reverseRecOn with
  | nil =>
    intro c hlen _ _
    cases E with
    | nil => exact absurd hlen (by simp)
    | cons r0 rest =>
      simp only [List.nil_append, List.length_nil]
      rw [dpVal_zero]
      simp [seamCost]
  | append_singleton t b ih =>
    intro c hlen hrange hconn
    cases E with
    | nil =>
      simp only [List.length_nil, List.length_append, List.length_singleton] at hlen
      omega
    | cons r0 rest =>
      have hlen' : (t ++ [b]).length + 1 ≤ (r0 :: rest).length := by
        simpa using hlen
      have hrange' : SeamInRange cols (t ++ [b]) := by
        intro x hx
        exact hrange x (List.mem_append.mpr (Or.inl hx))
      have hrangeSucc : c < cols := by
        apply hrange
        simp
      have hrangeB : b < cols := by
        apply hrange
        simp
      have hconn' : SeamConnected (t ++ [b]) := by
        rw [seamConnected_iff_chain] at hconn ⊢
        have : (t ++ [b]) <+: ((t ++ [b]) ++ [c]) := ⟨[c], rfl⟩
        exact List.Chain'.prefix hconn this
      have hadj : AdjStep b c := by
        rw [seamConnected_iff_chain, List.chain'_append] at hconn
        refine hconn.2.2 b ?_ c rfl
        rw [List.getLast?_concat]
        rfl
      have hi : t.length < rest.length := by
        simp only [List.length_append, List.length_singleton, List.length_cons] at hlen
        omega
      have hstep := dpVal_succ r0 rest hi (by rw [hcols]; exact hrangeSucc)
      rw [List.length_append, List.length_singleton]
      rw [hcols] at hstep
      rw [hstep]
      have hcand : minPrev3 cols (dpRow (r0 :: rest) t.length) c
          ≤ dpVal (r0 :: rest) t.length b := by
        unfold AdjStep at hadj
        rcases Nat.lt_trichotomy b c with hbc | hbc | hbc
        · have : c = b + 1 := by omega
          subst this
          have hcl : b + 1 - 1 = b := by omega
          have := minPrev3_le_left cols (dpRow (r0 :: rest) t.length) (j := b + 1) (by omega)
          rw [hcl] at this
          exact this
        · subst hbc
          exact minPrev3_le_mid _ _ _
        · have : b = c + 1 := by omega
          subst this
          have hcr : c < cols - 1 := by omega
          exact minPrev3_le_right cols (dpRow (r0 :: rest) t.length) hcr
      have hIH := ih b (by simpa using Nat.le_of_succ_le hlen') hrange' hconn'
      have hsnoc := seamCost_snoc (r0 :: rest) (t ++ [b]) c (by simpa using hlen')
      rw [List.append_assoc t [b] [c]] at hsnoc ⊢
      rw [show ([b] ++ [c]) = ([b, c] : List ℕ) from rfl] at hsnoc ⊢
      rw [hsnoc]
      have : ent (r0 :: rest) (t ++ [b]).length c = ent (r0 :: rest) (t.length + 1) c := by
        congr 1
        simp
      rw [this] at hsnoc ⊢
      calc ent (r0 :: rest) (t.length + 1) c + minPrev3 cols (dpRow (r0 :: rest) t.length) c
          ≤ ent (r0 :: rest) (t.length + 1) c + dpVal (r0 :: rest) t.length b := by
            exact add_le_add_left hcand _
        _ ≤ ent (r0 :: rest) (t.length + 1) c + seamCost (r0 :: rest) (t ++ [b]) := by
            exact add_le_add_left hIH _
        _ = seamCost (r0 :: rest) (t ++ [b]) + ent (r0 :: rest) (t.length + 1) c := by ring

lemma findVerticalSeamDP_cost {E : Grid} (hE : E ≠ []) (hc : 0 < gridCols E) :
    seamCost E (findVerticalSeamDP E)
      = (dpRow E (E.length - 1)).getD (argminIdx (dpRow E (E.length - 1))) 0 := by
  match E, hE with
  | r0 :: rest, _ =>
    have htab : (dpTable (r0 :: rest)).length - 1 = rest.length := by
      rw [dpTable_length]
      simp
    have hrowlen : (dpRow (r0 :: rest) ((r0 :: rest).length - 1)).length = gridCols (r0 :: rest) := by
      apply dpRow_length
      simp
    have hrowne : dpRow (r0 :: rest) ((r0 :: rest).length - 1) ≠ [] := by
      intro hnil
      rw [hnil] at hrowlen
      simp at hrowlen
      omega
    have hargmin := argminIdx_lt_length hrowne
    rw [hrowlen] at hargmin
    have hidx : ((r0 :: rest).length - 1) = rest.length := by simp
    rw [findVerticalSeamDP_eq]
    rw [show dpRow (r0 :: rest) ((dpTable (r0 :: rest)).length - 1)
        = dpRow (r0 :: rest) ((r0 :: rest).length - 1) by rw [htab, hidx]]
    rw [hidx] at hargmin ⊢
    exact dp_backtrack_cost (gridCols (r0 :: rest)) rest r0 _ hargmin rfl

/-- Global minimality of the DP seam among all full-height connected in-range
seams. -/
lemma findVerticalSeamDP_min {E : Grid} (hE : E ≠ []) (hc : 0 < gridCols E)
    (s : List ℕ) (hlen : s.length = E.length) (hrange : SeamInRange (gridCols E) s)
    (hconn : SeamConnected s) :
    seamCost E (findVerticalSeamDP E) ≤ seamCost E s := by
  have hEn : 0 < E.length := List.length_pos.mpr hE
  rcases List.eq_nil_or_concat' s with rfl | ⟨s', c, rfl⟩
  · rw [List.length_nil] at hlen
    omega
  have hs'len : s'.length = E.length - 1 := by
    rw [List.length_append, List.length_singleton] at hlen
    omega
  have hlow := dp_lower_bound (gridCols E) E rfl s' c (le_of_eq hlen) hrange hconn
  rw [hs'len] at hlow
  have hc2 : c < gridCols E := by
    apply hrange
    simp
  have hrowlen : (dpRow E (E.length - 1)).length = gridCols E :=
    dpRow_length E (by omega)
  have hrowne : dpRow E (E.length - 1) ≠ [] := by
    intro hnil
    rw [hnil] at hrowlen
    simp at hrowlen
    omega
  have hmin := argminIdx_le hrowne c (by rw [hrowlen]; exact hc2)
  rw [findVerticalSeamDP_cost hE hc]
  calc (dpRow E (E.length - 1)).getD (argminIdx (dpRow E (E.length - 1))) 0
      ≤ (dpRow E (E.length - 1)).getD c 0 := hmin
    _ = dpVal E (E.length - 1) c := rfl
    _ ≤ seamCost E (s' ++ [c]) := hlow

lemma getD_reverse {α : Type} (l : List α) (d : α) {k : ℕ} (hk : k < l.length) :
    l.reverse.getD k d = l.getD (l.length - 1 - k) d := by
  have hk' : k < l.reverse.length := by simpa using hk
  have hk2 : l.length - 1 - k < l.length := by omega
  rw [List.getD_eq_getElem _ _ hk', List.getD_eq_getElem _ _ hk2, List.getElem_reverse]

lemma backtrackAux_getD_zero (cols : ℕ) (rows : List (List ℚ)) (j : ℕ) :
    (backtrackAux cols rows j).getD 0 0 = j := by
  cases rows <;> rfl

lemma backtrackAux_getD_succ (cols : ℕ) (rows : List (List ℚ)) :
    ∀ j k, k < rows.length →
      (backtrackAux cols rows j).getD (k + 1) 0 =
        pickNeighbor cols (rows.getD k []) ((backtrackAux cols rows j).getD k 0) := by
  induction rows with
  | nil =>
    intro j k hk
    exact absurd hk (by simp)
  | cons row rest ih =>
    intro j k hk
    match k with
    | 0 =>
      simp only [backtrackAux, List.getD_cons_succ, List.getD_cons_zero]
      rw [backtrackAux_getD_zero]
    | k + 1 =>
      have hk' : k < rest.length := by simpa using hk
      simp only [backtrackAux, List.getD_cons_succ]
      exact ih _ k hk'

/-- Each backtracking step of the DP seam is a pickNeighbor choice on the
cumulative-cost row above. -/
lemma findVerticalSeamDP_step {E : Grid} (hE : E ≠ []) {i : ℕ} (hi : i + 1 < E.length) :
    (findVerticalSeamDP E).getD i 0 =
      pickNeighbor (gridCols E) (dpRow E i) ((findVerticalSeamDP E).getD (i + 1) 0) := by
  match E, hE with
  | r0 :: rest, _ =>
    set n := (r0 :: rest).length with hn
    have hn1 : n = rest.length + 1 := by rw [hn]; simp
    set R := (dpTable (r0 :: rest)).dropLast.reverse with hR
    have hRlen : R.length = n - 1 := by
      rw [hR, List.length_reverse, List.length_dropLast, dpTable_length]
    set jend := argminIdx (dpRow (r0 :: rest) ((dpTable (r0 :: rest)).length - 1)) with hjend
    have hbtlen : (backtrackAux (gridCols (r0 :: rest)) R jend).length = n := by
      rw [backtrackAux_length, hRlen]
      omega
    have hrw : findVerticalSeamDP (r0 :: rest)
        = (backtrackAux (gridCols (r0 :: rest)) R jend).reverse := findVerticalSeamDP_eq r0 rest
    have hidx1 : i + 1 < n := hi
    have hrev1 : (findVerticalSeamDP (r0 :: rest)).getD i 0
        = (backtrackAux (gridCols (r0 :: rest)) R jend).getD (n - 1 - i) 0 := by
      rw [hrw, getD_reverse _ _ (by rw [hbtlen]; omega), hbtlen]
    have hrev2 : (findVerticalSeamDP (r0 :: rest)).getD (i + 1) 0
        = (backtrackAux (gridCols (r0 :: rest)) R jend).getD (n - 1 - (i + 1)) 0 := by
      rw [hrw, getD_reverse _ _ (by rw [hbtlen]; omega), hbtlen]
    have hk : n - 1 - i = (n - 2 - i) + 1 := by omega
    have hk2 : n - 1 - (i + 1) = n - 2 - i := by omega
    have hstep := backtrackAux_getD_succ (gridCols (r0 :: rest)) R jend (n - 2 - i)
      (by rw [hRlen]; omega)
    rw [hrev1, hrev2, hk, hk2, hstep]
    congr 1
    rw [hR]
    have hdl : (dpTable (r0 :: rest)).dropLast.length = n - 1 := by
      rw [List.length_dropLast, dpTable_length]
    rw [getD_reverse _ _ (by rw [hdl]; omega), hdl]
    have : n - 1 - 1 - (n - 2 - i) = i := by omega
    rw [this]
    rw [dpRow]
    rw [List.getD_eq_getElem?_getD, List.getD_eq_getElem?_getD,
      List.getElem?_dropLast]
    have hilt : i < (dpTable (r0 :: rest)).length - 1 := by
      rw [dpTable_length]
      omega
    simp [hilt]

end DpOptimality

section RemoveSeamLemmas

variable {α : Type}

lemma removeVerticalSeam_length (img : List (List α)) (seam : List ℕ)
    (h : seam.length = img.length) :
    (removeVerticalSeam img seam).length = img.length := by
  rw [removeVerticalSeam, List.length_map, List.length_zip, h, min_self]

lemma removeVerticalSeam_getD (img : List (List α)) (seam : List ℕ)
    (h : seam.length = img.length) {i : ℕ} (hi : i < img.length) :
    (removeVerticalSeam img seam).getD i [] =
      (img.getD i []).take (seam.getD i 0) ++ (img.getD i []).drop (seam.getD i 0 + 1) := by
  have hz : i < (img.zip seam).length := by
    rw [List.length_zip, h, min_self]
    exact hi
  have hlen : i < (removeVerticalSeam img seam).length := by
    rw [removeVerticalSeam_length img seam h]
    exact hi
  rw [List.getD_eq_getElem _ _ hlen]
  rw [List.getD_eq_getElem _ _ hi, List.getD_eq_getElem _ _ (by omega : i < seam.length)]
  simp [removeVerticalSeam, List.getElem_zip]

/-- Entry view of removing one cell from a row: entries left of the cut are
unchanged, entries at or right of it are shifted one place left. -/
lemma take_append_drop_getD (row : List α) (s : ℕ) (d : α) (hs : s < row.length) :
    ∀ j, j + 1 < row.length →
      (row.take s ++ row.drop (s + 1)).getD j d =
        if j < s then row.getD j d else row.getD (j + 1) d := by
  intro j hj
  have htl : (row.take s).length = s := by
    rw [List.length_take]
    omega
  by_cases hcase : j < s
  · rw [if_pos hcase]
    rw [List.getD_append _ _ _ _ (by omega)]
    rw [List.getD_eq_getElem?_getD, List.getElem?_take_of_lt hcase,
      List.getD_eq_getElem?_getD]
  · rw [if_neg hcase]
    have hge : (row.take s).length ≤ j := by omega
    rw [List.getD_eq_getElem?_getD, List.getElem?_append_right hge, htl]
    rw [List.getElem?_drop]
    have : s + 1 + (j - s) = j + 1 := by omega
    rw [this, ← List.getD_eq_getElem?_getD]

lemma take_append_drop_length (row : List α) (s : ℕ) (hs : s < row.length) :
    (row.take s ++ row.drop (s + 1)).length = row.length - 1 := by
  rw [List.length_append, List.length_take, List.length_drop]
  omega

lemma removeHorizontalSeamAux_length (seam : List ℕ) (img : List (List α)) :
    ∀ k, (removeHorizontalSeamAux seam k img).length = img.length - 1 := by
  induction img with
  | nil => intro k; rfl
  | cons r rest ih =>
    intro k
    match rest with
    | [] => rfl
    | r2 :: rest' =>
      show (hRow k r r2 seam :: removeHorizontalSeamAux seam (k + 1) (r2 :: rest')).length = _
      rw [List.length_cons, ih (k + 1)]
      simp

lemma removeHorizontalSeamAux_getD (seam : List ℕ) (img : List (List α)) :
    ∀ k i, i + 1 < img.length →
      (removeHorizontalSeamAux seam k img).getD i [] =
        hRow (k + i) (img.getD i []) (img.getD (i + 1) []) seam := by
  induction img with
  | nil =>
    intro k i hi
    exact absurd hi (by simp)
  | cons r rest ih =>
    intro k i hi
    match rest with
    | [] => simp at hi
    | r2 :: rest' =>
      match i with
      | 0 =>
        show (hRow k r r2 seam :: removeHorizontalSeamAux seam (k + 1) (r2 :: rest')).getD 0 []
            = hRow (k + 0) ((r :: r2 :: rest').getD 0 []) ((r :: r2 :: rest').getD 1 []) seam
        rfl
      | i + 1 =>
        have hi' : i + 1 < (r2 :: rest').length := by simpa using hi
        show (hRow k r r2 seam :: removeHorizontalSeamAux seam (k + 1) (r2 :: rest')).getD (i + 1) []
            = _
        rw [List.getD_cons_succ, ih (k + 1) i hi']
        have harith : k + 1 + i = k + (i + 1) := by omega
        rw [harith]
        rfl

lemma hRow_length (i : ℕ) (r r2 : List α) (seam : List ℕ) :
    (hRow i r r2 seam).length = min (min r.length r2.length) seam.length := by
  simp [hRow]

lemma hRow_getD (i : ℕ) (r r2 : List α) (seam : List ℕ) (d : α) {j : ℕ}
    (hj1 : j < r.length) (hj2 : j < r2.length) (hj3 : j < seam.length) :
    (hRow i r r2 seam).getD j d =
      if i < seam.getD j 0 then r.getD j d else r2.getD j d := by
  have hlen : j < (hRow i r r2 seam).length := by
    rw [hRow_length]
    omega
  rw [List.getD_eq_getElem _ _ hlen, List.getD_eq_getElem _ _ hj1,
    List.getD_eq_getElem _ _ hj2, List.getD_eq_getElem _ _ hj3]
  simp [hRow, List.getElem_zip]

lemma removeHorizontalSeam_length (img : List (List α)) (seam : List ℕ) :
    (removeHorizontalSeam img seam).length = img.length - 1 :=
  removeHorizontalSeamAux_length seam img 0

lemma removeHorizontalSeam_getD (img : List (List α)) (seam : List ℕ) {i : ℕ}
    (hi : i + 1 < img.length) :
    (removeHorizontalSeam img seam).getD i [] =
      hRow i (img.getD i []) (img.getD (i + 1) []) seam := by
  rw [removeHorizontalSeam, removeHorizontalSeamAux_getD seam img 0 i hi]
  rw [Nat.zero_add]

end RemoveSeamLemmas

section EnergyLemmas

lemma reflect101_lt {n : ℕ} (hn : 0 < n) {x : ℤ} (hx1 : -1 ≤ x) (hx2 : x ≤ n) :
    reflect101 n x < n := by
  unfold reflect101
  split_ifs with h1 h2 h3
  · omega
  · have : x = -1 := by omega
    subst this
    omega
  · have : x = (n : ℤ) := by omega
    subst this
    omega
  · omega

lemma conv3_uniform_zero (k : ℤ → ℤ → ℚ) (g : Grid) (rows cols i j : ℕ) (gc : ℚ)
    (hg : ∀ di dj : ℤ, di.natAbs ≤ 1 → dj.natAbs ≤ 1 →
      (g.getD (reflect101 rows ((i : ℤ) + di)) []).getD (reflect101 cols ((j : ℤ) + dj)) 0 = gc)
    (hk : (k (-1) (-1) + k (-1) 0 + k (-1) 1) + (k 0 (-1) + k 0 0 + k 0 1) +
      (k 1 (-1) + k 1 0 + k 1 1) = 0) :
    conv3 k g rows cols i j = 0 := by
  simp only [conv3, List.map_cons, List.map_nil, List.sum_cons, List.sum_nil]
  rw [hg (-1) (-1) (by decide) (by decide), hg (-1) 0 (by decide) (by decide),
    hg (-1) 1 (by decide) (by decide), hg 0 (-1) (by decide) (by decide),
    hg 0 0 (by decide) (by decide), hg 0 1 (by decide) (by decide),
    hg 1 (-1) (by decide) (by decide), hg 1 0 (by decide) (by decide),
    hg 1 1 (by decide) (by decide)]
  have : (k (-1) (-1) * gc + (k (-1) 0 * gc + (k (-1) 1 * gc + 0))) +
      ((k 0 (-1) * gc + (k 0 0 * gc + (k 0 1 * gc + 0))) +
        ((k 1 (-1) * gc + (k 1 0 * gc + (k 1 1 * gc + 0))) + 0)) =
      ((k (-1) (-1) + k (-1) 0 + k (-1) 1) + (k 0 (-1) + k 0 0 + k 0 1) +
        (k 1 (-1) + k 1 0 + k 1 1)) * gc := by ring
  rw [this, hk, zero_mul]

lemma sobelXCoef_sum :
    (sobelXCoef (-1) (-1) + sobelXCoef (-1) 0 + sobelXCoef (-1) 1) +
      (sobelXCoef 0 (-1) + sobelXCoef 0 0 + sobelXCoef 0 1) +
      (sobelXCoef 1 (-1) + sobelXCoef 1 0 + sobelXCoef 1 1) = 0 := by
  norm_num [sobelXCoef]

lemma sobelYCoef_sum :
    (sobelYCoef (-1) (-1) + sobelYCoef (-1) 0 + sobelYCoef (-1) 1) +
      (sobelYCoef 0 (-1) + sobelYCoef 0 0 + sobelYCoef 0 1) +
      (sobelYCoef 1 (-1) + sobelYCoef 1 0 + sobelYCoef 1 1) = 0 := by
  norm_num [sobelYCoef, sobelXCoef]

lemma uniform_gray_lookup (img : Image) (c : Pixel) (hrect : Rect img)
    (hu : ∀ row ∈ img, ∀ p ∈ row, p = c) {i' j' : ℕ}
    (hi : i' < img.length) (hj : j' < gridCols img) :
    ((img.map fun row => row.map fun p => ((bgr2gray p : ℕ) : ℚ)).getD i' []).getD j' 0
      = (bgr2gray c : ℚ) := by
  have hi2 : i' < (img.map fun row => row.map fun p => ((bgr2gray p : ℕ) : ℚ)).length := by
    simpa using hi
  rw [List.getD_eq_getElem _ _ hi2, List.getElem_map]
  have hrowlen : img[i'].length = gridCols img := hrect _ (List.getElem_mem hi)
  have hj2 : j' < (img[i'].map fun p => ((bgr2gray p : ℕ) : ℚ)).length := by
    rw [List.length_map, hrowlen]
    exact hj
  rw [List.getD_eq_getElem _ _ hj2, List.getElem_map]
  have hp : img[i'][j'] = c := by
    apply hu img[i'] (List.getElem_mem hi)
    exact List.getElem_mem (by omega)
  rw [hp]

/-- On a uniform-colour image the squared-gradient energy has the image's
dimensions and vanishes at every pixel, the border pixels included. -/
lemma calculateEnergySq_uniform (img : Image) (c : Pixel) (hrect : Rect img)
    (hu : ∀ row ∈ img, ∀ p ∈ row, p = c) :
    (calculateEnergySq img).length = img.length ∧
      (∀ r ∈ calculateEnergySq img, r.length = gridCols img) ∧
      ∀ r ∈ calculateEnergySq img, ∀ x ∈ r, x = 0 := by
  refine ⟨by simp [calculateEnergySq], ?_, ?_⟩
  · intro r hr
    simp only [calculateEnergySq, List.mem_map, List.mem_range] at hr
    obtain ⟨i, _, rfl⟩ := hr
    simp
  · intro r hr x hx
    simp only [calculateEnergySq, List.mem_map, List.mem_range] at hr
    obtain ⟨i, hi, rfl⟩ := hr
    simp only [List.mem_map, List.mem_range] at hx
    obtain ⟨j, hj, rfl⟩ := hx
    have hg : ∀ di dj : ℤ, di.natAbs ≤ 1 → dj.natAbs ≤ 1 →
        (((img.map fun row => row.map fun p => ((bgr2gray p : ℕ) : ℚ)).getD
            (reflect101 img.length ((i : ℤ) + di)) []).getD
          (reflect101 (gridCols img) ((j : ℤ) + dj)) 0) = (bgr2gray c : ℚ) := by
      intro di dj hdi hdj
      apply uniform_gray_lookup img c hrect hu
      · exact reflect101_lt (by omega) (by omega) (by omega)
      · exact reflect101_lt (by omega) (by omega) (by omega)
    rw [conv3_uniform_zero _ _ _ _ _ _ _ hg sobelXCoef_sum,
      conv3_uniform_zero _ _ _ _ _ _ _ hg sobelYCoef_sum]
    norm_num

end EnergyLemmas

section SpecSideDefs

lemma minPrev3_eq_candidates (cols : ℕ) (prev : List ℚ) (j : ℕ) :
    minPrev3 cols prev j = (neighborCandidates cols prev j).foldl min (prev.getD j 0) := by
  by_cases h1 : 0 < j <;> by_cases h2 : j + 1 < cols
  · have h2' : j < cols - 1 := by omega
    simp only [minPrev3, neighborCandidates, if_pos h1, if_pos h2, if_pos h2',
      List.cons_append, List.nil_append, List.foldl_cons, List.foldl_nil]
    rw [min_eq_left (min_le_left _ _)]
  · have h2' : ¬ j < cols - 1 := by omega
    simp only [minPrev3, neighborCandidates, if_pos h1, if_neg h2, if_neg h2',
      List.cons_append, List.nil_append, List.append_nil, List.foldl_cons, List.foldl_nil]
    rw [min_eq_left (min_le_left _ _)]
  · have h2' : j < cols - 1 := by omega
    have h1' : j = 0 := by omega
    simp only [minPrev3, neighborCandidates, if_neg h1, if_pos h2, if_pos h2',
      List.cons_append, List.nil_append, List.foldl_cons, List.foldl_nil]
    rw [min_self]
  · have h2' : ¬ j < cols - 1 := by omega
    simp only [minPrev3, neighborCandidates, if_neg h1, if_neg h2, if_neg h2',
      List.nil_append, List.append_nil, List.foldl_cons, List.foldl_nil]
    rw [min_self]

end SpecSideDefs

section CarverLemmas

lemma resizeImageGraphCut_error_iff (calcE : Image → Grid) (c : Carver)
    (newWidth newHeight : ℤ) :
    resizeImageGraphCut calcE c newWidth newHeight
        = Except.error "Graph-cut version only supports shrinking (no expansion)." ↔
      ((gridCols c.image : ℤ) < newWidth ∨ (c.image.length : ℤ) < newHeight) := by
  simp only [resizeImageGraphCut]
  split_ifs with h
  · simp only [true_iff]
    omega
  · constructor
    · intro hcontra
      exact absurd hcontra (by simp)
    · intro hcond
      exact absurd hcond (by omega)

lemma applyOp_originalImage (c : Carver) (op : CarverOp) :
    (applyOp c op).originalImage = c.originalImage := by
  cases op with
  | resize calcE w h useDP => rfl
  | resizeGraphCut calcE w h =>
    simp only [applyOp, resizeImageGraphCut]
    split_ifs <;> rfl

lemma foldl_applyOp_originalImage (ops : List CarverOp) :
    ∀ c : Carver, (ops.foldl applyOp c).originalImage = c.originalImage := by
  induction ops with
  | nil => intro c; rfl
  | cons op rest ih =>
    intro c
    rw [List.foldl_cons, ih, applyOp_originalImage]

end CarverLemmas

section ClaimTheorems

/-- C1 (counterexample): the claim says a resize call whose target width
exceeds the current width fails with an invalid-request error; but resizeImage
on a 1×1 image with target 2×2 returns normally (it performs no validation and
simply skips both loops), so the claim is false as stated. -/
theorem resizeImage_oversize_ok_cex :
    resizeImage (fun _ => [[0]]) (mkCarver [[(0, 0, 0)]]) 2 2 true
      = Except.ok ([[(0, 0, 0)]], mkCarver [[(0, 0, 0)]]) := rfl

/-- C1 (amended): resizeImageGraphCut fails with the invalid-request error
exactly when the target width exceeds the current width or the target height
exceeds the current height, before any seam processing, and then the working
state is left untouched; resizeImage performs no validation: whenever the
target is at least the current size in both dimensions — every enlargement
request included — both seam loops are skipped and the call returns normally
with the working image pixel-identical, instead of failing as the claim
requires. -/
theorem resize_validation_behavior (calcE : Image → Grid) (c : Carver)
    (newWidth newHeight : ℤ) :
    (resizeImageGraphCut calcE c newWidth newHeight
        = Except.error "Graph-cut version only supports shrinking (no expansion)." ↔
      ((gridCols c.image : ℤ) < newWidth ∨ (c.image.length : ℤ) < newHeight)) ∧
    (((gridCols c.image : ℤ) < newWidth ∨ (c.image.length : ℤ) < newHeight) →
      applyOp c (CarverOp.resizeGraphCut calcE newWidth newHeight) = c) ∧
    ((gridCols c.image : ℤ) ≤ newWidth → (c.image.length : ℤ) ≤ newHeight →
      ∀ useDP, resizeImage calcE c newWidth newHeight useDP
        = Except.ok (c.image, { c with image := c.image })) := by
  refine ⟨resizeImageGraphCut_error_iff calcE c newWidth newHeight, ?_, ?_⟩
  · intro hinv
    have herr := (resizeImageGraphCut_error_iff calcE c newWidth newHeight).mpr hinv
    simp only [applyOp, herr]
  · intro hw hh useDP
    simp only [resizeImage]
    rw [if_neg (show ¬ (0 : ℤ) < (gridCols c.image : ℤ) - newWidth by omega),
      if_neg (show ¬ (0 : ℤ) < (c.image.length : ℤ) - newHeight by omega)]

/-- Witness for C1's amended theorem at a 1×1 image: asked to grow to 2×1 the
graph-cut call errors and leaves the state untouched, and asked to grow to 2×2
resizeImage returns normally with the image unchanged. -/
theorem resize_validation_behavior_witness :
    (((gridCols (mkCarver [[(0, 0, 0)]]).image : ℤ) < 2 ∨
        ((mkCarver [[(0, 0, 0)]]).image.length : ℤ) < 1) ∧
      applyOp (mkCarver [[(0, 0, 0)]]) (CarverOp.resizeGraphCut (fun _ => [[0]]) 2 1)
        = mkCarver [[(0, 0, 0)]]) ∧
    ((gridCols (mkCarver [[(0, 0, 0)]]).image : ℤ) ≤ 2 ∧
      ((mkCarver [[(0, 0, 0)]]).image.length : ℤ) ≤ 2 ∧
      resizeImage (fun _ => [[0]]) (mkCarver [[(0, 0, 0)]]) 2 2 true
        = Except.ok ((mkCarver [[(0, 0, 0)]]).image,
            { mkCarver [[(0, 0, 0)]] with image := (mkCarver [[(0, 0, 0)]]).image })) :=
  ⟨⟨by decide,
      (resize_validation_behavior (fun _ => [[0]]) (mkCarver [[(0, 0, 0)]]) 2 1).2.1
        (by decide)⟩,
    by decide, by decide,
    (resize_validation_behavior (fun _ => [[0]]) (mkCarver [[(0, 0, 0)]]) 2 2).2.2
      (by decide) (by decide) true⟩

/-- C8: on an image whose pixels all share one colour, the energy grid has the
image's dimensions and is zero at every pixel, boundary pixels included under
the BORDER_REFLECT_101 edge extension of the Sobel filter. The model's
calculateEnergySq is the squared gradient magnitude, which vanishes exactly
where the source's magnitude does. -/
theorem calculateEnergy_uniform_zero (img : Image) (c : Pixel) (hrect : Rect img)
    (hu : ∀ row ∈ img, ∀ p ∈ row, p = c) :
    (calculateEnergySq img).length = img.length ∧
      (∀ r ∈ calculateEnergySq img, r.length = gridCols img) ∧
      ∀ r ∈ calculateEnergySq img, ∀ x ∈ r, x = 0 :=
  calculateEnergySq_uniform img c hrect hu

/-- Witness for C8 on a concrete 2×2 uniform image. -/
theorem calculateEnergy_uniform_zero_witness :
    (Rect [[((7, 7, 7) : Pixel), (7, 7, 7)], [(7, 7, 7), (7, 7, 7)]] ∧
      ∀ row ∈ [[((7, 7, 7) : Pixel), (7, 7, 7)], [(7, 7, 7), (7, 7, 7)]],
        ∀ p ∈ row, p = ((7, 7, 7) : Pixel)) ∧
    ((calculateEnergySq [[(7, 7, 7), (7, 7, 7)], [(7, 7, 7), (7, 7, 7)]]).length
        = ([[((7, 7, 7) : Pixel), (7, 7, 7)], [(7, 7, 7), (7, 7, 7)]] : Image).length ∧
      (∀ r ∈ calculateEnergySq [[(7, 7, 7), (7, 7, 7)], [(7, 7, 7), (7, 7, 7)]],
        r.length = gridCols ([[((7, 7, 7) : Pixel), (7, 7, 7)], [(7, 7, 7), (7, 7, 7)]] : Image)) ∧
      ∀ r ∈ calculateEnergySq [[(7, 7, 7), (7, 7, 7)], [(7, 7, 7), (7, 7, 7)]],
        ∀ x ∈ r, x = 0) :=
  ⟨⟨by decide, by decide⟩,
    calculateEnergy_uniform_zero [[(7, 7, 7), (7, 7, 7)], [(7, 7, 7), (7, 7, 7)]] (7, 7, 7)
      (by decide) (by decide)⟩

/-- C9: the stored original image survives every sequence of resize operations
unchanged: getOriginalImage after any such sequence returns the image held at
construction time (each resize run works on a clone, which in this pure
embedding is the threaded working-image field; neither resize path ever writes
the originalImage field). -/
theorem originalImage_preserved (img : Image) (ops : List CarverOp) :
    getOriginalImage (ops.foldl applyOp (mkCarver img)) = img := by
  rw [getOriginalImage, foldl_applyOp_originalImage]
  rfl

/-- C3: on every non-empty energy grid, the DP cumulative-cost grid satisfies
the stated recurrence (first row copied from the energy grid; each later entry
adds the minimum over the up-to-three in-range upper neighbours, out-of-range
neighbours excluded), and the DP seam's total energy is the minimum total
energy over all connected in-range vertical seams: the DP seam is itself such
a seam and its cost lower-bounds every other's. -/
theorem findVerticalSeamDP_optimal (E : Grid) (hE : E ≠ []) (hc : 0 < gridCols E) :
    (∀ j, j < gridCols E → dpVal E 0 j = ent E 0 j) ∧
    (∀ i j, i + 1 < E.length → j < gridCols E →
      dpVal E (i + 1) j = ent E (i + 1) j +
        (neighborCandidates (gridCols E) (dpRow E i) j).foldl min ((dpRow E i).getD j 0)) ∧
    (findVerticalSeamDP E).length = E.length ∧
    SeamInRange (gridCols E) (findVerticalSeamDP E) ∧
    SeamConnected (findVerticalSeamDP E) ∧
    ∀ s : List ℕ, s.length = E.length → SeamInRange (gridCols E) s → SeamConnected s →
      seamCost E (findVerticalSeamDP E) ≤ seamCost E s := by
  match E, hE with
  | r0 :: rest, _ =>
    refine ⟨?_, ?_, findVerticalSeamDP_length (List.cons_ne_nil r0 rest),
      findVerticalSeamDP_range (List.cons_ne_nil r0 rest) hc,
      findVerticalSeamDP_connected _,
      findVerticalSeamDP_min (List.cons_ne_nil r0 rest) hc⟩
    · intro j hj
      rw [dpVal_zero]
      rfl
    · intro i j hi hj
      rw [← minPrev3_eq_candidates]
      exact dpVal_succ r0 rest (by simpa using hi) hj

/-- Witness for C3 on a concrete 2×2 grid. -/
theorem findVerticalSeamDP_optimal_witness :
    (([[(1 : ℚ), 2], [3, 4]] : Grid) ≠ [] ∧ 0 < gridCols ([[(1 : ℚ), 2], [3, 4]] : Grid)) ∧
    ((∀ j, j < gridCols ([[(1 : ℚ), 2], [3, 4]] : Grid) →
        dpVal [[(1 : ℚ), 2], [3, 4]] 0 j = ent [[(1 : ℚ), 2], [3, 4]] 0 j) ∧
      (∀ i j, i + 1 < ([[(1 : ℚ), 2], [3, 4]] : Grid).length →
        j < gridCols ([[(1 : ℚ), 2], [3, 4]] : Grid) →
        dpVal [[(1 : ℚ), 2], [3, 4]] (i + 1) j = ent [[(1 : ℚ), 2], [3, 4]] (i + 1) j +
          (neighborCandidates (gridCols ([[(1 : ℚ), 2], [3, 4]] : Grid))
            (dpRow [[(1 : ℚ), 2], [3, 4]] i) j).foldl min
              ((dpRow [[(1 : ℚ), 2], [3, 4]] i).getD j 0)) ∧
      (findVerticalSeamDP [[(1 : ℚ), 2], [3, 4]]).length
        = ([[(1 : ℚ), 2], [3, 4]] : Grid).length ∧
      SeamInRange (gridCols ([[(1 : ℚ), 2], [3, 4]] : Grid))
        (findVerticalSeamDP [[(1 : ℚ), 2], [3, 4]]) ∧
      SeamConnected (findVerticalSeamDP [[(1 : ℚ), 2], [3, 4]]) ∧
      ∀ s : List ℕ, s.length = ([[(1 : ℚ), 2], [3, 4]] : Grid).length →
        SeamInRange (gridCols ([[(1 : ℚ), 2], [3, 4]] : Grid)) s → SeamConnected s →
        seamCost [[(1 : ℚ), 2], [3, 4]] (findVerticalSeamDP [[(1 : ℚ), 2], [3, 4]])
          ≤ seamCost [[(1 : ℚ), 2], [3, 4]] s) :=
  ⟨⟨by decide, by decide⟩,
    findVerticalSeamDP_optimal [[(1 : ℚ), 2], [3, 4]] (by decide) (by decide)⟩

/-- C5: removing a valid vertical (resp. horizontal) seam yields a new image
with exactly one fewer column (row), the same row (column) count and the same
pixels: each row keeps its pixels left of the cut unchanged and shifts the
pixels right of the cut one place left, including the edge cases where the cut
is at column 0 or at the last column (every output row is fully populated at
length cols-1); the input image value is untouched, the embedding's functions
being pure. -/
theorem removeSeam_spec {α : Type} (img : List (List α)) (seam : List ℕ) (cols : ℕ)
    (hrect : ∀ r ∈ img, r.length = cols) (hcols : 2 ≤ cols)
    (hlen : seam.length = img.length) (hrange : ∀ x ∈ seam, x < cols) :
    ((removeVerticalSeam img seam).length = img.length ∧
      (∀ r ∈ removeVerticalSeam img seam, r.length = cols - 1) ∧
      (∀ i, i < img.length →
        (removeVerticalSeam img seam).getD i [] =
          (img.getD i []).take (seam.getD i 0) ++ (img.getD i []).drop (seam.getD i 0 + 1)) ∧
      (∀ i, i < img.length → ∀ j, j + 1 < cols → ∀ d : α,
        ((removeVerticalSeam img seam).getD i []).getD j d =
          if j < seam.getD i 0 then (img.getD i []).getD j d
          else (img.getD i []).getD (j + 1) d)) ∧
    ∀ (img2 : List (List α)) (seam2 : List ℕ) (rows2 cols2 : ℕ),
      img2.length = rows2 → 2 ≤ rows2 → (∀ r ∈ img2, r.length = cols2) →
      seam2.length = cols2 → (∀ x ∈ seam2, x < rows2) →
      (removeHorizontalSeam img2 seam2).length = rows2 - 1 ∧
      (∀ i, i + 1 < rows2 → ((removeHorizontalSeam img2 seam2).getD i []).length = cols2) ∧
      (∀ i, i + 1 < rows2 → ∀ j, j < cols2 → ∀ d : α,
        ((removeHorizontalSeam img2 seam2).getD i []).getD j d =
          if i < seam2.getD j 0 then (img2.getD i []).getD j d
          else (img2.getD (i + 1) []).getD j d) := by
  have hrowlen : ∀ i, i < img.length → (img.getD i []).length = cols := by
    intro i hi
    apply hrect
    rw [List.getD_eq_getElem _ _ hi]
    exact List.getElem_mem hi
  have hseamval : ∀ i, i < img.length → seam.getD i 0 < cols := by
    intro i hi
    apply hrange
    rw [List.getD_eq_getElem _ _ (by omega : i < seam.length)]
    exact List.getElem_mem (by omega)
  constructor
  · refine ⟨removeVerticalSeam_length img seam hlen, ?_, ?_, ?_⟩
    · intro r hr
      simp only [removeVerticalSeam, List.mem_map] at hr
      obtain ⟨p, hp, rfl⟩ := hr
      obtain ⟨hp1, hp2⟩ := List.of_mem_zip hp
      rw [take_append_drop_length _ _ (by rw [hrect p.1 hp1]; exact hrange p.2 hp2)]
      rw [hrect p.1 hp1]
    · intro i hi
      exact removeVerticalSeam_getD img seam hlen hi
    · intro i hi j hj d
      rw [removeVerticalSeam_getD img seam hlen hi,
        take_append_drop_getD _ _ _ (by rw [hrowlen i hi]; exact hseamval i hi) j
          (by rw [hrowlen i hi]; omega)]
  · intro img2 seam2 rows2 cols2 hrows2 h2 hrect2 hlen2 hrange2
    have hrowlen2 : ∀ i, i < img2.length → (img2.getD i []).length = cols2 := by
      intro i hi
      apply hrect2
      rw [List.getD_eq_getElem _ _ hi]
      exact List.getElem_mem hi
    refine ⟨by rw [removeHorizontalSeam_length, hrows2], ?_, ?_⟩
    · intro i hi
      rw [removeHorizontalSeam_getD img2 seam2 (by omega), hRow_length]
      rw [hrowlen2 i (by omega), hrowlen2 (i + 1) (by omega), hlen2]
      simp
    · intro i hi j hj d
      rw [removeHorizontalSeam_getD img2 seam2 (by omega)]
      exact hRow_getD i _ _ seam2 d (by rw [hrowlen2 i (by omega)]; exact hj)
        (by rw [hrowlen2 (i + 1) (by omega)]; exact hj) (by omega)

/-- Witness for C5 on a concrete 2×2 image with seam (1, 0). -/
theorem removeSeam_spec_witness :
    ((∀ r ∈ [[(1 : ℕ), 2], [3, 4]], r.length = 2) ∧ 2 ≤ 2 ∧
      ([1, 0] : List ℕ).length = ([[(1 : ℕ), 2], [3, 4]] : List (List ℕ)).length ∧
      ∀ x ∈ ([1, 0] : List ℕ), x < 2) ∧
    (((removeVerticalSeam [[(1 : ℕ), 2], [3, 4]] [1, 0]).length
        = ([[(1 : ℕ), 2], [3, 4]] : List (List ℕ)).length ∧
      (∀ r ∈ removeVerticalSeam [[(1 : ℕ), 2], [3, 4]] [1, 0], r.length = 2 - 1) ∧
      (∀ i, i < ([[(1 : ℕ), 2], [3, 4]] : List (List ℕ)).length →
        (removeVerticalSeam [[(1 : ℕ), 2], [3, 4]] [1, 0]).getD i [] =
          (([[(1 : ℕ), 2], [3, 4]] : List (List ℕ)).getD i []).take (([1, 0] : List ℕ).getD i 0)
            ++ (([[(1 : ℕ), 2], [3, 4]] : List (List ℕ)).getD i []).drop
              (([1, 0] : List ℕ).getD i 0 + 1)) ∧
      (∀ i, i < ([[(1 : ℕ), 2], [3, 4]] : List (List ℕ)).length → ∀ j, j + 1 < 2 → ∀ d : ℕ,
        ((removeVerticalSeam [[(1 : ℕ), 2], [3, 4]] [1, 0]).getD i []).getD j d =
          if j < ([1, 0] : List ℕ).getD i 0
          then (([[(1 : ℕ), 2], [3, 4]] : List (List ℕ)).getD i []).getD j d
          else (([[(1 : ℕ), 2], [3, 4]] : List (List ℕ)).getD i []).getD (j + 1) d)) ∧
    ∀ (img2 : List (List ℕ)) (seam2 : List ℕ) (rows2 cols2 : ℕ),
      img2.length = rows2 → 2 ≤ rows2 → (∀ r ∈ img2, r.length = cols2) →
      seam2.length = cols2 → (∀ x ∈ seam2, x < rows2) →
      (removeHorizontalSeam img2 seam2).length = rows2 - 1 ∧
      (∀ i, i + 1 < rows2 → ((removeHorizontalSeam img2 seam2).getD i []).length = cols2) ∧
      (∀ i, i + 1 < rows2 → ∀ j, j < cols2 → ∀ d : ℕ,
        ((removeHorizontalSeam img2 seam2).getD i []).getD j d =
          if i < seam2.getD j 0 then (img2.getD i []).getD j d
          else (img2.getD (i + 1) []).getD j d)) :=
  ⟨⟨by decide, by decide, by decide, by decide⟩,
    removeSeam_spec [[(1 : ℕ), 2], [3, 4]] [1, 0] 2 (by decide) (by decide) (by decide)
      (by decide)⟩

/-- C7: the DP seam's endpoint is the lowest-index column attaining the
minimum cumulative cost of the last row (its value bounds every column, and
strictly beats every earlier column), and each backtracking step keeps the
straight-above column whenever the in-range candidate parents tie on
cumulative cost. -/
theorem dp_endpoint_and_tiebreak (E : Grid) (hE : E ≠ []) (hc : 0 < gridCols E) :
    (findVerticalSeamDP E).getLast? = some (argminIdx (dpRow E (E.length - 1))) ∧
    argminIdx (dpRow E (E.length - 1)) < gridCols E ∧
    (∀ k, k < gridCols E →
      (dpRow E (E.length - 1)).getD (argminIdx (dpRow E (E.length - 1))) 0
        ≤ (dpRow E (E.length - 1)).getD k 0) ∧
    (∀ k, k < argminIdx (dpRow E (E.length - 1)) →
      (dpRow E (E.length - 1)).getD (argminIdx (dpRow E (E.length - 1))) 0
        < (dpRow E (E.length - 1)).getD k 0) ∧
    ∀ i, i + 1 < E.length →
      (0 < (findVerticalSeamDP E).getD (i + 1) 0 →
        (dpRow E i).getD ((findVerticalSeamDP E).getD (i + 1) 0 - 1) 0
          = (dpRow E i).getD ((findVerticalSeamDP E).getD (i + 1) 0) 0) →
      ((findVerticalSeamDP E).getD (i + 1) 0 < gridCols E - 1 →
        (dpRow E i).getD ((findVerticalSeamDP E).getD (i + 1) 0 + 1) 0
          = (dpRow E i).getD ((findVerticalSeamDP E).getD (i + 1) 0) 0) →
      (findVerticalSeamDP E).getD i 0 = (findVerticalSeamDP E).getD (i + 1) 0 := by
  have hrowlen : (dpRow E (E.length - 1)).length = gridCols E :=
    dpRow_length E (by
      have := List.length_pos.mpr hE
      omega)
  have hrowne : dpRow E (E.length - 1) ≠ [] := by
    intro hnil
    rw [hnil] at hrowlen
    simp at hrowlen
    omega
  refine ⟨?_, ?_, ?_, ?_, ?_⟩
  · match E, hE with
    | r0 :: rest, _ =>
      rw [findVerticalSeamDP_last]
      congr 2
      rw [dpTable_length]
  · have := argminIdx_lt_length hrowne
    rw [hrowlen] at this
    exact this
  · intro k hk
    exact argminIdx_le hrowne k (by rw [hrowlen]; exact hk)
  · intro k hk
    exact argminIdx_first hrowne k hk
  · intro i hi hL hR
    rw [findVerticalSeamDP_step hE hi]
    exact pickNeighbor_tie _ _ _ hL hR

/-- Witness for C7 on a concrete 2×2 grid with a tie in the last row. -/
theorem dp_endpoint_and_tiebreak_witness :
    (([[(0 : ℚ), 0], [0, 0]] : Grid) ≠ [] ∧ 0 < gridCols ([[(0 : ℚ), 0], [0, 0]] : Grid)) ∧
    ((findVerticalSeamDP [[(0 : ℚ), 0], [0, 0]]).getLast?
        = some (argminIdx (dpRow [[(0 : ℚ), 0], [0, 0]]
          (([[(0 : ℚ), 0], [0, 0]] : Grid).length - 1))) ∧
      argminIdx (dpRow [[(0 : ℚ), 0], [0, 0]] (([[(0 : ℚ), 0], [0, 0]] : Grid).length - 1))
        < gridCols ([[(0 : ℚ), 0], [0, 0]] : Grid) ∧
      (∀ k, k < gridCols ([[(0 : ℚ), 0], [0, 0]] : Grid) →
        (dpRow [[(0 : ℚ), 0], [0, 0]] (([[(0 : ℚ), 0], [0, 0]] : Grid).length - 1)).getD
            (argminIdx (dpRow [[(0 : ℚ), 0], [0, 0]]
              (([[(0 : ℚ), 0], [0, 0]] : Grid).length - 1))) 0
          ≤ (dpRow [[(0 : ℚ), 0], [0, 0]]
              (([[(0 : ℚ), 0], [0, 0]] : Grid).length - 1)).getD k 0) ∧
      (∀ k, k < argminIdx (dpRow [[(0 : ℚ), 0], [0, 0]]
          (([[(0 : ℚ), 0], [0, 0]] : Grid).length - 1)) →
        (dpRow [[(0 : ℚ), 0], [0, 0]] (([[(0 : ℚ), 0], [0, 0]] : Grid).length - 1)).getD
            (argminIdx (dpRow [[(0 : ℚ), 0], [0, 0]]
              (([[(0 : ℚ), 0], [0, 0]] : Grid).length - 1))) 0
          < (dpRow [[(0 : ℚ), 0], [0, 0]]
              (([[(0 : ℚ), 0], [0, 0]] : Grid).length - 1)).getD k 0) ∧
      ∀ i, i + 1 < ([[(0 : ℚ), 0], [0, 0]] : Grid).length →
        (0 < (findVerticalSeamDP [[(0 : ℚ), 0], [0, 0]]).getD (i + 1) 0 →
          (dpRow [[(0 : ℚ), 0], [0, 0]] i).getD
              ((findVerticalSeamDP [[(0 : ℚ), 0], [0, 0]]).getD (i + 1) 0 - 1) 0
            = (dpRow [[(0 : ℚ), 0], [0, 0]] i).getD
              ((findVerticalSeamDP [[(0 : ℚ), 0], [0, 0]]).getD (i + 1) 0) 0) →
        ((findVerticalSeamDP [[(0 : ℚ), 0], [0, 0]]).getD (i + 1) 0
            < gridCols ([[(0 : ℚ), 0], [0, 0]] : Grid) - 1 →
          (dpRow [[(0 : ℚ), 0], [0, 0]] i).getD
              ((findVerticalSeamDP [[(0 : ℚ), 0], [0, 0]]).getD (i + 1) 0 + 1) 0
            = (dpRow [[(0 : ℚ), 0], [0, 0]] i).getD
              ((findVerticalSeamDP [[(0 : ℚ), 0], [0, 0]]).getD (i + 1) 0) 0) →
        (findVerticalSeamDP [[(0 : ℚ), 0], [0, 0]]).getD i 0
          = (findVerticalSeamDP [[(0 : ℚ), 0], [0, 0]]).getD (i + 1) 0) :=
  ⟨⟨by decide, by decide⟩,
    dp_endpoint_and_tiebreak [[(0 : ℚ), 0], [0, 0]] (by decide) (by decide)⟩

end ClaimTheorems

section GraphBasics

lemma pix_div {cols : ℕ} (r : ℕ) {c : ℕ} (hc : c < cols) : (r * cols + c) / cols = r := by
  have hcols : 0 < cols := by omega
  rw [Nat.add_comm, Nat.add_mul_div_right _ _ hcols, Nat.div_eq_of_lt hc]
  omega

lemma pix_mod {cols : ℕ} (r : ℕ) {c : ℕ} (hc : c < cols) : (r * cols + c) % cols = c := by
  rw [Nat.add_comm, Nat.add_mul_mod_self_right, Nat.mod_eq_of_lt hc]

lemma pix_lt {rows cols : ℕ} {r c : ℕ} (hr : r < rows) (hc : c < cols) :
    r * cols + c < rows * cols := by
  have h1 : r * cols + c < r * cols + cols := by omega
  have h2 : r * cols + cols = (r + 1) * cols := by ring
  have h3 : (r + 1) * cols ≤ rows * cols := Nat.mul_le_mul_right cols (by omega)
  omega

lemma pix_inj {cols : ℕ} {r c r2 c2 : ℕ} (hc : c < cols) (hc2 : c2 < cols)
    (h : r * cols + c = r2 * cols + c2) : r = r2 ∧ c = c2 := by
  constructor
  · have := congrArg (fun x => x / cols) h
    simpa [pix_div r hc, pix_div r2 hc2] using this
  · have := congrArg (fun x => x % cols) h
    simpa [pix_mod r hc, pix_mod r2 hc2] using this

lemma ent_nonneg {E : Grid} (hE : ∀ r ∈ E, ∀ x ∈ r, 0 ≤ x) (i j : ℕ) : 0 ≤ ent E i j := by
  rw [ent]
  by_cases hi : i < E.length
  · have hrow : E.getD i [] ∈ E := by
      rw [List.getD_eq_getElem _ _ hi]
      exact List.getElem_mem hi
    by_cases hj : j < (E.getD i []).length
    · have hx : (E.getD i []).getD j 0 ∈ E.getD i [] := by
        rw [List.getD_eq_getElem _ _ hj]
        exact List.getElem_mem hj
      exact hE _ hrow _ hx
    · exact (List.getD_eq_default _ _ (by omega)).ge
  · have h0 : E.getD i [] = ([] : List ℚ) := List.getD_eq_default _ _ (by omega)
    rw [h0]
    simp

/-- Full characterization of the edges of the layered pixel graph. -/
lemma nodeAdj_mem_cases {rows cols : ℕ} {E : Grid} {u v : ℕ} {w : ℚ}
    (h : (v, w) ∈ nodeAdj rows cols E u) :
    (u = rows * cols ∧ v < cols ∧ w = ent E 0 v) ∨
    (∃ r c c2, u = r * cols + c ∧ c < cols ∧ r + 1 < rows ∧ c2 < cols ∧
      ((c2 : ℤ) - (c : ℤ)).natAbs ≤ 1 ∧ v = (r + 1) * cols + c2 ∧ w = ent E (r + 1) c2) ∨
    (∃ c, u = (rows - 1) * cols + c ∧ c < cols ∧ 0 < rows ∧ v = rows * cols + 1 ∧ w = 0) := by
  by_cases h1 : u = rows * cols
  · left
    rw [nodeAdj, if_pos h1] at h
    simp only [List.mem_map, List.mem_range] at h
    obtain ⟨c, hc, heq⟩ := h
    cases heq
    exact ⟨h1, hc, rfl⟩
  · by_cases h2 : u < rows * cols
    · have hcols : 0 < cols := by
        rcases Nat.eq_zero_or_pos cols with rfl | hpos
        · simp at h2
        · exact hpos
      have hrows : 0 < rows := by
        rcases Nat.eq_zero_or_pos rows with rfl | hpos
        · simp at h2
        · exact hpos
      have hmod : u % cols < cols := Nat.mod_lt u hcols
      have hdiv : u / cols < rows := by
        rw [Nat.div_lt_iff_lt_mul hcols]
        omega
      have hu : u = (u / cols) * cols + u % cols := by
        rw [Nat.div_add_mod']
      by_cases h3 : u / cols = rows - 1
      · right; right
        rw [nodeAdj, if_neg h1, if_pos h2] at h
        simp only [h3, ite_true, List.mem_singleton] at h
        cases h
        exact ⟨u % cols, by rw [← h3]; exact hu, hmod, hrows, rfl, rfl⟩
      · right; left
        rw [nodeAdj, if_neg h1, if_pos h2] at h
        simp only [h3, ite_false, List.mem_filterMap] at h
        obtain ⟨dc, hdc, hsome⟩ := h
        have hdcb : -1 ≤ dc ∧ dc ≤ 1 := by
          rcases (by simpa using hdc : dc = -1 ∨ dc = 0 ∨ dc = 1) with rfl | rfl | rfl <;>
            exact ⟨by norm_num, by norm_num⟩
        split_ifs at hsome with hcond
        · simp only [Option.some_inj, Prod.mk.injEq] at hsome
          obtain ⟨hv, hw⟩ := hsome
          exact ⟨u / cols, u % cols, ((u % cols : ℤ) + dc).toNat, hu, hmod, by omega,
            by omega, by omega, hv.symm, hw.symm⟩
    · rw [nodeAdj, if_neg h1, if_neg h2] at h
      exact absurd h (by simp)

lemma nodeAdj_src_edge (rows cols : ℕ) (E : Grid) {c : ℕ} (hc : c < cols) :
    (c, ent E 0 c) ∈ nodeAdj rows cols E (rows * cols) := by
  rw [nodeAdj, if_pos rfl]
  simp only [List.mem_map, List.mem_range]
  exact ⟨c, hc, rfl⟩

lemma nodeAdj_mid_edge (rows cols : ℕ) (E : Grid) {r c c2 : ℕ} (hr : r + 1 < rows)
    (hc : c < cols) (hc2 : c2 < cols) (hadj : ((c2 : ℤ) - (c : ℤ)).natAbs ≤ 1) :
    ((r + 1) * cols + c2, ent E (r + 1) c2) ∈ nodeAdj rows cols E (r * cols + c) := by
  have hlt : r * cols + c < rows * cols := pix_lt (by omega) hc
  rw [nodeAdj, if_neg (by omega), if_pos hlt]
  rw [pix_div r hc, pix_mod r hc]
  have hne : ¬ r = rows - 1 := by omega
  simp only [hne, ite_false, List.mem_filterMap]
  refine ⟨(c2 : ℤ) - c, by simp; omega, ?_⟩
  have hcond : (0 : ℤ) ≤ (c : ℤ) + ((c2 : ℤ) - c) ∧ (c : ℤ) + ((c2 : ℤ) - c) < cols := by
    constructor <;> omega
  rw [if_pos hcond]
  have htn : ((c : ℤ) + ((c2 : ℤ) - c)).toNat = c2 := by omega
  rw [htn]

lemma nodeAdj_last_edge (rows cols : ℕ) (E : Grid) {c : ℕ} (hr : 0 < rows) (hc : c < cols) :
    (rows * cols + 1, 0) ∈ nodeAdj rows cols E ((rows - 1) * cols + c) := by
  have hlt : (rows - 1) * cols + c < rows * cols := pix_lt (by omega) hc
  rw [nodeAdj, if_neg (by omega), if_pos hlt]
  rw [pix_div (rows - 1) hc]
  simp

lemma nodeAdj_weight_nonneg {rows cols : ℕ} {E : Grid}
    (hE : ∀ r ∈ E, ∀ x ∈ r, 0 ≤ x) {u : ℕ} {vw : ℕ × ℚ}
    (h : vw ∈ nodeAdj rows cols E u) : 0 ≤ vw.2 := by
  rcases nodeAdj_mem_cases (show (vw.1, vw.2) ∈ nodeAdj rows cols E u from h) with
      ⟨_, _, hw⟩ | ⟨r, c, c2, _, _, _, _, _, _, hw⟩ | ⟨c, _, _, _, _, hw⟩
  · exact (ent_nonneg hE 0 vw.1).trans_eq hw.symm
  · exact (ent_nonneg hE (r + 1) c2).trans_eq hw.symm
  · exact hw.ge

lemma nodeAdj_target_lt {rows cols : ℕ} {E : Grid} {u v : ℕ} {w : ℚ} (hr : 0 < rows)
    (h : (v, w) ∈ nodeAdj rows cols E u) : v < rows * cols + 2 := by
  rcases nodeAdj_mem_cases h with ⟨_, hv, _⟩ | ⟨r, c, c2, _, _, hrr, hc2, _, hv, _⟩ |
      ⟨c, _, _, _, hv, _⟩
  · have : cols ≤ rows * cols := Nat.le_mul_of_pos_left cols hr
    omega
  · have := pix_lt (show r + 1 < rows from hrr) hc2
    omega
  · omega

lemma nodeAdj_target_ne_src {rows cols : ℕ} {E : Grid} {u v : ℕ} {w : ℚ} (hr : 0 < rows)
    (h : (v, w) ∈ nodeAdj rows cols E u) : v ≠ rows * cols := by
  rcases nodeAdj_mem_cases h with ⟨_, hv, _⟩ | ⟨r, c, c2, _, _, hrr, hc2, _, hv, _⟩ |
      ⟨c, _, _, _, hv, _⟩
  · have : cols ≤ rows * cols := Nat.le_mul_of_pos_left cols hr
    omega
  · have := pix_lt (show r + 1 < rows from hrr) hc2
    omega
  · omega

lemma nodeAdj_target_ne_self {rows cols : ℕ} {E : Grid} {u v : ℕ} {w : ℚ} (hr : 0 < rows)
    (h : (v, w) ∈ nodeAdj rows cols E u) : v ≠ u := by
  rcases nodeAdj_mem_cases h with ⟨hu, hv, _⟩ | ⟨r, c, c2, hu, hc, hrr, hc2, _, hv, _⟩ |
      ⟨c, hu, hc, _, hv, _⟩
  · have : cols ≤ rows * cols := Nat.le_mul_of_pos_left cols hr
    omega
  · have h1 : u < (r + 1) * cols := by
      rw [hu]
      have : (r + 1) * cols = r * cols + cols := by ring
      omega
    omega
  · have := pix_lt (show rows - 1 < rows by omega) hc
    omega

lemma popMin_eq_none_iff (l : List (ℕ × ℚ)) : popMin l = none ↔ l = [] := by
  cases l with
  | nil => simp [popMin]
  | cons e es =>
    constructor
    · intro h
      cases hrec : popMin es with
      | none =>
        simp only [popMin, hrec] at h
        exact absurd h (by simp)
      | some val =>
        obtain ⟨m, rest⟩ := val
        simp only [popMin, hrec] at h
        split_ifs at h
    · intro h
      exact absurd h (by simp)

lemma popMin_perm (l : List (ℕ × ℚ)) :
    ∀ e rest, popMin l = some (e, rest) → l.Perm (e :: rest) := by
  induction l with
  | nil =>
    intro e rest h
    exact absurd h (by simp [popMin])
  | cons a as ih =>
    intro e rest h
    cases hrec : popMin as with
    | none =>
      simp only [popMin, hrec, Option.some_inj, Prod.mk.injEq] at h
      obtain ⟨rfl, rfl⟩ := h
      rw [(popMin_eq_none_iff as).mp hrec]
    | some val =>
      obtain ⟨m, r⟩ := val
      simp only [popMin, hrec] at h
      split_ifs at h with hle
      · simp only [Option.some_inj, Prod.mk.injEq] at h
        obtain ⟨rfl, rfl⟩ := h
        exact List.Perm.refl _
      · simp only [Option.some_inj, Prod.mk.injEq] at h
        obtain ⟨rfl, rfl⟩ := h
        have h1 : as.Perm (m :: r) := ih m r hrec
        have h2 : (a :: as).Perm (a :: m :: r) := List.Perm.cons a h1
        exact h2.trans (List.Perm.swap m a r)

lemma popMin_min (l : List (ℕ × ℚ)) :
    ∀ e rest, popMin l = some (e, rest) → ∀ x ∈ l, e.2 ≤ x.2 := by
  induction l with
  | nil =>
    intro e rest h
    exact absurd h (by simp [popMin])
  | cons a as ih =>
    intro e rest h x hx
    cases hrec : popMin as with
    | none =>
      simp only [popMin, hrec, Option.some_inj, Prod.mk.injEq] at h
      obtain ⟨rfl, rfl⟩ := h
      have : as = [] := (popMin_eq_none_iff as).mp hrec
      subst this
      simp only [List.mem_singleton] at hx
      rw [hx]
    | some val =>
      obtain ⟨m, r⟩ := val
      simp only [popMin, hrec] at h
      split_ifs at h with hle
      · simp only [Option.some_inj, Prod.mk.injEq] at h
        obtain ⟨rfl, rfl⟩ := h
        rcases List.mem_cons.mp hx with rfl | hx2
        · exact le_refl _
        · exact le_trans hle (ih m r hrec x hx2)
      · simp only [Option.some_inj, Prod.mk.injEq] at h
        obtain ⟨rfl, rfl⟩ := h
        rcases List.mem_cons.mp hx with rfl | hx2
        · exact le_of_lt (lt_of_not_le hle)
        · exact ih m r hrec x hx2

end GraphBasics

section RelaxLemmas

variable {rows cols : ℕ} {E : Grid}

lemma relaxEdge_pos_eq (u : ℕ) (du : ℚ) (st : DijkstraState) (e : ℕ × ℚ)
    (h : ((du + e.2 : ℚ) : WithTop ℚ) < st.dist e.1) :
    relaxEdge u du st e =
      { st with
        dist := fun x => if x = e.1 then ((du + e.2 : ℚ) : WithTop ℚ) else st.dist x
        parent := fun x => if x = e.1 then some u else st.parent x
        pq := st.pq ++ [(e.1, du + e.2)] } := by
  simp only [relaxEdge, if_pos h]

lemma relaxEdge_neg_eq (u : ℕ) (du : ℚ) (st : DijkstraState) (e : ℕ × ℚ)
    (h : ¬ ((du + e.2 : ℚ) : WithTop ℚ) < st.dist e.1) :
    relaxEdge u du st e = st := by
  simp only [relaxEdge, if_neg h]

lemma relaxEdge_mid (hr : 0 < rows) (S : Finset ℕ) (u : ℕ) (du : ℚ)
    (st : DijkstraState) (e : ℕ × ℚ)
    (he : e ∈ nodeAdj rows cols E u)
    (hmid : MidInv rows cols E (insert u S) S st)
    (hdu : st.dist u = (du : WithTop ℚ)) :
    MidInv rows cols E (insert u S) S (relaxEdge u du st e) ∧
      (relaxEdge u du st e).dist u = (du : WithTop ℚ) ∧
      (relaxEdge u du st e).dist e.1 ≤ (du : WithTop ℚ) + (e.2 : WithTop ℚ) ∧
      (relaxEdge u du st e).pq.length ≤ st.pq.length + 1 ∧
      (∀ v, (relaxEdge u du st e).dist v ≤ st.dist v) ∧
      ∀ z ∈ insert u S, (relaxEdge u du st e).dist z = st.dist z := by
  have hpair : (e.1, e.2) ∈ nodeAdj rows cols E u := he
  have hne_self : e.1 ≠ u := nodeAdj_target_ne_self hr hpair
  have hne_src : e.1 ≠ rows * cols := nodeAdj_target_ne_src hr hpair
  have hlt_nodes : e.1 < rows * cols + 2 := nodeAdj_target_lt hr hpair
  have hpath_u : HasPath (nodeAdj rows cols E) (rows * cols) u du := hmid.dist_pathcost u du hdu
  have hpath_v : HasPath (nodeAdj rows cols E) (rows * cols) e.1 (du + e.2) :=
    hpath_u.step hpair
  by_cases hguard : ((du + e.2 : ℚ) : WithTop ℚ) < st.dist e.1
  · have hv0 : e.1 ∉ insert u S := by
      intro hmem
      exact absurd (hmid.settled_opt e.1 hmem (du + e.2) hpath_v) (not_le_of_lt hguard)
    rw [relaxEdge_pos_eq u du st e hguard]
    have hdist : ∀ x, (if x = e.1 then ((du + e.2 : ℚ) : WithTop ℚ) else st.dist x)
        ≤ st.dist x := by
      intro x
      by_cases hx : x = e.1
      · rw [if_pos hx, hx]
        exact le_of_lt hguard
      · rw [if_neg hx]
    have hfrozen : ∀ z ∈ insert u S,
        (if z = e.1 then ((du + e.2 : ℚ) : WithTop ℚ) else st.dist z) = st.dist z := by
      intro z hz
      rw [if_neg (by intro hcontra; rw [hcontra] at hz; exact hv0 hz)]
    have hfin_pres : ∀ x, st.dist x ≠ ⊤ →
        (if x = e.1 then ((du + e.2 : ℚ) : WithTop ℚ) else st.dist x) ≠ ⊤ := by
      intro x hx
      by_cases hxe : x = e.1
      · rw [if_pos hxe]
        exact WithTop.coe_ne_top
      · rw [if_neg hxe]
        exact hx
    have hdist_u : (if u = e.1 then ((du + e.2 : ℚ) : WithTop ℚ) else st.dist u)
        = (du : WithTop ℚ) := by
      rw [if_neg (fun hcontra => hne_self hcontra.symm), hdu]
    refine ⟨⟨hmid.fin, ⟨?_, ?_, ?_, ?_⟩, ?_, ?_, hmid.settled_lt, ?_, ?_, ?_, ?_, ?_⟩,
      hdist_u, ?_, ?_, hdist, hfrozen⟩
    · show (if rows * cols = e.1 then ((du + e.2 : ℚ) : WithTop ℚ) else st.dist (rows * cols))
          = ((0 : ℚ) : WithTop ℚ)
      rw [if_neg (fun hcontra => hne_src hcontra.symm)]
      exact hmid.struct.src_dist
    · intro v z hpz
      have hpz2 : (if v = e.1 then some u else st.parent v) = some z := hpz
      by_cases hv : v = e.1
      · rw [if_pos hv] at hpz2
        have hz : z = u := by simpa using hpz2.symm
        rw [hz, hv]
        exact ⟨e.2, hpair⟩
      · rw [if_neg hv] at hpz2
        exact hmid.struct.parent_edge v z hpz2
    · intro v z hpz
      have hpz2 : (if v = e.1 then some u else st.parent v) = some z := hpz
      by_cases hv : v = e.1
      · rw [if_pos hv] at hpz2
        have hz : z = u := by simpa using hpz2.symm
        constructor
        · show (if v = e.1 then ((du + e.2 : ℚ) : WithTop ℚ) else st.dist v) ≠ ⊤
          rw [if_pos hv]
          exact WithTop.coe_ne_top
        · show (if z = e.1 then ((du + e.2 : ℚ) : WithTop ℚ) else st.dist z) ≠ ⊤
          rw [hz, hdist_u]
          exact WithTop.coe_ne_top
      · rw [if_neg hv] at hpz2
        obtain ⟨h1, h2⟩ := hmid.struct.parent_finite v z hpz2
        exact ⟨hfin_pres v h1, hfin_pres z h2⟩
    · intro v hvsrc hvfin
      have hvfin2 : (if v = e.1 then ((du + e.2 : ℚ) : WithTop ℚ) else st.dist v) ≠ ⊤ := hvfin
      show (if v = e.1 then some u else st.parent v) ≠ none
      by_cases hv : v = e.1
      · rw [if_pos hv]
        exact Option.some_ne_none u
      · rw [if_neg hv]
        rw [if_neg hv] at hvfin2
        exact hmid.struct.parent_none v hvsrc hvfin2
    · intro z hz c hc
      show (if z = e.1 then ((du + e.2 : ℚ) : WithTop ℚ) else st.dist z) ≤ (c : WithTop ℚ)
      rw [hfrozen z hz]
      exact hmid.settled_opt z hz c hc
    · intro z hz vw hvw
      have hz2 : z ∈ insert u S := Finset.mem_insert_of_mem hz
      show (if vw.1 = e.1 then ((du + e.2 : ℚ) : WithTop ℚ) else st.dist vw.1)
          ≤ (if z = e.1 then ((du + e.2 : ℚ) : WithTop ℚ) else st.dist z) + (vw.2 : WithTop ℚ)
      rw [hfrozen z hz2]
      exact le_trans (hdist vw.1) (hmid.settled_relax z hz vw hvw)
    · intro v hv hvfin
      have hvfin2 : (if v = e.1 then ((du + e.2 : ℚ) : WithTop ℚ) else st.dist v) ≠ ⊤ := hvfin
      by_cases hve : v = e.1
      · refine ⟨du + e.2, ?_, ?_⟩
        · rw [List.mem_append]
          right
          rw [hve]
          exact List.mem_singleton.mpr rfl
        · show (if v = e.1 then ((du + e.2 : ℚ) : WithTop ℚ) else st.dist v)
              = ((du + e.2 : ℚ) : WithTop ℚ)
          rw [if_pos hve]
      · rw [if_neg hve] at hvfin2
        obtain ⟨d, hd1, hd2⟩ := hmid.frontier v hv hvfin2
        refine ⟨d, by rw [List.mem_append]; exact Or.inl hd1, ?_⟩
        show (if v = e.1 then ((du + e.2 : ℚ) : WithTop ℚ) else st.dist v) = (d : WithTop ℚ)
        rw [if_neg hve]
        exact hd2
    · intro e2 he2
      rw [List.mem_append] at he2
      rcases he2 with he2 | he2
      · exact le_trans (hdist e2.1) (hmid.pq_ge e2 he2)
      · rw [List.mem_singleton] at he2
        subst he2
        show (if e.1 = e.1 then ((du + e.2 : ℚ) : WithTop ℚ) else st.dist e.1)
            ≤ ((du + e.2 : ℚ) : WithTop ℚ)
        rw [if_pos rfl]
    · intro e2 he2
      rw [List.mem_append] at he2
      rcases he2 with he2 | he2
      · exact hmid.pq_nodes e2 he2
      · rw [List.mem_singleton] at he2
        subst he2
        exact hlt_nodes
    · intro v c hvc
      have hvc2 : (if v = e.1 then ((du + e.2 : ℚ) : WithTop ℚ) else st.dist v)
          = (c : WithTop ℚ) := hvc
      by_cases hve : v = e.1
      · rw [if_pos hve] at hvc2
        have hceq : c = du + e.2 := by exact_mod_cast hvc2.symm
        rw [hceq, hve]
        exact hpath_v
      · rw [if_neg hve] at hvc2
        exact hmid.dist_pathcost v c hvc2
    · intro v z hpz
      have hpz2 : (if v = e.1 then some u else st.parent v) = some z := hpz
      by_cases hv : v = e.1
      · rw [if_pos hv] at hpz2
        have hz : z = u := by simpa using hpz2.symm
        rw [hz]
        refine ⟨Finset.mem_insert_self u S, e.2, ?_, ?_⟩
        · rw [hv]
          exact hpair
        · show (if v = e.1 then ((du + e.2 : ℚ) : WithTop ℚ) else st.dist v)
              = (if u = e.1 then ((du + e.2 : ℚ) : WithTop ℚ) else st.dist u) + (e.2 : WithTop ℚ)
          rw [if_pos hv, hdist_u, WithTop.coe_add]
      · rw [if_neg hv] at hpz2
        obtain ⟨hzT, w, hw1, hw2⟩ := hmid.parent_relax v z hpz2
        refine ⟨hzT, w, hw1, ?_⟩
        show (if v = e.1 then ((du + e.2 : ℚ) : WithTop ℚ) else st.dist v)
            = (if z = e.1 then ((du + e.2 : ℚ) : WithTop ℚ) else st.dist z) + (w : WithTop ℚ)
        rw [if_neg hv, hfrozen z hzT]
        exact hw2
    · show (if e.1 = e.1 then ((du + e.2 : ℚ) : WithTop ℚ) else st.dist e.1)
          ≤ (du : WithTop ℚ) + (e.2 : WithTop ℚ)
      rw [if_pos rfl, WithTop.coe_add]
    · rw [List.length_append, List.length_singleton]
  · rw [relaxEdge_neg_eq u du st e hguard]
    refine ⟨hmid, hdu, ?_, by omega, fun v => le_refl _, fun z _ => rfl⟩
    have h1 : st.dist e.1 ≤ ((du + e.2 : ℚ) : WithTop ℚ) := le_of_not_lt hguard
    rw [WithTop.coe_add] at h1
    exact h1

lemma relaxFold_mid (hr : 0 < rows) (S : Finset ℕ) (u : ℕ) (du : ℚ) :
    ∀ (l : List (ℕ × ℚ)) (st : DijkstraState),
      (∀ e ∈ l, e ∈ nodeAdj rows cols E u) →
      MidInv rows cols E (insert u S) S st →
      st.dist u = (du : WithTop ℚ) →
      MidInv rows cols E (insert u S) S (l.foldl (relaxEdge u du) st) ∧
        (l.foldl (relaxEdge u du) st).dist u = (du : WithTop ℚ) ∧
        (∀ e ∈ l,
          (l.foldl (relaxEdge u du) st).dist e.1 ≤ (du : WithTop ℚ) + (e.2 : WithTop ℚ)) ∧
        (l.foldl (relaxEdge u du) st).pq.length ≤ st.pq.length + l.length ∧
        (∀ v, (l.foldl (relaxEdge u du) st).dist v ≤ st.dist v) ∧
        ∀ z ∈ insert u S, (l.foldl (relaxEdge u du) st).dist z = st.dist z := by
  intro l
  induction l with
  | nil =>
    intro st _ hmid hdu
    refine ⟨hmid, hdu, ?_, ?_, fun v => le_refl _, fun z _ => rfl⟩
    · intro e he
      exact absurd he (by simp)
    · simp
  | cons e es ih =>
    intro st hl hmid hdu
    obtain ⟨hmid1, hdu1, hbound1, hpq1, hmono1, hfroz1⟩ :=
      relaxEdge_mid hr S u du st e (hl e (by simp)) hmid hdu
    obtain ⟨hmid2, hdu2, hbound2, hpq2, hmono2, hfroz2⟩ :=
      ih (relaxEdge u du st e) (fun e2 he2 => hl e2 (by simp [he2])) hmid1 hdu1
    rw [List.foldl_cons]
    refine ⟨hmid2, hdu2, ?_, ?_, ?_, ?_⟩
    · intro e2 he2
      rcases List.mem_cons.mp he2 with rfl | he2
      · exact le_trans (hmono2 e2.1) hbound1
      · exact hbound2 e2 he2
    · calc (es.foldl (relaxEdge u du) (relaxEdge u du st e)).pq.length
          ≤ (relaxEdge u du st e).pq.length + es.length := hpq2
        _ ≤ st.pq.length + 1 + es.length := by omega
        _ = st.pq.length + (e :: es).length := by simp; omega
    · intro v
      exact le_trans (hmono2 v) (hmono1 v)
    · intro z hz
      rw [hfroz2 z hz, hfroz1 z hz]

lemma relaxFold_id (u : ℕ) (du : ℚ) :
    ∀ (l : List (ℕ × ℚ)) (st : DijkstraState),
      (∀ e ∈ l, ¬ ((du + e.2 : ℚ) : WithTop ℚ) < st.dist e.1) →
      l.foldl (relaxEdge u du) st = st := by
  intro l
  induction l with
  | nil => intro st _; rfl
  | cons e es ih =>
    intro st hl
    rw [List.foldl_cons, relaxEdge_neg_eq u du st e (hl e (by simp))]
    exact ih st (fun e2 he2 => hl e2 (by simp [he2]))

lemma dijkInv_toMid {S : Finset ℕ} {st : DijkstraState} (h : DijkInv rows cols E S st)
    (hfin : st.finished = false) : MidInv rows cols E S S st :=
  ⟨hfin, h.struct, h.settled_opt, h.settled_relax, h.settled_lt, h.frontier hfin,
    h.pq_ge, h.pq_nodes, h.dist_pathcost, h.parent_relax⟩

lemma midInv_toDijkInv {S : Finset ℕ} {st : DijkstraState} (h : MidInv rows cols E S S st) :
    DijkInv rows cols E S st :=
  ⟨h.struct, h.settled_opt, h.settled_relax, h.settled_lt, fun _ => h.frontier,
    h.pq_ge, h.pq_nodes, h.dist_pathcost, h.parent_relax,
    fun hfin => absurd hfin (by rw [h.fin]; simp)⟩

/-- The cut argument: when a fresh minimal entry is popped, its key
lower-bounds every path cost to every node, unless that node is already
settled with a smaller distance. -/
lemma pop_settles (hw : ∀ u2 : ℕ, ∀ vw ∈ nodeAdj rows cols E u2, 0 ≤ vw.2)
    {S : Finset ℕ} {st : DijkstraState} (hinv : DijkInv rows cols E S st)
    (hfin : st.finished = false)
    {u : ℕ} {du : ℚ} {rest : List (ℕ × ℚ)}
    (hpop : popMin st.pq = some ((u, du), rest)) :
    ∀ z (c : ℚ), HasPath (nodeAdj rows cols E) (rows * cols) z c →
      du ≤ c ∨ (z ∈ S ∧ st.dist z ≤ (c : WithTop ℚ)) := by
  intro z c hpath
  induction hpath with
  | refl =>
    by_cases hsrc : rows * cols ∈ S
    · right
      exact ⟨hsrc, le_of_eq hinv.struct.src_dist⟩
    · left
      obtain ⟨d, hd1, hd2⟩ := hinv.frontier hfin (rows * cols) hsrc
        (by rw [hinv.struct.src_dist]; exact WithTop.coe_ne_top)
      have hd0 : d = 0 := by
        rw [hinv.struct.src_dist] at hd2
        exact_mod_cast hd2.symm
      have hmin := popMin_min st.pq _ _ hpop (rows * cols, d) hd1
      rw [hd0] at hmin
      exact hmin
  | @step z2 v2 c2 w2 hp hedge ih =>
    rcases ih with hle | ⟨hzS, hdistz⟩
    · left
      have hw2 : 0 ≤ w2 := hw z2 (v2, w2) hedge
      linarith
    · have hrelax := hinv.settled_relax z2 hzS (v2, w2) hedge
      have hv2 : st.dist v2 ≤ ((c2 + w2 : ℚ) : WithTop ℚ) := by
        calc st.dist v2 ≤ st.dist z2 + (w2 : WithTop ℚ) := hrelax
          _ ≤ (c2 : WithTop ℚ) + (w2 : WithTop ℚ) := add_le_add_right hdistz _
          _ = ((c2 + w2 : ℚ) : WithTop ℚ) := (WithTop.coe_add c2 w2).symm
      by_cases hvS : v2 ∈ S
      · right
        exact ⟨hvS, hv2⟩
      · left
        have hfin2 : st.dist v2 ≠ ⊤ := ne_top_of_le_ne_top WithTop.coe_ne_top hv2
        obtain ⟨d, hd1, hd2⟩ := hinv.frontier hfin v2 hvS hfin2
        have hdle : d ≤ c2 + w2 := by
          rw [hd2] at hv2
          exact_mod_cast hv2
        exact le_trans (popMin_min st.pq _ _ hpop (v2, d) hd1) hdle

lemma dijkstraStep_eq_finished {st : DijkstraState} (hfin : st.finished = true) :
    dijkstraStep rows cols E st = st := by
  rw [dijkstraStep, if_pos hfin]

lemma dijkstraStep_eq_exhaust {st : DijkstraState} (hfin : st.finished = false)
    (hpop : popMin st.pq = none) :
    dijkstraStep rows cols E st = { st with finished := true } := by
  rw [dijkstraStep, if_neg (by rw [hfin]; simp), hpop]

lemma dijkstraStep_eq_stale {st : DijkstraState} {u : ℕ} {du : ℚ} {rest : List (ℕ × ℚ)}
    (hfin : st.finished = false) (hpop : popMin st.pq = some ((u, du), rest))
    (hstale : st.dist u < (du : WithTop ℚ)) :
    dijkstraStep rows cols E st = { st with pq := rest } := by
  rw [dijkstraStep, if_neg (by rw [hfin]; simp), hpop]
  simp only [if_pos hstale]

lemma dijkstraStep_eq_dst {st : DijkstraState} {du : ℚ} {rest : List (ℕ × ℚ)}
    (hfin : st.finished = false)
    (hpop : popMin st.pq = some ((rows * cols + 1, du), rest))
    (hfresh : ¬ st.dist (rows * cols + 1) < (du : WithTop ℚ)) :
    dijkstraStep rows cols E st = { st with pq := rest, finished := true } := by
  rw [dijkstraStep, if_neg (by rw [hfin]; simp), hpop]
  simp only [if_neg hfresh, if_true]

lemma dijkstraStep_eq_relax {st : DijkstraState} {u : ℕ} {du : ℚ} {rest : List (ℕ × ℚ)}
    (hfin : st.finished = false) (hpop : popMin st.pq = some ((u, du), rest))
    (hfresh : ¬ st.dist u < (du : WithTop ℚ)) (hne : u ≠ rows * cols + 1) :
    dijkstraStep rows cols E st
      = (nodeAdj rows cols E u).foldl (relaxEdge u du) { st with pq := rest } := by
  rw [dijkstraStep, if_neg (by rw [hfin]; simp), hpop]
  simp only [if_neg hfresh, if_neg hne]

lemma exhaust_opt {S : Finset ℕ} {st : DijkstraState} (hinv : DijkInv rows cols E S st)
    (hfin : st.finished = false) (hpq : st.pq = []) :
    ∀ z (c : ℚ), HasPath (nodeAdj rows cols E) (rows * cols) z c →
      st.dist z ≤ (c : WithTop ℚ) := by
  intro z c hpath
  induction hpath with
  | refl => exact le_of_eq hinv.struct.src_dist
  | @step z2 v2 c2 w2 hp hedge ih =>
    have hzS : z2 ∈ S := by
      by_contra hzS
      obtain ⟨d, hd1, _⟩ := hinv.frontier hfin z2 hzS
        (ne_top_of_le_ne_top WithTop.coe_ne_top ih)
      rw [hpq] at hd1
      exact absurd hd1 (by simp)
    calc st.dist v2 ≤ st.dist z2 + (w2 : WithTop ℚ) := hinv.settled_relax z2 hzS (v2, w2) hedge
      _ ≤ (c2 : WithTop ℚ) + (w2 : WithTop ℚ) := add_le_add_right ih _
      _ = ((c2 + w2 : ℚ) : WithTop ℚ) := (WithTop.coe_add c2 w2).symm

lemma dijkStruct_update {st : DijkstraState} (h : DijkStruct rows cols E st)
    (pq2 : List (ℕ × ℚ)) (b : Bool) :
    DijkStruct rows cols E { st with pq := pq2, finished := b } :=
  ⟨h.src_dist, h.parent_edge, h.parent_finite, h.parent_none⟩

lemma dijkstraStep_inv (hr : 0 < rows)
    (hw : ∀ u2 : ℕ, ∀ vw ∈ nodeAdj rows cols E u2, 0 ≤ vw.2)
    {S : Finset ℕ} {st : DijkstraState} (hinv : DijkInv rows cols E S st) :
    ∃ S2 : Finset ℕ, S ⊆ S2 ∧ DijkInv rows cols E S2 (dijkstraStep rows cols E st) ∧
      ((dijkstraStep rows cols E st).finished = false →
        dijkMeasure rows cols E S2 (dijkstraStep rows cols E st)
          < dijkMeasure rows cols E S st) := by
  by_cases hfin : st.finished = true
  · refine ⟨S, Finset.Subset.refl S, ?_, ?_⟩
    · rw [dijkstraStep_eq_finished hfin]
      exact hinv
    · intro h
      rw [dijkstraStep_eq_finished hfin, hfin] at h
      cases h
  · have hfin2 : st.finished = false := by
      cases h : st.finished
      · rfl
      · exact absurd h hfin
    cases hpop : popMin st.pq with
    | none =>
      have hpq : st.pq = [] := (popMin_eq_none_iff st.pq).mp hpop
      rw [dijkstraStep_eq_exhaust hfin2 hpop]
      refine ⟨S, Finset.Subset.refl S, ?_, ?_⟩
      · exact ⟨dijkStruct_update hinv.struct st.pq true, hinv.settled_opt,
          hinv.settled_relax, hinv.settled_lt,
          fun h => absurd h (by simp), hinv.pq_ge, hinv.pq_nodes, hinv.dist_pathcost,
          hinv.parent_relax, fun _ => exhaust_opt hinv hfin2 hpq (rows * cols + 1)⟩
      · intro h
        cases h
    | some p =>
      obtain ⟨⟨u, du⟩, rest⟩ := p
      have hperm := popMin_perm st.pq (u, du) rest hpop
      have hmemu : (u, du) ∈ st.pq := hperm.mem_iff.mpr (by simp)
      have hlen : st.pq.length = rest.length + 1 := by
        have := hperm.length_eq
        simpa using this
      have hrestmem : ∀ e ∈ rest, e ∈ st.pq := by
        intro e he
        exact hperm.mem_iff.mpr (by simp [he])
      by_cases hstale : st.dist u < (du : WithTop ℚ)
      · rw [dijkstraStep_eq_stale hfin2 hpop hstale]
        refine ⟨S, Finset.Subset.refl S, ?_, ?_⟩
        · refine ⟨dijkStruct_update hinv.struct rest st.finished, hinv.settled_opt,
            hinv.settled_relax, hinv.settled_lt,
            ?_, fun e he => hinv.pq_ge e (hrestmem e he),
            fun e he => hinv.pq_nodes e (hrestmem e he), hinv.dist_pathcost,
            hinv.parent_relax, ?_⟩
          · intro _ v hvS hvfin
            obtain ⟨d, hd1, hd2⟩ := hinv.frontier hfin2 v hvS hvfin
            have hdne : (v, d) ≠ (u, du) := by
              intro hcon
              obtain ⟨rfl, rfl⟩ := Prod.mk.injEq .. ▸ hcon
              rw [hd2] at hstale
              exact lt_irrefl _ hstale
            rcases List.mem_cons.mp (hperm.mem_iff.mp hd1) with hcon | hd3
            · exact absurd hcon hdne
            · exact ⟨d, hd3, hd2⟩
          · intro h
            rw [hfin2] at h
            cases h
        · intro _
          unfold dijkMeasure
          simp only
          omega
      · have hdu_eq : st.dist u = (du : WithTop ℚ) :=
          le_antisymm (hinv.pq_ge (u, du) hmemu) (not_lt.mp hstale)
        have hcut := pop_settles hw hinv hfin2 hpop
        by_cases hdst : u = rows * cols + 1
        · subst hdst
          rw [dijkstraStep_eq_dst hfin2 hpop hstale]
          refine ⟨S, Finset.Subset.refl S, ?_, ?_⟩
          · refine ⟨dijkStruct_update hinv.struct rest true, hinv.settled_opt,
              hinv.settled_relax, hinv.settled_lt,
              fun h => absurd h (by simp), fun e he => hinv.pq_ge e (hrestmem e he),
              fun e he => hinv.pq_nodes e (hrestmem e he), hinv.dist_pathcost,
              hinv.parent_relax, ?_⟩
            intro _ c hpath
            rcases hcut (rows * cols + 1) c hpath with hle | ⟨_, hdist⟩
            · rw [hdu_eq]
              exact_mod_cast hle
            · exact hdist
          · intro h
            cases h
        · by_cases hUS : u ∈ S
          · have hid : (nodeAdj rows cols E u).foldl (relaxEdge u du)
                { st with pq := rest } = { st with pq := rest } := by
              refine relaxFold_id u du (nodeAdj rows cols E u) _ ?_
              intro e he hlt
              have hrel := hinv.settled_relax u hUS e he
              rw [hdu_eq] at hrel
              rw [← WithTop.coe_add] at hrel
              exact absurd hlt (not_lt.mpr hrel)
            rw [dijkstraStep_eq_relax hfin2 hpop hstale hdst, hid]
            refine ⟨S, Finset.Subset.refl S, ?_, ?_⟩
            · refine ⟨dijkStruct_update hinv.struct rest st.finished, hinv.settled_opt,
                hinv.settled_relax, hinv.settled_lt,
                ?_, fun e he => hinv.pq_ge e (hrestmem e he),
                fun e he => hinv.pq_nodes e (hrestmem e he), hinv.dist_pathcost,
                hinv.parent_relax, ?_⟩
              · intro _ v hvS hvfin
                obtain ⟨d, hd1, hd2⟩ := hinv.frontier hfin2 v hvS hvfin
                have hdne : (v, d) ≠ (u, du) := by
                  intro hcon
                  obtain ⟨rfl, rfl⟩ := Prod.mk.injEq .. ▸ hcon
                  exact hvS hUS
                rcases List.mem_cons.mp (hperm.mem_iff.mp hd1) with hcon | hd3
                · exact absurd hcon hdne
                · exact ⟨d, hd3, hd2⟩
              · intro h
                rw [hfin2] at h
                cases h
            · intro _
              unfold dijkMeasure
              simp only
              omega
          · have hult : u < rows * cols + 2 := hinv.pq_nodes (u, du) hmemu
            have hmid1 : MidInv rows cols E (insert u S) S { st with pq := rest } := by
              refine ⟨hfin2, dijkStruct_update hinv.struct rest st.finished, ?_,
                hinv.settled_relax, ?_, ?_,
                fun e he => hinv.pq_ge e (hrestmem e he),
                fun e he => hinv.pq_nodes e (hrestmem e he), hinv.dist_pathcost, ?_⟩
              · intro z hz c hpath
                rcases Finset.mem_insert.mp hz with rfl | hz2
                · rcases hcut z c hpath with hle | ⟨hzS, hdist⟩
                  · rw [hdu_eq]
                    exact_mod_cast hle
                  · exact hdist
                · exact hinv.settled_opt z hz2 c hpath
              · intro z hz
                rcases Finset.mem_insert.mp hz with rfl | hz2
                · exact hult
                · exact hinv.settled_lt z hz2
              · intro v hvT hvfin
                have hvS : v ∉ S := fun h => hvT (Finset.mem_insert_of_mem h)
                have hvu : v ≠ u := fun h => hvT (h ▸ Finset.mem_insert_self u S)
                obtain ⟨d, hd1, hd2⟩ := hinv.frontier hfin2 v hvS hvfin
                have hdne : (v, d) ≠ (u, du) := by
                  intro hcon
                  exact hvu (congrArg Prod.fst hcon)
                rcases List.mem_cons.mp (hperm.mem_iff.mp hd1) with hcon | hd3
                · exact absurd hcon hdne
                · exact ⟨d, hd3, hd2⟩
              · intro v z hpz
                obtain ⟨hzS, w, hw1, hw2⟩ := hinv.parent_relax v z hpz
                exact ⟨Finset.mem_insert_of_mem hzS, w, hw1, hw2⟩
            obtain ⟨hmid2, hdu2, hbound2, hpq2, _, _⟩ :=
              relaxFold_mid hr S u du (nodeAdj rows cols E u) { st with pq := rest }
                (fun e he => he) hmid1 hdu_eq
            rw [dijkstraStep_eq_relax hfin2 hpop hstale hdst]
            refine ⟨insert u S, Finset.subset_insert u S, ?_, ?_⟩
            · refine midInv_toDijkInv ⟨hmid2.fin, hmid2.struct, hmid2.settled_opt, ?_,
                hmid2.settled_lt, hmid2.frontier, hmid2.pq_ge, hmid2.pq_nodes,
                hmid2.dist_pathcost, hmid2.parent_relax⟩
              intro z hz vw hvw
              rcases Finset.mem_insert.mp hz with rfl | hz2
              · rw [hdu2]
                exact hbound2 vw hvw
              · exact hmid2.settled_relax z hz2 vw hvw
            · intro _
              have husplit : Finset.range (rows * cols + 2) \ insert u S
                  = (Finset.range (rows * cols + 2) \ S).erase u := by
                ext x
                simp only [Finset.mem_sdiff, Finset.mem_erase, Finset.mem_insert,
                  Finset.mem_range]
                tauto
              have humem : u ∈ Finset.range (rows * cols + 2) \ S := by
                simp only [Finset.mem_sdiff, Finset.mem_range]
                exact ⟨hult, hUS⟩
              have hsum : ∑ x ∈ (Finset.range (rows * cols + 2) \ S).erase u,
                    (nodeAdj rows cols E x).length + (nodeAdj rows cols E u).length
                  = ∑ x ∈ Finset.range (rows * cols + 2) \ S,
                    (nodeAdj rows cols E x).length :=
                Finset.sum_erase_add _ _ humem
              unfold dijkMeasure
              rw [husplit]
              simp only at hpq2 ⊢
              omega

end RelaxLemmas

section DijkstraRun

variable {rows cols : ℕ} {E : Grid}

lemma dijkstraRun_succ (fuel : ℕ) (st : DijkstraState) :
    dijkstraRun rows cols E (fuel + 1) st
      = dijkstraRun rows cols E fuel (dijkstraStep rows cols E st) := rfl

lemma dijkstraRun_finished :
    ∀ (fuel : ℕ) (st : DijkstraState), st.finished = true →
      dijkstraRun rows cols E fuel st = st := by
  intro fuel
  induction fuel with
  | zero => intro st _; rfl
  | succ n ih =>
    intro st h
    rw [dijkstraRun_succ, dijkstraStep_eq_finished h]
    exact ih st h

lemma dijkstraRun_inv (hr : 0 < rows)
    (hw : ∀ u2 : ℕ, ∀ vw ∈ nodeAdj rows cols E u2, 0 ≤ vw.2) :
    ∀ (fuel : ℕ) (S : Finset ℕ) (st : DijkstraState), DijkInv rows cols E S st →
      ∃ S2 : Finset ℕ, S ⊆ S2 ∧ DijkInv rows cols E S2 (dijkstraRun rows cols E fuel st) ∧
        (dijkMeasure rows cols E S st < fuel →
          (dijkstraRun rows cols E fuel st).finished = true) := by
  intro fuel
  induction fuel with
  | zero =>
    intro S st hinv
    exact ⟨S, Finset.Subset.refl S, hinv, fun h => absurd h (by omega)⟩
  | succ n ih =>
    intro S st hinv
    obtain ⟨S1, hsub1, hinv1, hdec⟩ := dijkstraStep_inv hr hw hinv
    obtain ⟨S2, hsub2, hinv2, hfuel⟩ := ih S1 (dijkstraStep rows cols E st) hinv1
    refine ⟨S2, hsub1.trans hsub2, ?_, ?_⟩
    · rw [dijkstraRun_succ]
      exact hinv2
    · intro hmeas
      rw [dijkstraRun_succ]
      by_cases hf : (dijkstraStep rows cols E st).finished = true
      · rw [dijkstraRun_finished n _ hf]
        exact hf
      · have hf2 : (dijkstraStep rows cols E st).finished = false := by
          cases hx : (dijkstraStep rows cols E st).finished
          · rfl
          · exact absurd hx hf
        exact hfuel (by have := hdec hf2; omega)

lemma dijkstraInit_inv (hr : 0 < rows) (hc : 0 < cols) :
    DijkInv rows cols E ∅ (dijkstraInit rows cols) := by
  refine ⟨⟨?_, ?_, ?_, ?_⟩, ?_, ?_, ?_, ?_, ?_, ?_, ?_, ?_, ?_⟩
  · simp [dijkstraInit]
  · intro v u h
    simp [dijkstraInit] at h
  · intro v u h
    simp [dijkstraInit] at h
  · intro v hv hfin
    exfalso
    apply hfin
    simp only [dijkstraInit]
    rw [if_neg hv]
  · intro u hu
    exact absurd hu (by simp)
  · intro u hu
    exact absurd hu (by simp)
  · intro u hu
    exact absurd hu (by simp)
  · intro _ v hvS hvfin
    by_cases hv : v = rows * cols
    · subst hv
      refine ⟨0, by simp [dijkstraInit], by simp [dijkstraInit]⟩
    · exfalso
      apply hvfin
      simp only [dijkstraInit]
      rw [if_neg hv]
  · intro e he
    simp only [dijkstraInit, List.mem_singleton] at he
    subst he
    simp [dijkstraInit]
  · intro e he
    simp only [dijkstraInit, List.mem_singleton] at he
    subst he
    simp
  · intro v c hdist
    by_cases hv : v = rows * cols
    · subst hv
      simp only [dijkstraInit, if_pos rfl] at hdist
      have hc0 : (0 : ℚ) = c := WithTop.coe_eq_coe.mp hdist
      rw [← hc0]
      exact HasPath.refl
    · exfalso
      simp only [dijkstraInit] at hdist
      rw [if_neg hv] at hdist
      exact WithTop.coe_ne_top hdist.symm
  · intro v u h
    simp [dijkstraInit] at h
  · intro h
    simp [dijkstraInit] at h

lemma nodeAdj_length_src : (nodeAdj rows cols E (rows * cols)).length = cols := by
  rw [nodeAdj, if_pos rfl]
  simp

lemma nodeAdj_length_pix {u : ℕ} (hu : u < rows * cols) :
    (nodeAdj rows cols E u).length ≤ 3 := by
  simp only [nodeAdj]
  rw [if_neg (show ¬ u = rows * cols by omega), if_pos hu]
  split_ifs
  · simp
  · exact le_trans (List.length_filterMap_le _ _) (by simp)

lemma nodeAdj_length_dst :
    (nodeAdj rows cols E (rows * cols + 1)).length = 0 := by
  rw [nodeAdj, if_neg (by omega), if_neg (by omega)]
  rfl

lemma dijkstraInit_measure (hr : 0 < rows) (hc : 0 < cols) :
    dijkMeasure rows cols E ∅ (dijkstraInit rows cols) < dijkstraFuel rows cols := by
  unfold dijkMeasure dijkstraFuel
  have hpq : (dijkstraInit rows cols).pq.length = 1 := by simp [dijkstraInit]
  rw [hpq]
  have hsd : Finset.range (rows * cols + 2) \ (∅ : Finset ℕ)
      = Finset.range (rows * cols + 2) := by simp
  rw [hsd, Finset.sum_range_succ, Finset.sum_range_succ]
  have h1 : ∑ u ∈ Finset.range (rows * cols), (nodeAdj rows cols E u).length
      ≤ ∑ _u ∈ Finset.range (rows * cols), 3 :=
    Finset.sum_le_sum fun i hi => nodeAdj_length_pix (Finset.mem_range.mp hi)
  rw [Finset.sum_const, Finset.card_range, smul_eq_mul] at h1
  rw [nodeAdj_length_src, nodeAdj_length_dst]
  have hfuel : 3 * rows * cols = rows * cols * 3 := by ring
  rw [hfuel]
  omega

lemma dijkstraFinal_inv (hr : 0 < rows) (hc : 0 < cols)
    (hw : ∀ u2 : ℕ, ∀ vw ∈ nodeAdj rows cols E u2, 0 ≤ vw.2) :
    ∃ S : Finset ℕ,
      DijkInv rows cols E S
        (dijkstraRun rows cols E (dijkstraFuel rows cols) (dijkstraInit rows cols)) ∧
      (dijkstraRun rows cols E (dijkstraFuel rows cols)
        (dijkstraInit rows cols)).finished = true := by
  obtain ⟨S2, _, hinv, hfin⟩ :=
    dijkstraRun_inv hr hw (dijkstraFuel rows cols) ∅ (dijkstraInit rows cols)
      (dijkstraInit_inv hr hc)
  exact ⟨S2, hinv, hfin (dijkstraInit_measure hr hc)⟩

lemma relaxEdge_structInv (hr : 0 < rows) {u : ℕ} {du : ℚ} {st : DijkstraState}
    {e : ℕ × ℚ} (he : e ∈ nodeAdj rows cols E u)
    (h : StructInv rows cols E st) (hu : st.dist u ≠ ⊤) :
    StructInv rows cols E (relaxEdge u du st e) ∧
      (relaxEdge u du st e).dist u = st.dist u := by
  have he2 : (e.1, e.2) ∈ nodeAdj rows cols E u := he
  have hne_self : e.1 ≠ u := nodeAdj_target_ne_self hr he2
  have hne_src : e.1 ≠ rows * cols := nodeAdj_target_ne_src hr he2
  by_cases hguard : ((du + e.2 : ℚ) : WithTop ℚ) < st.dist e.1
  · rw [relaxEdge_pos_eq u du st e hguard]
    have hdist : ∀ x, (if x = e.1 then ((du + e.2 : ℚ) : WithTop ℚ) else st.dist x) ≠ ⊤ →
        x = e.1 ∨ st.dist x ≠ ⊤ := by
      intro x hx
      by_cases hxe : x = e.1
      · exact Or.inl hxe
      · rw [if_neg hxe] at hx
        exact Or.inr hx
    have hkeep : ∀ x, st.dist x ≠ ⊤ →
        (if x = e.1 then ((du + e.2 : ℚ) : WithTop ℚ) else st.dist x) ≠ ⊤ := by
      intro x hx
      by_cases hxe : x = e.1
      · rw [if_pos hxe]
        exact WithTop.coe_ne_top
      · rw [if_neg hxe]
        exact hx
    have hmono : ∀ x, (if x = e.1 then ((du + e.2 : ℚ) : WithTop ℚ) else st.dist x)
        ≤ st.dist x := by
      intro x
      by_cases hxe : x = e.1
      · rw [if_pos hxe, hxe]
        exact le_of_lt hguard
      · rw [if_neg hxe]
    refine ⟨⟨⟨?_, ?_, ?_, ?_⟩, ?_⟩, ?_⟩
    · show (if rows * cols = e.1 then _ else st.dist (rows * cols)) = _
      rw [if_neg (Ne.symm hne_src)]
      exact h.struct.src_dist
    · intro v u2 hp
      have hp2 : (if v = e.1 then some u else st.parent v) = some u2 := hp
      by_cases hv : v = e.1
      · rw [if_pos hv] at hp2
        obtain rfl := Option.some_inj.mp hp2
        exact ⟨e.2, hv ▸ he2⟩
      · rw [if_neg hv] at hp2
        exact h.struct.parent_edge v u2 hp2
    · intro v u2 hp
      have hp2 : (if v = e.1 then some u else st.parent v) = some u2 := hp
      by_cases hv : v = e.1
      · rw [if_pos hv] at hp2
        obtain rfl := Option.some_inj.mp hp2
        constructor
        · show (if v = e.1 then _ else st.dist v) ≠ ⊤
          rw [if_pos hv]
          exact WithTop.coe_ne_top
        · show (if u = e.1 then _ else st.dist u) ≠ ⊤
          rw [if_neg (Ne.symm hne_self)]
          exact hu
      · rw [if_neg hv] at hp2
        obtain ⟨h1, h2⟩ := h.struct.parent_finite v u2 hp2
        exact ⟨hkeep v h1, hkeep u2 h2⟩
    · intro v hv hvfin
      by_cases hve : v = e.1
      · show (if v = e.1 then some u else st.parent v) ≠ none
        rw [if_pos hve]
        simp
      · have hvfin2 : st.dist v ≠ ⊤ := by
          rcases hdist v hvfin with hcon | hx
          · exact absurd hcon hve
          · exact hx
        show (if v = e.1 then some u else st.parent v) ≠ none
        rw [if_neg hve]
        exact h.struct.parent_none v hv hvfin2
    · intro e2 he2m
      rcases List.mem_append.mp he2m with hold | hnew
      · exact le_trans (hmono e2.1) (h.pq_ge e2 hold)
      · simp only [List.mem_singleton] at hnew
        subst hnew
        show (if e.1 = e.1 then _ else st.dist e.1) ≤ _
        rw [if_pos rfl]
    · show (if u = e.1 then _ else st.dist u) = st.dist u
      rw [if_neg (Ne.symm hne_self)]
  · rw [relaxEdge_neg_eq u du st e hguard]
    exact ⟨h, rfl⟩

lemma relaxFold_structInv (hr : 0 < rows) {u : ℕ} {du : ℚ} :
    ∀ (l : List (ℕ × ℚ)) (st : DijkstraState),
      (∀ e ∈ l, e ∈ nodeAdj rows cols E u) →
      StructInv rows cols E st → st.dist u ≠ ⊤ →
      StructInv rows cols E (l.foldl (relaxEdge u du) st) := by
  intro l
  induction l with
  | nil => intro st _ h _; exact h
  | cons e es ih =>
    intro st hl h hu
    obtain ⟨h1, hd1⟩ := relaxEdge_structInv hr (hl e (by simp)) h hu
    rw [List.foldl_cons]
    exact ih (relaxEdge u du st e) (fun e2 he2 => hl e2 (by simp [he2])) h1
      (by rw [hd1]; exact hu)

lemma dijkstraStep_structInv (hr : 0 < rows) {st : DijkstraState}
    (h : StructInv rows cols E st) :
    StructInv rows cols E (dijkstraStep rows cols E st) := by
  by_cases hfin : st.finished = true
  · rw [dijkstraStep_eq_finished hfin]
    exact h
  · have hfin2 : st.finished = false := by
      cases hx : st.finished
      · rfl
      · exact absurd hx hfin
    cases hpop : popMin st.pq with
    | none =>
      rw [dijkstraStep_eq_exhaust hfin2 hpop]
      exact ⟨⟨h.struct.src_dist, h.struct.parent_edge, h.struct.parent_finite,
        h.struct.parent_none⟩, h.pq_ge⟩
    | some p =>
      obtain ⟨⟨u, du⟩, rest⟩ := p
      have hperm := popMin_perm st.pq (u, du) rest hpop
      have hrestmem : ∀ e ∈ rest, e ∈ st.pq := fun e he => hperm.mem_iff.mpr (by simp [he])
      by_cases hstale : st.dist u < (du : WithTop ℚ)
      · rw [dijkstraStep_eq_stale hfin2 hpop hstale]
        exact ⟨⟨h.struct.src_dist, h.struct.parent_edge, h.struct.parent_finite,
          h.struct.parent_none⟩, fun e he => h.pq_ge e (hrestmem e he)⟩
      · have hmemu : (u, du) ∈ st.pq := hperm.mem_iff.mpr (by simp)
        have hufin : st.dist u ≠ ⊤ :=
          ne_top_of_le_ne_top WithTop.coe_ne_top (h.pq_ge (u, du) hmemu)
        by_cases hdst : u = rows * cols + 1
        · subst hdst
          rw [dijkstraStep_eq_dst hfin2 hpop hstale]
          exact ⟨⟨h.struct.src_dist, h.struct.parent_edge, h.struct.parent_finite,
            h.struct.parent_none⟩, fun e he => h.pq_ge e (hrestmem e he)⟩
        · rw [dijkstraStep_eq_relax hfin2 hpop hstale hdst]
          exact relaxFold_structInv hr (nodeAdj rows cols E u) _ (fun e he => he)
            ⟨⟨h.struct.src_dist, h.struct.parent_edge, h.struct.parent_finite,
              h.struct.parent_none⟩, fun e he => h.pq_ge e (hrestmem e he)⟩ hufin

lemma dijkstraRun_structInv (hr : 0 < rows) :
    ∀ (fuel : ℕ) (st : DijkstraState), StructInv rows cols E st →
      StructInv rows cols E (dijkstraRun rows cols E fuel st) := by
  intro fuel
  induction fuel with
  | zero => intro st h; exact h
  | succ n ih =>
    intro st h
    rw [dijkstraRun_succ]
    exact ih _ (dijkstraStep_structInv hr h)

lemma dijkstraInit_structInv : StructInv rows cols E (dijkstraInit rows cols) := by
  refine ⟨⟨?_, ?_, ?_, ?_⟩, ?_⟩
  · simp [dijkstraInit]
  · intro v u h
    simp [dijkstraInit] at h
  · intro v u h
    simp [dijkstraInit] at h
  · intro v hv hfin
    exfalso
    apply hfin
    simp only [dijkstraInit]
    rw [if_neg hv]
  · intro e he
    simp only [dijkstraInit, List.mem_singleton] at he
    subst he
    simp [dijkstraInit]

end DijkstraRun

section ChaseLemmas

variable {rows cols : ℕ} {E : Grid}

lemma chaseParents_src_nil (parent : ℕ → Option ℕ) (src : ℕ) :
    ∀ fuel, chaseParents parent src fuel (some src) = [] := by
  intro fuel
  cases fuel with
  | zero => rfl
  | succ n => simp [chaseParents]

lemma chaseParents_cons (parent : ℕ → Option ℕ) (src : ℕ) (fuel : ℕ) {cur : ℕ}
    (h : cur ≠ src) :
    chaseParents parent src (fuel + 1) (some cur)
      = cur :: chaseParents parent src fuel (parent cur) := by
  simp [chaseParents, h]

lemma chaseParents_head_eq (parent : ℕ → Option ℕ) (src : ℕ) (fuel : ℕ) (u x : ℕ)
    (h : (chaseParents parent src fuel (some u)).head? = some x) : x = u := by
  cases fuel with
  | zero => simp [chaseParents] at h
  | succ n =>
    by_cases hs : u = src
    · rw [hs, chaseParents_src_nil] at h
      simp at h
    · rw [chaseParents_cons parent src n hs] at h
      simp only [List.head?_cons, Option.some_inj] at h
      exact h.symm

lemma nodeAdj_from_src {v : ℕ} {w : ℚ} (hr : 0 < rows)
    (h : (v, w) ∈ nodeAdj rows cols E (rows * cols)) : v < cols ∧ w = ent E 0 v := by
  rcases nodeAdj_mem_cases h with ⟨_, hvc, hwe⟩ | ⟨r2, c, c2, habs, hcc, hr2, _, _, _, _⟩ |
      ⟨c, habs, hcc, _, _, _⟩
  · exact ⟨hvc, hwe⟩
  · exfalso
    have := pix_lt (show r2 < rows by omega) hcc
    omega
  · exfalso
    have := pix_lt (show rows - 1 < rows by omega) hcc
    omega

lemma nodeAdj_into_pix {u v : ℕ} {w : ℚ} (hc : 0 < cols) (hv : v < rows * cols)
    (hrow : 0 < v / cols) (h : (v, w) ∈ nodeAdj rows cols E u) :
    u < rows * cols ∧ u / cols + 1 = v / cols ∧ AdjStep (v % cols) (u % cols) ∧
      w = ent E (v / cols) (v % cols) := by
  rcases nodeAdj_mem_cases h with ⟨_, hvc, _⟩ |
      ⟨r2, c, c2, hu, hcc, hr2, hc2, hadj, hveq, hwe⟩ | ⟨c, _, _, _, hveq, _⟩
  · exfalso
    have : v / cols = 0 := Nat.div_eq_of_lt hvc
    omega
  · subst hveq
    subst hu
    have hvd : (r2 + 1) * cols + c2 < rows * cols := pix_lt hr2 hc2
    rw [pix_div (r2 + 1) hc2, pix_mod (r2 + 1) hc2, pix_div r2 hcc, pix_mod r2 hcc]
    refine ⟨pix_lt (by omega) hcc, by omega, ?_, hwe⟩
    unfold AdjStep
    omega
  · exfalso
    omega

lemma nodeAdj_into_dst {u : ℕ} {w : ℚ} (hr : 0 < rows)
    (h : (rows * cols + 1, w) ∈ nodeAdj rows cols E u) :
    u < rows * cols ∧ u / cols = rows - 1 ∧ w = 0 := by
  rcases nodeAdj_mem_cases h with ⟨_, hvc, _⟩ | ⟨r2, c, c2, _, _, hr2, hc2, _, hveq, _⟩ |
      ⟨c, hu, hcc, _, _, hw0⟩
  · exfalso
    have : cols ≤ rows * cols := Nat.le_mul_of_pos_left cols hr
    omega
  · exfalso
    have := pix_lt (show r2 + 1 < rows from hr2) hc2
    omega
  · subst hu
    exact ⟨pix_lt (by omega) hcc, pix_div (rows - 1) hcc, hw0⟩

/-- Walking the parent array from any finite-distance pixel stays inside the
pixel nodes and yields a column-adjacent chain, with no assumption on the sign
of the edge weights. -/
lemma chase_shape (hr : 0 < rows) (hc : 0 < cols) {st : DijkstraState}
    (hst : DijkStruct rows cols E st) :
    ∀ (fuel : ℕ) (v : ℕ), v < rows * cols → st.dist v ≠ ⊤ →
      (∀ x ∈ chaseParents st.parent (rows * cols) fuel (some v), x < rows * cols) ∧
      List.Chain' (fun a b => AdjStep (a % cols) (b % cols))
        (chaseParents st.parent (rows * cols) fuel (some v)) := by
  intro fuel
  induction fuel with
  | zero =>
    intro v _ _
    exact ⟨by simp [chaseParents], by simp [chaseParents]⟩
  | succ f ih =>
    intro v hv hfin
    have hvs : v ≠ rows * cols := by omega
    have hpn := hst.parent_none v hvs hfin
    cases hp : st.parent v with
    | none => exact absurd hp hpn
    | some u =>
      rw [chaseParents_cons _ _ f hvs, hp]
      obtain ⟨w, hedge⟩ := hst.parent_edge v u hp
      have hufin : st.dist u ≠ ⊤ := (hst.parent_finite v u hp).2
      by_cases hus : u = rows * cols
      · subst hus
        rw [chaseParents_src_nil]
        refine ⟨?_, List.chain'_singleton v⟩
        intro x hx
        rw [List.mem_singleton] at hx
        subst hx
        exact hv
      · have hult : u < rows * cols := by
          by_contra habs
          rw [nodeAdj, if_neg hus, if_neg habs] at hedge
          exact absurd hedge (by simp)
        have hrel : AdjStep (v % cols) (u % cols) := by
          rcases nodeAdj_mem_cases hedge with ⟨hu2, _, _⟩ |
              ⟨r2, c, c2, hu2, hcc, _, hc2, hadj, hveq, _⟩ | ⟨c, _, _, _, hveq, _⟩
          · exact absurd hu2 hus
          · subst hveq
            subst hu2
            rw [pix_mod (r2 + 1) hc2, pix_mod r2 hcc]
            unfold AdjStep
            omega
          · exfalso
            omega
        obtain ⟨hmem, hchain⟩ := ih u hult hufin
        refine ⟨?_, ?_⟩
        · intro x hx
          rcases List.mem_cons.mp hx with rfl | hx2
          · exact hv
          · exact hmem x hx2
        · refine List.chain'_cons'.mpr ⟨?_, hchain⟩
          intro y hy
          cases hh : (chaseParents st.parent (rows * cols) f (some u)).head? with
          | none =>
            rw [hh] at hy
            simp at hy
          | some z =>
            rw [hh] at hy
            simp only [Option.mem_def, Option.some_inj] at hy
            have hzu : z = u := chaseParents_head_eq st.parent (rows * cols) f u z hh
            rw [← hy, hzu]
            exact hrel

/-- Walking the parent array from a finite-distance pixel at row r yields a
chain of exactly r + 1 pixels, headed by the pixel itself, column-adjacent, and
the pixel's distance equals the energy cost of the corresponding seam
fragment. -/
lemma chase_spec (hr : 0 < rows) (hc : 0 < cols) (hrE : rows ≤ E.length)
    {S : Finset ℕ} {st : DijkstraState} (hinv : DijkInv rows cols E S st) :
    ∀ (r v : ℕ), v < rows * cols → v / cols = r → st.dist v ≠ ⊤ →
      ∀ fuel, r + 2 ≤ fuel →
      (chaseParents st.parent (rows * cols) fuel (some v)).length = r + 1 ∧
      List.Chain' (fun a b => AdjStep (a % cols) (b % cols))
        (chaseParents st.parent (rows * cols) fuel (some v)) ∧
      (chaseParents st.parent (rows * cols) fuel (some v)).head? = some v ∧
      st.dist v
        = ((seamCost E ((chaseParents st.parent (rows * cols) fuel (some v)).reverse.map
            (fun x => x % cols)) : ℚ) : WithTop ℚ) := by
  intro r
  induction r with
  | zero =>
    intro v hv hrow hfin fuel hfuel
    obtain ⟨f, rfl⟩ : ∃ f, fuel = f + 1 := ⟨fuel - 1, by omega⟩
    have hvs : v ≠ rows * cols := by omega
    have hpn := hinv.struct.parent_none v hvs hfin
    cases hp : st.parent v with
    | none => exact absurd hp hpn
    | some u =>
      obtain ⟨hS, w, hedge, hcost⟩ := hinv.parent_relax v u hp
      have husrc : u = rows * cols := by
        rcases nodeAdj_mem_cases hedge with ⟨h1, _, _⟩ |
            ⟨r2, c, c2, _, _, hr2, hc2, _, hveq, _⟩ | ⟨c, _, _, _, hveq, _⟩
        · exact h1
        · exfalso
          have : v / cols = r2 + 1 := by rw [hveq]; exact pix_div (r2 + 1) hc2
          omega
        · omega
      subst husrc
      obtain ⟨hvc, hwe⟩ := nodeAdj_from_src hr hedge
      have hchase : chaseParents st.parent (rows * cols) (f + 1) (some v) = [v] := by
        rw [chaseParents_cons _ _ f hvs, hp, chaseParents_src_nil]
      rw [hchase]
      refine ⟨rfl, List.chain'_singleton v, rfl, ?_⟩
      have hvm : v % cols = v := Nat.mod_eq_of_lt hvc
      have h1 : seamCost E [v % cols] = ent E 0 (v % cols) := by
        rw [seamCost_eq_sum [v % cols] E (by simp; omega)]
        simp only [List.length_singleton]
        rw [show List.range 1 = [0] from rfl]
        simp
      rw [hcost, hinv.struct.src_dist, hwe]
      simp only [List.reverse_cons, List.reverse_nil, List.nil_append, List.map_cons,
        List.map_nil]
      rw [h1, hvm, ← WithTop.coe_add, zero_add]
  | succ r ih =>
    intro v hv hrow hfin fuel hfuel
    obtain ⟨f, rfl⟩ : ∃ f, fuel = f + 1 := ⟨fuel - 1, by omega⟩
    have hvs : v ≠ rows * cols := by omega
    have hpn := hinv.struct.parent_none v hvs hfin
    cases hp : st.parent v with
    | none => exact absurd hp hpn
    | some u =>
      obtain ⟨hS, w, hedge, hcost⟩ := hinv.parent_relax v u hp
      obtain ⟨hult, hurow, hadj, hwe⟩ := nodeAdj_into_pix hc hv (by omega) hedge
      have hufin : st.dist u ≠ ⊤ := (hinv.struct.parent_finite v u hp).2
      obtain ⟨hlen, hchain, hhead, hcost_u⟩ := ih u hult (by omega) hufin f (by omega)
      have hchase : chaseParents st.parent (rows * cols) (f + 1) (some v)
          = v :: chaseParents st.parent (rows * cols) f (some u) := by
        rw [chaseParents_cons _ _ f hvs, hp]
      rw [hchase]
      refine ⟨by simp [hlen], ?_, rfl, ?_⟩
      · refine List.chain'_cons'.mpr ⟨?_, hchain⟩
        intro y hy
        rw [hhead] at hy
        simp only [Option.mem_def, Option.some_inj] at hy
        rw [← hy]
        exact hadj
      · have hsu_len : (List.map (fun x => x % cols)
            (chaseParents st.parent (rows * cols) f (some u)).reverse).length = r + 1 := by
          simp [hlen]
        have hr1 : r + 1 < rows := by
          have h2 : v / cols < rows := (Nat.div_lt_iff_lt_mul hc).mpr hv
          omega
        have hsnoc := seamCost_snoc E
          ((chaseParents st.parent (rows * cols) f (some u)).reverse.map
            (fun x => x % cols)) (v % cols) (by rw [hsu_len]; omega)
        rw [List.reverse_cons, List.map_append, List.map_singleton, hsnoc, hsu_len,
          hcost, hcost_u, hwe, hrow, ← WithTop.coe_add]

/-- Every valid connected seam yields an actual source-to-pixel path in the
layered graph, row by row. -/
lemma seam_path_upto {s : List ℕ} (hc : 0 < cols)
    (hlen : s.length = rows) (hrange : SeamInRange cols s) (hconn : SeamConnected s) :
    ∀ r, r < rows →
      HasPath (nodeAdj rows cols E) (rows * cols) (r * cols + s.getD r 0)
        (((List.range (r + 1)).map fun i => ent E i (s.getD i 0)).sum) := by
  have hmem : ∀ r, r < rows → s.getD r 0 < cols := by
    intro r hrr
    apply hrange
    rw [List.getD_eq_getElem _ _ (by omega)]
    exact List.getElem_mem _
  intro r
  induction r with
  | zero =>
    intro h0
    have hpath := HasPath.step (HasPath.refl) (nodeAdj_src_edge rows cols E (hmem 0 h0))
    rw [zero_add] at hpath
    have hn : 0 * cols + s.getD 0 0 = s.getD 0 0 := by omega
    rw [hn, show List.range 1 = [0] from rfl, List.map_singleton, List.sum_singleton]
    exact hpath
  | succ r ih =>
    intro hrr
    have hadj : ((s.getD (r + 1) 0 : ℤ) - (s.getD r 0 : ℤ)).natAbs ≤ 1 :=
      hconn r (by omega)
    have hedge := nodeAdj_mid_edge rows cols E hrr (hmem r (by omega))
      (hmem (r + 1) hrr) hadj
    have hpath := HasPath.step (ih (by omega)) hedge
    rw [List.range_succ, List.map_append, List.sum_append, List.map_singleton,
      List.sum_singleton]
    exact hpath

/-- Every valid connected seam yields a source-to-sink path whose cost is the
seam's total energy. -/
lemma seam_hasPath_dst {s : List ℕ} (hr : 0 < rows) (hc : 0 < cols) (hrE : rows ≤ E.length)
    (hlen : s.length = rows) (hrange : SeamInRange cols s) (hconn : SeamConnected s) :
    HasPath (nodeAdj rows cols E) (rows * cols) (rows * cols + 1) (seamCost E s) := by
  have hlast : s.getD (rows - 1) 0 < cols := by
    apply hrange
    rw [List.getD_eq_getElem _ _ (by omega)]
    exact List.getElem_mem _
  have hedge := nodeAdj_last_edge rows cols E hr hlast
  have hpath := HasPath.step (seam_path_upto hc hlen hrange hconn (rows - 1)
    (by omega)) hedge
  rw [add_zero] at hpath
  have hcost : ((List.range (rows - 1 + 1)).map fun i => ent E i (s.getD i 0)).sum
      = seamCost E s := by
    have hn : rows - 1 + 1 = rows := by omega
    rw [hn, seamCost_eq_sum s E (by omega), hlen]
  rw [← hcost]
  exact hpath

lemma chain_reverse_map_connected {cols : ℕ} {l : List ℕ}
    (h : List.Chain' (fun a b => AdjStep (a % cols) (b % cols)) l) :
    SeamConnected (l.reverse.map (fun x => x % cols)) := by
  rw [seamConnected_iff_chain, List.chain'_map, List.chain'_reverse]
  exact List.Chain'.imp (fun a b hab => adjStep_comm hab) h

lemma gridRows_pos {E : Grid} (hE : E ≠ []) : 0 < gridRows E := by
  cases E with
  | nil => exact absurd rfl hE
  | cons a l => simp [gridRows]

/-- The graph-cut seam always satisfies the length, range and connectivity
invariants, for any energy values: either a fallback returns the DP seam, or
the reconstructed path has checked length, in-range columns, and its
column-adjacency follows from the structural loop invariant. -/
lemma findVerticalSeamGraphCut_valid {E : Grid} (hE : E ≠ []) (hc : 0 < gridCols E) :
    (findVerticalSeamGraphCut E).length = E.length ∧
    SeamInRange (gridCols E) (findVerticalSeamGraphCut E) ∧
    SeamConnected (findVerticalSeamGraphCut E) := by
  have hr : 0 < gridRows E := gridRows_pos hE
  have hstr : StructInv (gridRows E) (gridCols E) E
      (dijkstraRun (gridRows E) (gridCols E) E (dijkstraFuel (gridRows E) (gridCols E))
        (dijkstraInit (gridRows E) (gridCols E))) :=
    dijkstraRun_structInv hr _ _ dijkstraInit_structInv
  simp only [findVerticalSeamGraphCut]
  cases hpar : (dijkstraRun (gridRows E) (gridCols E) E
      (dijkstraFuel (gridRows E) (gridCols E))
      (dijkstraInit (gridRows E) (gridCols E))).parent
        (gridRows E * gridCols E + 1) with
  | none =>
    exact ⟨findVerticalSeamDP_length hE, findVerticalSeamDP_range hE hc,
      findVerticalSeamDP_connected E⟩
  | some c0 =>
    dsimp only
    by_cases hlen : ((chaseParents (dijkstraRun (gridRows E) (gridCols E) E
        (dijkstraFuel (gridRows E) (gridCols E))
        (dijkstraInit (gridRows E) (gridCols E))).parent
        (gridRows E * gridCols E) (gridRows E * gridCols E + 2)
        (some c0)).reverse).length = gridRows E
    · rw [if_pos hlen]
      obtain ⟨w, hedge⟩ := hstr.struct.parent_edge _ c0 hpar
      obtain ⟨hclt, _, _⟩ := nodeAdj_into_dst hr hedge
      have hcfin := (hstr.struct.parent_finite _ c0 hpar).2
      obtain ⟨_, hchain⟩ := chase_shape hr hc hstr.struct
        (gridRows E * gridCols E + 2) c0 hclt hcfin
      refine ⟨?_, ?_, ?_⟩
      · rw [List.length_map, hlen]
        rfl
      · intro x hx
        rw [List.mem_map] at hx
        obtain ⟨y, _, rfl⟩ := hx
        exact Nat.mod_lt y hc
      · exact chain_reverse_map_connected hchain
    · rw [if_neg hlen]
      exact ⟨findVerticalSeamDP_length hE, findVerticalSeamDP_range hE hc,
        findVerticalSeamDP_connected E⟩

/-- The graph-cut seam's total energy equals the DP seam's, for nonnegative
energy grids: in the non-fallback branch the reconstructed path realises the
sink's final distance, which both lower- and upper-bounds the DP optimum. -/
lemma findVerticalSeamGraphCut_cost {E : Grid} (hE : E ≠ []) (hc : 0 < gridCols E)
    (hnn : ∀ r ∈ E, ∀ x ∈ r, 0 ≤ x) :
    seamCost E (findVerticalSeamGraphCut E) = seamCost E (findVerticalSeamDP E) := by
  have hr : 0 < gridRows E := gridRows_pos hE
  have hw : ∀ u2 : ℕ, ∀ vw ∈ nodeAdj (gridRows E) (gridCols E) E u2, 0 ≤ vw.2 :=
    fun u2 vw h => nodeAdj_weight_nonneg hnn h
  obtain ⟨S, hinv, hfin⟩ := dijkstraFinal_inv hr hc hw
  have hrE : gridRows E ≤ E.length := le_of_eq rfl
  simp only [findVerticalSeamGraphCut]
  cases hpar : (dijkstraRun (gridRows E) (gridCols E) E
      (dijkstraFuel (gridRows E) (gridCols E))
      (dijkstraInit (gridRows E) (gridCols E))).parent
        (gridRows E * gridCols E + 1) with
  | none => rfl
  | some c0 =>
    dsimp only
    obtain ⟨w, hedge⟩ := hinv.struct.parent_edge _ c0 hpar
    obtain ⟨hclt, hcrow, _⟩ := nodeAdj_into_dst hr hedge
    have hcfin := (hinv.struct.parent_finite _ c0 hpar).2
    obtain ⟨hlen, hchain, _, hcost⟩ := chase_spec hr hc hrE hinv (gridRows E - 1) c0
      hclt hcrow hcfin (gridRows E * gridCols E + 2)
      (by
        have : gridRows E ≤ gridRows E * gridCols E := Nat.le_mul_of_pos_right _ hc
        omega)
    have hlen2 : ((chaseParents (dijkstraRun (gridRows E) (gridCols E) E
        (dijkstraFuel (gridRows E) (gridCols E))
        (dijkstraInit (gridRows E) (gridCols E))).parent
        (gridRows E * gridCols E) (gridRows E * gridCols E + 2)
        (some c0)).reverse).length = gridRows E := by
      rw [List.length_reverse, hlen]
      omega
    rw [if_pos hlen2]
    obtain ⟨_, w2, hedge2, hdisteq⟩ := hinv.parent_relax _ c0 hpar
    have hw20 : w2 = 0 := (nodeAdj_into_dst hr hedge2).2.2
    have hdst_val : (dijkstraRun (gridRows E) (gridCols E) E
        (dijkstraFuel (gridRows E) (gridCols E))
        (dijkstraInit (gridRows E) (gridCols E))).dist (gridRows E * gridCols E + 1)
        = ((seamCost E ((chaseParents (dijkstraRun (gridRows E) (gridCols E) E
            (dijkstraFuel (gridRows E) (gridCols E))
            (dijkstraInit (gridRows E) (gridCols E))).parent
            (gridRows E * gridCols E) (gridRows E * gridCols E + 2)
            (some c0)).reverse.map (fun x => x % gridCols E)) : ℚ) : WithTop ℚ) := by
      rw [hdisteq, hw20, hcost, ← WithTop.coe_add, add_zero]
    have hglen : ((chaseParents (dijkstraRun (gridRows E) (gridCols E) E
        (dijkstraFuel (gridRows E) (gridCols E))
        (dijkstraInit (gridRows E) (gridCols E))).parent
        (gridRows E * gridCols E) (gridRows E * gridCols E + 2)
        (some c0)).reverse.map (fun x => x % gridCols E)).length = E.length := by
      rw [List.length_map, hlen2]
      rfl
    have hgrange : SeamInRange (gridCols E)
        ((chaseParents (dijkstraRun (gridRows E) (gridCols E) E
          (dijkstraFuel (gridRows E) (gridCols E))
          (dijkstraInit (gridRows E) (gridCols E))).parent
          (gridRows E * gridCols E) (gridRows E * gridCols E + 2)
          (some c0)).reverse.map (fun x => x % gridCols E)) := by
      intro x hx
      rw [List.mem_map] at hx
      obtain ⟨y, _, rfl⟩ := hx
      exact Nat.mod_lt y hc
    have hgconn := chain_reverse_map_connected hchain
    have hdp_path := seam_hasPath_dst (E := E) hr hc hrE (findVerticalSeamDP_length hE)
      (findVerticalSeamDP_range hE hc) (findVerticalSeamDP_connected E)
    have hupper := hinv.final_opt hfin (seamCost E (findVerticalSeamDP E)) hdp_path
    rw [hdst_val] at hupper
    have hupper2 : seamCost E ((chaseParents (dijkstraRun (gridRows E) (gridCols E) E
        (dijkstraFuel (gridRows E) (gridCols E))
        (dijkstraInit (gridRows E) (gridCols E))).parent
        (gridRows E * gridCols E) (gridRows E * gridCols E + 2)
        (some c0)).reverse.map (fun x => x % gridCols E))
        ≤ seamCost E (findVerticalSeamDP E) := by
      exact_mod_cast hupper
    have hlower := findVerticalSeamDP_min hE hc _ hglen hgrange hgconn
    exact le_antisymm hupper2 hlower

lemma transposeE_length (E : Grid) : (transposeE E).length = gridCols E := by
  cases E with
  | nil => rfl
  | cons r0 rest => simp [transposeE, gridCols]

lemma gridCols_transposeE {E : Grid} (hE : E ≠ []) (hc : 0 < gridCols E) :
    gridCols (transposeE E) = E.length := by
  cases E with
  | nil => exact absurd rfl hE
  | cons r0 rest =>
    have hr0 : 0 < r0.length := hc
    obtain ⟨m, hm⟩ : ∃ m, r0.length = m + 1 := ⟨r0.length - 1, by omega⟩
    simp only [transposeE, gridCols]
    rw [hm, List.range_succ_eq_map]
    simp

end ChaseLemmas

section ClaimTheoremsGraph

/-- C2: on every non-empty energy grid with at least one column, each of the
three vertical seam finders returns a seam of length the row count, with every
coordinate below the column count and consecutive coordinates differing by at
most 1; each horizontal finder (which transposes and reuses the vertical one)
returns a seam of length the column count with coordinates below the row
count, with the same connectivity — including on 1-row or 1-column grids. -/
theorem seam_finder_invariants (E : Grid) (hE : E ≠ []) (hc : 0 < gridCols E) :
    ((findVerticalSeamDP E).length = gridRows E ∧
      SeamInRange (gridCols E) (findVerticalSeamDP E) ∧
      SeamConnected (findVerticalSeamDP E)) ∧
    ((findVerticalSeamGreedy E).length = gridRows E ∧
      SeamInRange (gridCols E) (findVerticalSeamGreedy E) ∧
      SeamConnected (findVerticalSeamGreedy E)) ∧
    ((findVerticalSeamGraphCut E).length = gridRows E ∧
      SeamInRange (gridCols E) (findVerticalSeamGraphCut E) ∧
      SeamConnected (findVerticalSeamGraphCut E)) ∧
    ((findHorizontalSeamDP E).length = gridCols E ∧
      SeamInRange (gridRows E) (findHorizontalSeamDP E) ∧
      SeamConnected (findHorizontalSeamDP E)) ∧
    ((findHorizontalSeamGreedy E).length = gridCols E ∧
      SeamInRange (gridRows E) (findHorizontalSeamGreedy E) ∧
      SeamConnected (findHorizontalSeamGreedy E)) ∧
    ((findHorizontalSeamGraphCut E).length = gridCols E ∧
      SeamInRange (gridRows E) (findHorizontalSeamGraphCut E) ∧
      SeamConnected (findHorizontalSeamGraphCut E)) := by
  have hT : transposeE E ≠ [] :=
    List.length_pos.mp (by rw [transposeE_length]; exact hc)
  have hcT : 0 < gridCols (transposeE E) := by
    rw [gridCols_transposeE hE hc]
    exact List.length_pos.mpr hE
  have hTlen : (transposeE E).length = gridCols E := transposeE_length E
  have hTcols : gridCols (transposeE E) = E.length := gridCols_transposeE hE hc
  obtain ⟨hgl, hgr, hgc⟩ := findVerticalSeamGraphCut_valid hE hc
  obtain ⟨hgl2, hgr2, hgc2⟩ := findVerticalSeamGraphCut_valid hT hcT
  refine ⟨⟨findVerticalSeamDP_length hE, findVerticalSeamDP_range hE hc,
      findVerticalSeamDP_connected E⟩,
    ⟨findVerticalSeamGreedy_length hE, findVerticalSeamGreedy_range hE hc,
      findVerticalSeamGreedy_connected E⟩,
    ⟨hgl, hgr, hgc⟩, ⟨?_, ?_, ?_⟩, ⟨?_, ?_, ?_⟩, ⟨?_, ?_, ?_⟩⟩
  · rw [show findHorizontalSeamDP E = findVerticalSeamDP (transposeE E) from rfl,
      findVerticalSeamDP_length hT, hTlen]
  · have h := findVerticalSeamDP_range hT hcT
    rw [hTcols] at h
    exact h
  · exact findVerticalSeamDP_connected (transposeE E)
  · rw [show findHorizontalSeamGreedy E = findVerticalSeamGreedy (transposeE E) from rfl,
      findVerticalSeamGreedy_length hT, hTlen]
  · have h := findVerticalSeamGreedy_range hT hcT
    rw [hTcols] at h
    exact h
  · exact findVerticalSeamGreedy_connected (transposeE E)
  · rw [show findHorizontalSeamGraphCut E = findVerticalSeamGraphCut (transposeE E)
      from rfl, hgl2, hTlen]
  · have h := hgr2
    rw [hTcols] at h
    exact h
  · exact hgc2

/-- Witness for C2 on the degenerate 1×1 grid. -/
theorem seam_finder_invariants_witness :
    ([[(1 : ℚ)]] : Grid) ≠ [] ∧ 0 < gridCols ([[(1 : ℚ)]] : Grid) ∧
      ((findVerticalSeamGraphCut [[(1 : ℚ)]]).length = gridRows ([[(1 : ℚ)]] : Grid) ∧
        SeamInRange (gridCols ([[(1 : ℚ)]] : Grid)) (findVerticalSeamGraphCut [[(1 : ℚ)]]) ∧
        SeamConnected (findVerticalSeamGraphCut [[(1 : ℚ)]])) :=
  ⟨by simp, by decide, (seam_finder_invariants [[(1 : ℚ)]] (by simp) (by decide)).2.2.1⟩

/-- C4: on every non-empty nonnegative energy grid (the program's energy
grids are gradient magnitudes, hence nonnegative), the graph shortest-path
seam and the DP seam have equal total energy, whether the graph strategy
reconstructs its own minimal path or falls back to the DP seam. -/
theorem graphcut_dp_equal_cost (E : Grid) (hE : E ≠ []) (hc : 0 < gridCols E)
    (hnn : ∀ r ∈ E, ∀ x ∈ r, 0 ≤ x) :
    seamCost E (findVerticalSeamGraphCut E) = seamCost E (findVerticalSeamDP E) :=
  findVerticalSeamGraphCut_cost hE hc hnn

/-- Witness for C4 on a concrete 2×2 grid. -/
theorem graphcut_dp_equal_cost_witness :
    (([[(1 : ℚ), 0], [0, 1]] : Grid) ≠ [] ∧
      0 < gridCols ([[(1 : ℚ), 0], [0, 1]] : Grid) ∧
      ∀ r ∈ ([[(1 : ℚ), 0], [0, 1]] : Grid), ∀ x ∈ r, 0 ≤ x) ∧
    seamCost [[(1 : ℚ), 0], [0, 1]] (findVerticalSeamGraphCut [[(1 : ℚ), 0], [0, 1]])
      = seamCost [[(1 : ℚ), 0], [0, 1]] (findVerticalSeamDP [[(1 : ℚ), 0], [0, 1]]) :=
  ⟨⟨by simp, by decide, by decide⟩,
    graphcut_dp_equal_cost [[(1 : ℚ), 0], [0, 1]] (by simp) (by decide) (by decide)⟩

/-- C6: when the graph strategy's reconstruction finds no parent for the sink,
or a path whose length differs from the row count, findVerticalSeamGraphCut
returns exactly the DP seam; the function is total (no error reaches the
caller), and on every non-empty grid the returned seam satisfies the length
and range (and connectivity) invariants. -/
theorem graphcut_fallback_safe (E : Grid) (hE : E ≠ []) (hc : 0 < gridCols E) :
    ((dijkstraRun (gridRows E) (gridCols E) E (dijkstraFuel (gridRows E) (gridCols E))
        (dijkstraInit (gridRows E) (gridCols E))).parent (gridRows E * gridCols E + 1)
        = none →
      findVerticalSeamGraphCut E = findVerticalSeamDP E) ∧
    (∀ c0 : ℕ,
      (dijkstraRun (gridRows E) (gridCols E) E (dijkstraFuel (gridRows E) (gridCols E))
        (dijkstraInit (gridRows E) (gridCols E))).parent (gridRows E * gridCols E + 1)
        = some c0 →
      ¬ ((chaseParents (dijkstraRun (gridRows E) (gridCols E) E
          (dijkstraFuel (gridRows E) (gridCols E))
          (dijkstraInit (gridRows E) (gridCols E))).parent
          (gridRows E * gridCols E) (gridRows E * gridCols E + 2)
          (some c0)).reverse).length = gridRows E →
      findVerticalSeamGraphCut E = findVerticalSeamDP E) ∧
    (findVerticalSeamGraphCut E).length = E.length ∧
    SeamInRange (gridCols E) (findVerticalSeamGraphCut E) ∧
    SeamConnected (findVerticalSeamGraphCut E) := by
  obtain ⟨h1, h2, h3⟩ := findVerticalSeamGraphCut_valid hE hc
  refine ⟨?_, ?_, h1, h2, h3⟩
  · intro hpar
    simp only [findVerticalSeamGraphCut]
    rw [hpar]
  · intro c0 hpar hne
    simp only [findVerticalSeamGraphCut]
    rw [hpar]
    dsimp only
    rw [if_neg hne]

/-- Witness for C6 on the 1×1 grid. -/
theorem graphcut_fallback_safe_witness :
    ([[(1 : ℚ)]] : Grid) ≠ [] ∧ 0 < gridCols ([[(1 : ℚ)]] : Grid) ∧
      (findVerticalSeamGraphCut [[(1 : ℚ)]]).length = ([[(1 : ℚ)]] : Grid).length ∧
      SeamInRange (gridCols ([[(1 : ℚ)]] : Grid)) (findVerticalSeamGraphCut [[(1 : ℚ)]]) :=
  ⟨by simp, by decide,
    (graphcut_fallback_safe [[(1 : ℚ)]] (by simp) (by decide)).2.2.1,
    (graphcut_fallback_safe [[(1 : ℚ)]] (by simp) (by decide)).2.2.2.1⟩

/-- C10: for a valid shrink request (target dimensions at most the current
ones), resizeImageGraphCut returns the shrunk image while returning the
carver unchanged — the working image member is never reassigned, so getImage
gives the same pixels after the call — whereas resizeImage returns its result
and a carver whose working image member has been replaced by that result, so
only after resizeImage does a subsequent operation start from the resized
image. -/
theorem resize_frame_effects (calcE : Image → Grid) (c : Carver) (w h : ℤ)
    (useDP : Bool) (hw : w ≤ (gridCols c.image : ℤ)) (hh : h ≤ (c.image.length : ℤ)) :
    (∃ res : Image,
      resizeImageGraphCut calcE c w h = Except.ok (res, c) ∧
      getImage (applyOp c (CarverOp.resizeGraphCut calcE w h)) = getImage c) ∧
    (∃ res : Image,
      resizeImage calcE c w h useDP = Except.ok (res, { c with image := res }) ∧
      getImage (applyOp c (CarverOp.resize calcE w h useDP)) = res) := by
  have hcond : ¬ ((gridCols c.image : ℤ) - w < 0 ∨ (c.image.length : ℤ) - h < 0) := by
    push_neg
    omega
  have heq : resizeImageGraphCut calcE c w h
      = Except.ok (graphLoopH calcE ((c.image.length : ℤ) - h).toNat
          (graphLoopV calcE ((gridCols c.image : ℤ) - w).toNat c.image), c) := by
    simp only [resizeImageGraphCut]
    rw [if_neg hcond]
  refine ⟨⟨_, heq, ?_⟩, ⟨_, rfl, rfl⟩⟩
  simp only [applyOp, heq]

/-- Witness for C10 at a 1×1 image kept at its own size. -/
theorem resize_frame_effects_witness :
    ((1 : ℤ) ≤ (gridCols (mkCarver [[(0, 0, 0)]]).image : ℤ) ∧
      (1 : ℤ) ≤ ((mkCarver [[(0, 0, 0)]]).image.length : ℤ)) ∧
    getImage (applyOp (mkCarver [[(0, 0, 0)]])
        (CarverOp.resizeGraphCut (fun _ => [[0]]) 1 1))
      = getImage (mkCarver [[(0, 0, 0)]]) := by
  refine ⟨⟨by decide, by decide⟩, ?_⟩
  obtain ⟨res, _, h2⟩ :=
    (resize_frame_effects (fun _ => [[0]]) (mkCarver [[(0, 0, 0)]]) 1 1 true
      (by decide) (by decide)).1
  exact h2

end ClaimTheoremsGraph

end SeamCarver
